import Mathlib

/-! gha-fix: the timeout fixer (`internal/timeout/fixer.go`)

A shallow embedding of `Fixer.Fix`, `getPositions`, `getKeyString`,
`getJobPropertyIndent` and `isGitHubWorkflow`, together with the few functions of
the Go standard library they call.

Conventions of the embedding.

* A Go `string` is its sequence of bytes, `List UInt8`.
* A Go `int` is an `Int`; `len` is a `Nat` cast to `Int` where it meets an `int`.
* A run-time panic (nil dereference, index or slice out of range) is the outer
  `Option` being `none`.
* A Go result `(value, error)` whose value is meaningless on error is an `Except`;
  the triple returned by `Fix` is kept as a triple.
* The YAML parser (`github.com/goccy/go-yaml`) is a third-party library: `Fix`
  takes it as a parameter `ParseBytes`, and the syntax tree is the part of the
  library's `ast` package that the fixer reads.
-/

namespace timeout

/-! ## Strings -/

/-- A Go string: a sequence of bytes. -/
abbrev GoString := List UInt8

/-- The bytes (UTF-8) of a string literal of the source. -/
def str (s : String) : GoString := s.data.flatMap String.utf8EncodeChar

/-- Go `s[:hi]` on a string: panics unless `0 ≤ hi ≤ len(s)`. -/
def sliceTo {α : Type} (s : List α) (hi : Int) : Option (List α) :=
  if 0 ≤ hi ∧ hi ≤ (s.length : Int) then some (s.take hi.toNat) else none

/-- Go `s[lo:]`: panics unless `0 ≤ lo ≤ len(s)`. -/
def sliceFrom {α : Type} (s : List α) (lo : Int) : Option (List α) :=
  if 0 ≤ lo ∧ lo ≤ (s.length : Int) then some (s.drop lo.toNat) else none

/-- Go `s[i]`: panics unless `0 ≤ i < len(s)`. -/
def index {α : Type} (s : List α) (i : Int) : Option α :=
  if 0 ≤ i then s[i.toNat]? else none

namespace strings

/-- Go `strings.HasPrefix(s, p)`. -/
def HasPrefix (s p : GoString) : Bool := p.isPrefixOf s

/-- Go `strings.Contains(s, substr)`: `substr` occurs at some offset of `s`. -/
def Contains : GoString → GoString → Bool
  | [], substr => substr.isPrefixOf []
  | b :: s, substr => substr.isPrefixOf (b :: s) || Contains s substr

/-- Go `strings.Index(s, c)` for a one-byte `c`: offset of the first occurrence,
`-1` when there is none. -/
def Index : GoString → UInt8 → Int
  | [], _ => -1
  | b :: s, c => if b = c then 0 else
      let i := Index s c
      if i < 0 then -1 else i + 1

/-- Go `strings.Split(s, sep)` for a one-byte separator (the source only splits on
a line feed). -/
def Split (s : GoString) (sep : UInt8) : List GoString := s.splitOn sep

/-- Go `strings.Join(elems, sep)` for a one-byte separator. -/
def Join (elems : List GoString) (sep : UInt8) : GoString := [sep].intercalate elems

/-- Go `strings.TrimLeft(s, cutset)` for an ASCII cutset: drops the leading bytes
that belong to the cutset. -/
def TrimLeft (s cutset : GoString) : GoString := s.dropWhile (fun b => cutset.contains b)

/-- The UTF-8 encodings of the runes for which `unicode.IsSpace` holds:
U+0009..U+000D, U+0020, U+0085, U+00A0, U+1680, U+2000..U+200A, U+2028, U+2029,
U+202F, U+205F, U+3000. -/
def spaceEncodings : List GoString :=
  [[0x09], [0x0A], [0x0B], [0x0C], [0x0D], [0x20],
   [0xC2, 0x85], [0xC2, 0xA0], [0xE1, 0x9A, 0x80],
   [0xE2, 0x80, 0x80], [0xE2, 0x80, 0x81], [0xE2, 0x80, 0x82], [0xE2, 0x80, 0x83],
   [0xE2, 0x80, 0x84], [0xE2, 0x80, 0x85], [0xE2, 0x80, 0x86], [0xE2, 0x80, 0x87],
   [0xE2, 0x80, 0x88], [0xE2, 0x80, 0x89], [0xE2, 0x80, 0x8A],
   [0xE2, 0x80, 0xA8], [0xE2, 0x80, 0xA9], [0xE2, 0x80, 0xAF],
   [0xE2, 0x81, 0x9F], [0xE3, 0x80, 0x80]]

/-- Number of bytes of the member of `table` that `s` starts with, `0` when it
starts with none. -/
def leadingWidth (table : List GoString) (s : GoString) : Nat :=
  match table.find? (fun e => e.isPrefixOf s) with
  | some e => e.length
  | none => 0

/-- Repeatedly drops a leading member of `table`; `fuel` bounds the number of
rounds and `len(s)` rounds always suffice. -/
def trimLeading (table : List GoString) : Nat → GoString → GoString
  | 0, s => s
  | fuel + 1, s =>
    match leadingWidth table s with
    | 0 => s
    | w + 1 => trimLeading table fuel (s.drop (w + 1))

/-- Go `strings.TrimLeftFunc(s, unicode.IsSpace)`: drops the leading white-space
runes. A rune decodes as white space exactly when the bytes at that place are one
of `spaceEncodings` (an invalid byte decodes as U+FFFD, which is not white space). -/
def TrimLeftSpace (s : GoString) : GoString := trimLeading spaceEncodings s.length s

/-- Go `strings.TrimRightFunc(s, unicode.IsSpace)`: drops the trailing white-space
runes (decoded backwards, which finds a white-space rune exactly when the string
ends with one of `spaceEncodings`). -/
def TrimRightSpace (s : GoString) : GoString :=
  (trimLeading (spaceEncodings.map List.reverse) s.length s.reverse).reverse

/-- Go `strings.TrimSpace(s)`: leading and trailing white space removed. -/
def TrimSpace (s : GoString) : GoString := TrimRightSpace (TrimLeftSpace s)

end strings

/-- The decimal digits of `n`, least significant first in the recursion, as
`fmt` produces them for the verb `%d`; `fuel` bounds the number of digits. -/
def formatUint.go : Nat → Nat → GoString → GoString
  | 0, _, acc => acc
  | fuel + 1, n, acc =>
    let acc1 := (48 + n % 10).toUInt8 :: acc
    if n / 10 = 0 then acc1 else formatUint.go fuel (n / 10) acc1

/-- The text of `fmt.Sprintf("%d", n)` for an unsigned `n`. -/
def formatUint (n : Nat) : GoString := formatUint.go (n + 1) n []

/-! ## Errors -/

/-- The error values that `Fix` can return: the three sentinels of the package, an
error of the YAML parser, and the wrappers of `cockroachdb/errors`. -/
inductive GoError where
  | ErrIndentNotCalculated : GoError
  | ErrFlowStyleNotSupported : GoError
  | ErrCompactJobSyntaxNotSupported : GoError
  | Yaml (msg : String) : GoError
  | WithStack (cause : GoError) : GoError
  | Wrapf (cause : GoError) (line : Int) : GoError
  deriving DecidableEq, Repr

/-- Go `errors.Is(err, target)` for a sentinel `target`: follows the chain of
wrapped causes. -/
def GoError.Is : GoError → GoError → Bool
  | .WithStack cause, target => (GoError.WithStack cause == target) || cause.Is target
  | .Wrapf cause line, target => (GoError.Wrapf cause line == target) || cause.Is target
  | e, target => e == target

/-! ## The syntax tree of `goccy/go-yaml` read by the fixer -/

/-- The `token.Position` fields read by the fixer (1-based line and column). -/
structure Position where
  Line : Int
  Column : Int
  deriving DecidableEq, Repr

/-- A `token.Token`; its `Position` pointer may be nil. -/
structure Token where
  Position : Option Position
  deriving DecidableEq, Repr

mutual
/-- An `ast.Node`. The fixer distinguishes `*ast.StringNode`, `*ast.MappingKeyNode`
and `*ast.MappingNode`; every other node type is `OtherNode`. The first field is
what `GetToken()` returns (possibly nil). -/
inductive Node where
  | StringNode (token : Option Token) (Value : GoString) : Node
  | MappingKeyNode (token : Option Token) (Value : Option Node) : Node
  | MappingNode (token : Option Token) (Values : List MappingValueNode) : Node
  | OtherNode (token : Option Token) : Node
/-- An `ast.MappingValueNode`: `Key` and `Value` are interface values and may be
nil (`none`). -/
inductive MappingValueNode where
  | mk (Key : Option Node) (Value : Option Node) : MappingValueNode
end

/-- Field `Key` of a mapping entry. -/
def MappingValueNode.Key : MappingValueNode → Option Node
  | .mk k _ => k

/-- Field `Value` of a mapping entry. -/
def MappingValueNode.Value : MappingValueNode → Option Node
  | .mk _ v => v

/-- Method `GetToken()` of a node. -/
def Node.GetToken : Node → Option Token
  | .StringNode t _ => t
  | .MappingKeyNode t _ => t
  | .MappingNode t _ => t
  | .OtherNode t => t

/-- An `ast.DocumentNode`; `Body` may be nil. -/
structure DocumentNode where
  Body : Option Node

/-- An `ast.File`. -/
structure File where
  Docs : List DocumentNode

/-- The YAML parser `parser.ParseBytes(content, parser.ParseComments)`. -/
abbrev Parser := GoString → Except GoError File

/-! ## `fixer.go` -/

/-- The receiver of `Fix`; `TimeoutMinutes` is a `uint64`. -/
structure Fixer where
  TimeoutMinutes : Nat

/-- An insertion position: line and column of a job key. -/
structure position where
  Line : Int
  Column : Int
  deriving DecidableEq, Repr

/-- Extracts the string value from a map key: a string node, or a mapping-key node
wrapping a string node; the empty string otherwise. -/
def getKeyString (key : Node) : GoString :=
  match key with
  | .StringNode _ v => v
  | .MappingKeyNode _ (some (.StringNode _ v)) => v
  | _ => []

/-- The scan of `getJobPropertyIndent` over `lines[jobLine:]`: the first line whose
trimmed text starts with a recognised job property and for which
`len(line) - len(trimmed)` is positive gives `line[:len(line) - len(trimmed)]`. -/
def getJobPropertyIndent.loop : List GoString → Option (Except GoError GoString)
  | [] => some (.error .ErrIndentNotCalculated)
  | line :: rest =>
    let trimmed := strings.TrimSpace line
    if strings.HasPrefix trimmed (str "runs-on:") ||
        strings.HasPrefix trimmed (str "steps:") ||
        strings.HasPrefix trimmed (str "permissions:") ||
        strings.HasPrefix trimmed (str "strategy:") ||
        strings.HasPrefix trimmed (str "timeout-minutes:") ||
        strings.HasPrefix trimmed (str "needs:") then
      let indentLen : Int := (line.length : Int) - (trimmed.length : Int)
      if indentLen > 0 then
        match sliceTo line indentLen with
        | some indent => some (.ok indent)
        | none => none
      else getJobPropertyIndent.loop rest
    else getJobPropertyIndent.loop rest

/-- Determines the indentation for the line inserted after job line `jobLine`
(`lines[jobLine]` is the line that follows the job key). -/
def getJobPropertyIndent (lines : List GoString) (jobLine : Int) :
    Option (Except GoError GoString) :=
  if jobLine < (lines.length : Int) then
    match index lines jobLine with
    | none => none
    | some line =>
      if strings.Contains line (str "\x7b") && strings.Contains line (str "runs-on:") &&
          decide (strings.Index line 58 > 0) then
        let indentLen : Int :=
          (line.length : Int) - ((strings.TrimLeft line (str " \t")).length : Int)
        match sliceTo line indentLen with
        | some indent => some (.ok (indent ++ str "  "))
        | none => none
      else getJobPropertyIndent.loop (lines.drop jobLine.toNat)
  else getJobPropertyIndent.loop (lines.drop jobLine.toNat)

/-- The table `validTopLevelKeys`. -/
def validTopLevelKeys (key : GoString) : Bool :=
  [str "name", str "run-name", str "on", str "permissions", str "env", str "defaults",
    str "concurrency", str "jobs", str "#"].contains key

/-- First loop of `isGitHubWorkflow` on one entry of the root mapping: the entry
has a key whose string is not empty and not in `validTopLevelKeys`. -/
def isGitHubWorkflow.invalidKey (value : MappingValueNode) : Bool :=
  match value.Key with
  | none => false
  | some k => decide (getKeyString k ≠ []) && !validTopLevelKeys (getKeyString k)

/-- Innermost loop of `isGitHubWorkflow`: the property is keyed `runs-on`, `uses`
or `container`. -/
def isGitHubWorkflow.workflowProp (prop : MappingValueNode) : Bool :=
  match prop.Key with
  | none => false
  | some k =>
    decide (getKeyString k = str "runs-on") || decide (getKeyString k = str "uses") ||
      decide (getKeyString k = str "container")

/-- Loop of `isGitHubWorkflow` over the jobs: the job has a key and a value, the
value is a mapping, and one of its properties is workflow-specific. -/
def isGitHubWorkflow.validJob (jobValue : MappingValueNode) : Bool :=
  match jobValue.Key, jobValue.Value with
  | some _, some (.MappingNode _ props) => props.any isGitHubWorkflow.workflowProp
  | _, _ => false

/-- Second loop of `isGitHubWorkflow` on one entry of the root mapping: the entry is
keyed `jobs`, its value is a mapping, and one of its jobs is a valid job. -/
def isGitHubWorkflow.jobsEntry (value : MappingValueNode) : Bool :=
  match value.Key, value.Value with
  | some k, some (.MappingNode _ jobs) =>
    decide (getKeyString k = str "jobs") && jobs.any isGitHubWorkflow.validJob
  | _, _ => false

/-- Loop of `isGitHubWorkflow` over the documents: documents without a mapping
body are skipped; the first mapping document with an invalid top-level key gives
`false`, one with a valid job structure gives `true`. -/
def isGitHubWorkflow.docs : List DocumentNode → Bool
  | [] => false
  | doc :: rest =>
    match doc.Body with
    | some (.MappingNode _ values) =>
      if values.any isGitHubWorkflow.invalidKey then false
      else if values.any isGitHubWorkflow.jobsEntry then true
      else isGitHubWorkflow.docs rest
    | _ => isGitHubWorkflow.docs rest

/-- Checks that the file is a GitHub workflow: all top-level keys valid and at
least one job with a workflow-specific property. -/
def isGitHubWorkflow (file : File) : Bool := isGitHubWorkflow.docs file.Docs

/-- Line/column of the token of a node, when the token and its position are both
non-nil (`token != nil && token.Position != nil`). -/
def tokenPosition (n : Node) : Option Position :=
  match n.GetToken with
  | some t => t.Position
  | none => none

/-- Property loop of `getPositions` for a flow-style job: the flags
`(hasRunsOn, hasTimeout, hasUses)` after all properties (no `break`). -/
def getPositions.flowProps : List MappingValueNode → Bool × Bool × Bool → Bool × Bool × Bool
  | [], flags => flags
  | prop :: rest, (hasRunsOn, hasTimeout, hasUses) =>
    match prop.Key with
    | none => getPositions.flowProps rest (hasRunsOn, hasTimeout, hasUses)
    | some k =>
      if getKeyString k = str "runs-on" then
        getPositions.flowProps rest (true, hasTimeout, hasUses)
      else if getKeyString k = str "timeout-minutes" then
        getPositions.flowProps rest (hasRunsOn, true, hasUses)
      else if getKeyString k = str "uses" then
        getPositions.flowProps rest (hasRunsOn, hasTimeout, true)
      else getPositions.flowProps rest (hasRunsOn, hasTimeout, hasUses)

/-- Property loop of `getPositions` for a regular job: the flags
`(hasTimeout, hasUses)`; the loop stops at the first property keyed
`timeout-minutes` or `uses`. -/
def getPositions.blockProps : List MappingValueNode → Bool × Bool
  | [] => (false, false)
  | prop :: rest =>
    match prop.Key with
    | none => getPositions.blockProps rest
    | some k =>
      if getKeyString k = str "timeout-minutes" then (true, false)
      else if getKeyString k = str "uses" then (false, true)
      else getPositions.blockProps rest

/-- The flow-style detection of `getPositions` for a job with key `key`: `true`
when the key token and the value token have positions on the same line. Calling
`GetToken` on a nil `Value` panics. -/
def getPositions.isFlowStyle (key : Node) (jobValue : MappingValueNode) : Option Bool :=
  match tokenPosition key with
  | none => some false
  | some kp =>
    match jobValue.Value with
    | none => none
    | some v =>
      match tokenPosition v with
      | some vp => some (decide (kp.Line = vp.Line))
      | none => some false

/-- Body of the loop of `getPositions` over the jobs: `positions` extended by the
position of this job when it is to receive a line. -/
def getPositions.job (positions : List position) (jobValue : MappingValueNode) :
    Option (List position) :=
  match jobValue.Key with
  | none => some positions
  | some key =>
    match getPositions.isFlowStyle key jobValue with
    | none => none
    | some true =>
      let flags : Bool × Bool × Bool :=
        match jobValue.Value with
        | some (.MappingNode _ props) => getPositions.flowProps props (false, false, false)
        | _ => (false, false, false)
      if flags.1 && !flags.2.1 && !flags.2.2 then
        match tokenPosition key with
        | some kp => some (positions ++ [⟨kp.Line, kp.Column⟩])
        | none => none
      else some positions
    | some false =>
      match jobValue.Value with
      | some (.MappingNode _ props) =>
        let flags := getPositions.blockProps props
        if !flags.1 && !flags.2 then
          match tokenPosition key with
          | some kp => some (positions ++ [⟨kp.Line, kp.Column⟩])
          | none => some positions
        else some positions
      | _ => some positions

/-- Loop of `getPositions` over the jobs of one `jobs` mapping. -/
def getPositions.jobs : List MappingValueNode → List position → Option (List position)
  | [], positions => some positions
  | jobValue :: rest, positions =>
    match getPositions.job positions jobValue with
    | some positions1 => getPositions.jobs rest positions1
    | none => none

/-- Loop of `getPositions` over the entries of a root mapping: only entries keyed
`jobs` whose value is a mapping are entered. -/
def getPositions.values : List MappingValueNode → List position → Option (List position)
  | [], positions => some positions
  | value :: rest, positions =>
    match value.Key, value.Value with
    | some k, some (.MappingNode _ jobs) =>
      if getKeyString k = str "jobs" then
        match getPositions.jobs jobs positions with
        | some positions1 => getPositions.values rest positions1
        | none => none
      else getPositions.values rest positions
    | _, _ => getPositions.values rest positions

/-- Loop of `getPositions` over the documents. -/
def getPositions.docs : List DocumentNode → List position → Option (List position)
  | [], positions => some positions
  | doc :: rest, positions =>
    match doc.Body with
    | some (.MappingNode _ values) =>
      match getPositions.values values positions with
      | some positions1 => getPositions.docs rest positions1
      | none => none
    | _ => getPositions.docs rest positions

/-- Finds all job definitions that do not have `timeout-minutes`. -/
def getPositions (file : File) : Option (List position) := getPositions.docs file.Docs []

/-- A line of Gate 2 that signals a flow-style job body. -/
def Fix.isFlowLine (line : GoString) : Bool :=
  strings.Contains line (str ": \x7b") &&
    (strings.Contains line (str "runs-on:") ||
      strings.Contains line (str "steps:") ||
      strings.Contains line (str "uses:"))

/-- The line-by-line scan of `Fix` before parsing: the error of the first line
that is a flow-style line or holds `:runs-on:`. -/
def Fix.scanLines : List GoString → Option GoError
  | [] => none
  | line :: rest =>
    if Fix.isFlowLine line then some .ErrFlowStyleNotSupported
    else if strings.Contains line (str ":runs-on:") then some .ErrCompactJobSyntaxNotSupported
    else Fix.scanLines rest

/-- The text of the inserted line, `fmt.Sprintf("%stimeout-minutes: %d", indent, n)`. -/
def Fix.timeoutLine (f : Fixer) (indent : GoString) : GoString :=
  indent ++ str "timeout-minutes: " ++ formatUint f.TimeoutMinutes

/-- The insertion loop of `Fix`; the first argument lists the positions in the
order in which the loop visits them (last to first). The result is the final
`(lines, modified)`, or the wrapped error of a failed indent calculation. -/
def Fix.insertLoop (f : Fixer) :
    List position → List GoString → Bool → Option (Except GoError (List GoString × Bool))
  | [], lines, modified => some (.ok (lines, modified))
  | pos :: rest, lines, modified =>
    if pos.Line ≤ 0 ∨ pos.Line > (lines.length : Int) then
      Fix.insertLoop f rest lines modified
    else
      match getJobPropertyIndent lines pos.Line with
      | none => none
      | some (.error err) => some (.error (.Wrapf err (pos.Line + 1)))
      | some (.ok indent) =>
        match sliceTo lines pos.Line, sliceFrom lines pos.Line with
        | some before, some after =>
          Fix.insertLoop f rest (before ++ [Fix.timeoutLine f indent] ++ after) true
        | _, _ => none

/-- Adds `timeout-minutes` to the jobs that do not have it: returns
`(text, changed, error)`; `none` is a panic. -/
def Fix (ParseBytes : Parser) (f : Fixer) (content : GoString) :
    Option (GoString × Bool × Option GoError) :=
  if !strings.Contains content (str "jobs:") || !strings.Contains content (str "runs-on:") then
    some (content, false, none)
  else
    match Fix.scanLines (strings.Split content 10) with
    | some err => some (content, false, some err)
    | none =>
      match ParseBytes content with
      | .error err => some (content, false, some (.WithStack err))
      | .ok file =>
        if !isGitHubWorkflow file then some (content, false, none)
        else
          match getPositions file with
          | none => none
          | some positions =>
            if positions.length = 0 then some (content, false, none)
            else
              match Fix.insertLoop f positions.reverse (strings.Split content 10) false with
              | none => none
              | some (.error err) => some (content, false, some err)
              | some (.ok (lines, modified)) =>
                if !modified then some (content, false, none)
                else some (strings.Join lines 10, true, none)

/-! ## Auxiliary definitions used in the statements -/

/-- The line array with `t` inserted after its first `p` lines, as the three
`append`s of the insertion loop build it. -/
def insertAfter (lines : List GoString) (p : Nat) (t : GoString) : List GoString :=
  lines.take p ++ [t] ++ lines.drop p

/-- The insertions `(p, t)` applied from the last pair to the first. -/
def spliceAll : List (Nat × GoString) → List GoString → List GoString
  | [], lines => lines
  | (p, t) :: rest, lines => insertAfter (spliceAll rest lines) p t

/-! ## Concrete workflows

The syntax trees below are the ones a YAML parser produces for the quoted texts:
keys and scalars are string nodes carrying the line and column of their first
character, a block mapping carries the position of its first key. -/

/-- A token at line `l`, column `c`. -/
def tokenAt (l c : Int) : Option Token := some ⟨some ⟨l, c⟩⟩

/-- A string node (key or scalar) at line `l`, column `c`. -/
def stringAt (l c : Int) (s : String) : Option Node := some (.StringNode (tokenAt l c) (str s))

/-- A mapping node whose first token is at line `l`, column `c`. -/
def mappingAt (l c : Int) (values : List MappingValueNode) : Option Node :=
  some (.MappingNode (tokenAt l c) values)

/-- A file of one document with the given root mapping entries. -/
def workflowFile (values : List MappingValueNode) : File := ⟨[⟨mappingAt 1 1 values⟩]⟩

/-- Scenario A: one job `test` with `runs-on`, properties indented four spaces. -/
def scenarioA : GoString := str "jobs:\n  test:\n    runs-on: ubuntu-latest"

/-- The tree of `scenarioA`. -/
def scenarioAFile : File :=
  workflowFile [.mk (stringAt 1 1 "jobs") (mappingAt 2 3
    [.mk (stringAt 2 3 "test") (mappingAt 3 5
      [.mk (stringAt 3 5 "runs-on") (stringAt 3 14 "ubuntu-latest")])])]

/-- The expected result of the fixer on `scenarioA` with timeout 5. -/
def scenarioAFixed : GoString :=
  str "jobs:\n  test:\n    timeout-minutes: 5\n    runs-on: ubuntu-latest"

/-- Two jobs, where the lines of the second job end in a bare carriage return: the
text has three lines when split on line feeds, while the parser, for which a
carriage return also ends a line, reports the key of job `b` on line 4. -/
def bareCR : GoString := str "jobs:\n  a:\n    runs-on: x\r  b:\r    runs-on: y"

/-- The tree of `bareCR`. -/
def bareCRFile : File :=
  workflowFile [.mk (stringAt 1 1 "jobs") (mappingAt 2 3
    [.mk (stringAt 2 3 "a") (mappingAt 3 5 [.mk (stringAt 3 5 "runs-on") (stringAt 3 14 "x")]),
     .mk (stringAt 4 3 "b") (mappingAt 5 5 [.mk (stringAt 5 5 "runs-on") (stringAt 5 14 "y")])])]

/-- What the fixer returns for `bareCR` with timeout 5. -/
def bareCRFixed : GoString :=
  str "jobs:\n  a:\n    timeout-minutes: 5\n    runs-on: x\r  b:\r    runs-on: y"

/-- A job whose first property is `runs-on: ${{ matrix.os }}`, properties
indented four spaces. -/
def matrixWorkflow : GoString := str "jobs:\n  build:\n    runs-on: $\x7b\x7b matrix.os \x7d\x7d"

/-- The tree of `matrixWorkflow`. -/
def matrixFile : File :=
  workflowFile [.mk (stringAt 1 1 "jobs") (mappingAt 2 3
    [.mk (stringAt 2 3 "build") (mappingAt 3 5
      [.mk (stringAt 3 5 "runs-on") (stringAt 3 14 "$\x7b\x7b matrix.os \x7d\x7d")])])]

/-- What the fixer returns for `matrixWorkflow` with timeout 5: the inserted line is
indented six spaces, the property below it four. -/
def matrixFixed : GoString :=
  str "jobs:\n  build:\n      timeout-minutes: 5\n    runs-on: $\x7b\x7b matrix.os \x7d\x7d"

/-- Scenario A with CRLF line endings. -/
def crlfWorkflow : GoString := str "jobs:\r\n  test:\r\n    runs-on: ubuntu-latest\r\n"

/-- The tree of `crlfWorkflow` (the same shape and positions as `scenarioAFile`). -/
def crlfFile : File := scenarioAFile

/-- What the fixer returns for `crlfWorkflow` with timeout 5: the inserted line is
four spaces, the letter `r`, then `timeout-minutes: 5`. -/
def crlfFixed : GoString :=
  str "jobs:\r\n  test:\r\n    rtimeout-minutes: 5\n    runs-on: ubuntu-latest\r\n"

/-- The tree of `crlfFixed`: job `test` has the properties `rtimeout-minutes` and
`runs-on`. -/
def crlfFixedFile : File :=
  workflowFile [.mk (stringAt 1 1 "jobs") (mappingAt 2 3
    [.mk (stringAt 2 3 "test") (mappingAt 3 5
      [.mk (stringAt 3 5 "rtimeout-minutes") (stringAt 3 23 "5"),
       .mk (stringAt 4 5 "runs-on") (stringAt 4 14 "ubuntu-latest")])])]

/-- A parser that answers `crlfFixedFile` on `crlfFixed` and `crlfFile` otherwise. -/
def crlfParser : Parser := fun content =>
  if content = crlfFixed then .ok crlfFixedFile else .ok crlfFile

/-- What the fixer returns when run on its own output `crlfFixed`. -/
def crlfFixedTwice : GoString :=
  str "jobs:\r\n  test:\r\n    rtimeout-minutes: 5\n    rtimeout-minutes: 5\n    runs-on: ubuntu-latest\r\n"

/-- A job with only a `container` property; the text `runs-on:` occurs in a comment. -/
def containerOnly : GoString := str "jobs:\n  a:\n    container: x\n# runs-on:"

/-- The tree of `containerOnly`. -/
def containerOnlyFile : File :=
  workflowFile [.mk (stringAt 1 1 "jobs") (mappingAt 2 3
    [.mk (stringAt 2 3 "a") (mappingAt 3 5
      [.mk (stringAt 3 5 "container") (stringAt 3 16 "x")])])]

/-- Scenario C: a flow-style job body. -/
def scenarioC : GoString :=
  str "jobs:\n  flow-job: \x7b runs-on: ubuntu-latest, steps: [ \x7b run: echo test \x7d ] \x7d"

/-- The text of the test `TestFixer_Fix_CompactJobSyntax`. -/
def compactJob : GoString := str "jobs:\n  compact:runs-on: ubuntu-latest"

/-- Malformed YAML (an unclosed flow sequence) that holds both `jobs:` and
`runs-on:`. -/
def malformed : GoString := str "jobs: [invalid\n# runs-on: x"

/-- The error with which a YAML parser rejects `malformed`. -/
def malformedError : GoError := .Yaml "sequence end token ']' not found"

/-- The text of the test case `invalid yaml`; it does not hold `runs-on:`. -/
def invalidYaml : GoString := str "jobs: [invalid"

/-- The text of the test case `non-github-workflow yaml with jobs and runs-on`. -/
def kubernetesLike : GoString :=
  str "# This is a Kubernetes config file\nkind: Deployment\napiVersion: apps/v1\nmetadata:\n  name: example\njobs:\n  example:\n    runs-on: ubuntu-latest"

/-- The entries of the root mapping of `kubernetesLike`. -/
def kubernetesLikeValues : List MappingValueNode :=
    [.mk (stringAt 2 1 "kind") (stringAt 2 7 "Deployment"),
     .mk (stringAt 3 1 "apiVersion") (stringAt 3 13 "apps/v1"),
     .mk (stringAt 4 1 "metadata") (mappingAt 5 3
       [.mk (stringAt 5 3 "name") (stringAt 5 9 "example")]),
     .mk (stringAt 6 1 "jobs") (mappingAt 7 3
       [.mk (stringAt 7 3 "example") (mappingAt 8 5
         [.mk (stringAt 8 5 "runs-on") (stringAt 8 14 "ubuntu-latest")])])]

/-- The tree of `kubernetesLike`. -/
def kubernetesLikeFile : File := workflowFile kubernetesLikeValues

/-- A file that is not a workflow (top-level key `kind`) and holds a flow-style job
line together with `jobs:` and `runs-on:`. -/
def flowInManifest : GoString :=
  str "kind: Deployment\njobs:\n  example: \x7b runs-on: ubuntu-latest \x7d"

/-- The tree of `flowInManifest`; the value of the job starts on the line of its key. -/
def flowInManifestFile : File :=
  workflowFile
    [.mk (stringAt 1 1 "kind") (stringAt 1 7 "Deployment"),
     .mk (stringAt 2 1 "jobs") (mappingAt 3 3
       [.mk (stringAt 3 3 "example") (mappingAt 3 12
         [.mk (stringAt 3 14 "runs-on") (stringAt 3 23 "ubuntu-latest")])])]

/-- A workflow whose only job declares `container` and `steps`; the text `runs-on:`
does not occur in it. -/
def containerSteps : GoString := str "jobs:\n  a:\n    container: x\n    steps: []"

/-- The tree of `containerSteps`. -/
def containerStepsFile : File :=
  workflowFile [.mk (stringAt 1 1 "jobs") (mappingAt 2 3
    [.mk (stringAt 2 3 "a") (mappingAt 3 5
      [.mk (stringAt 3 5 "container") (stringAt 3 16 "x"),
       .mk (stringAt 4 5 "steps") (some (.OtherNode (tokenAt 4 12)))])])]

/-- The test of the scan of `getJobPropertyIndent` on a trimmed line: it starts with
one of the recognised job properties. -/
def recognisedProperty (trimmed : GoString) : Bool :=
  strings.HasPrefix trimmed (str "runs-on:") ||
    strings.HasPrefix trimmed (str "steps:") ||
    strings.HasPrefix trimmed (str "permissions:") ||
    strings.HasPrefix trimmed (str "strategy:") ||
    strings.HasPrefix trimmed (str "timeout-minutes:") ||
    strings.HasPrefix trimmed (str "needs:")

/-- The flow-style special case of `getJobPropertyIndent` applies: `lines[jobLine]`
exists, holds a brace and `runs-on:`, and its first colon is not at offset 0. -/
def flowStyleCase (lines : List GoString) (jobLine : Int) : Bool :=
  match index lines jobLine with
  | some line =>
    strings.Contains line (str "\x7b") && strings.Contains line (str "runs-on:") &&
      decide (strings.Index line 58 > 0)
  | none => false

/-- The lines of the test case `4 space indent` of `TestGetJobPropertyIndent`. -/
def fourSpaceLines : List GoString :=
  [str "jobs:", str "    test:", str "        runs-on: ubuntu-latest"]

/-- Lines in which the first recognised property after the job key is not indented. -/
def unindentedLines : List GoString :=
  [str "jobs:", str "  test:", str "runs-on: x", str "    steps: []"]

/-- Lines whose job line is a flow-style job, as in the comment of the special case
of `getJobPropertyIndent`. -/
def flowJobLines : List GoString := [str "jobs:", str "  a: \x7b runs-on: x \x7d"]

/-- The text of the test `TestFixer_Fix_EmptyJobs`. -/
def emptyJobs : GoString :=
  str "jobs:\n  empty-job:\n\n  empty-with-comment:\n    # This job is empty\n\n  has-content:\n    runs-on: ubuntu-latest"

/-- The tree of `emptyJobs`: the two empty jobs have a null value. -/
def emptyJobsFile : File :=
  workflowFile [.mk (stringAt 1 1 "jobs") (mappingAt 2 3
    [.mk (stringAt 2 3 "empty-job") (some (.OtherNode (tokenAt 2 12))),
     .mk (stringAt 4 3 "empty-with-comment") (some (.OtherNode (tokenAt 4 21))),
     .mk (stringAt 7 3 "has-content") (mappingAt 8 5
       [.mk (stringAt 8 5 "runs-on") (stringAt 8 14 "ubuntu-latest")])])]

/-- The expected text of the test `TestFixer_Fix_EmptyJobs`. -/
def emptyJobsFixed : GoString :=
  str "jobs:\n  empty-job:\n\n  empty-with-comment:\n    # This job is empty\n\n  has-content:\n    timeout-minutes: 5\n    runs-on: ubuntu-latest"

/-! ## Package `pin`

The sources of `parseLine`, `replaceLine` and `Apply` are not available; their tests
(`pin/pin_test.go`) are. The definitions of this section follow
§3, §4.1 and §4.2 of the specification and agree with every row of the test tables.
White space is a space or a tab. -/

namespace pin

/-- Modelled from the spec: the type `ActionDef` (§3 ActionReference), whose
declaration is missing; the field names are those of the tests. -/
structure ActionDef where
  Owner : GoString
  Repo : GoString
  Path : GoString
  RefOrSHA : GoString
  deriving DecidableEq, Repr

/-- Modelled from the spec: a hexadecimal digit, for `HasCommitSHA`. -/
def isHexByte (b : UInt8) : Bool :=
  (48 ≤ b && b ≤ 57) || (97 ≤ b && b ≤ 102) || (65 ≤ b && b ≤ 70)

/-- Modelled from the spec: the method `HasCommitSHA`, missing from the sources:
"true iff `refOrSHA` matches a 40-character hexadecimal string". -/
def ActionDef.HasCommitSHA (d : ActionDef) : Bool :=
  d.RefOrSHA.length == 40 && d.RefOrSHA.all isHexByte

/-- Modelled from the spec: the type `ResolvedVersion` (§3), whose declaration is
missing. -/
structure ResolvedVersion where
  CommitSHA : GoString
  RefComment : GoString
  deriving DecidableEq, Repr

/-- Modelled from the spec: the errors of the version resolver (§6), the sentinel
`AlreadyResolvedError` and any other error. -/
inductive ResolveError where
  | AlreadyResolvedError : ResolveError
  | Other (msg : String) : ResolveError
  deriving DecidableEq, Repr

/-- The version resolver, an external collaborator (§6):
`resolve(ref) -> (ResolvedVersion, error)`. -/
abbrev Resolver := ActionDef → Except ResolveError ResolvedVersion

/-- Modelled from the spec: the result of `parseLine` (§3 ParsedUsesLine), whose
declaration is missing: the reference, the text before the reference, and the
trailing comment. -/
structure ParsedLine where
  definition : ActionDef
  linePrefix : GoString
  comment : GoString
  deriving DecidableEq, Repr

/-- Modelled from the spec: part of `parseLine`, the white space of a line (space or
tab). -/
def isBlank (b : UInt8) : Bool := b == 32 || b == 9

/-- Modelled from the spec: part of `parseLine`, drops the leading white space
("arbitrary leading whitespace"). -/
def skipBlank (s : GoString) : GoString := s.dropWhile isBlank

/-- Modelled from the spec: part of `parseLine`, drops the optional list marker `-`
and the white space after it. -/
def skipMarker (s : GoString) : GoString :=
  match s with
  | b :: rest => if b = 45 then skipBlank rest else s
  | [] => []

/-- Modelled from the spec: part of `parseLine`, drops the key `uses`, bare,
double-quoted or single-quoted; `none` when the text does not start with it. -/
def skipKey (s : GoString) : Option GoString :=
  if (str "uses").isPrefixOf s then some (s.drop 4)
  else if (str "\"uses\"").isPrefixOf s then some (s.drop 6)
  else if (str "'uses'").isPrefixOf s then some (s.drop 6)
  else none

/-- Modelled from the spec: part of `parseLine`, drops the colon after the key, with
the white space on both sides of it ("0+ spaces around `:`"). -/
def skipColon (s : GoString) : Option GoString :=
  match skipBlank s with
  | b :: rest => if b = 58 then some (skipBlank rest) else none
  | [] => none

/-- Modelled from the spec: part of `parseLine`, a byte of a reference: no white
space, no quote, no `#`. -/
def isRefByte (b : UInt8) : Bool := !(isBlank b || b == 34 || b == 39 || b == 35)

/-- Modelled from the spec: part of `parseLine`, reads the reference value,
unquoting it if it is quoted: the reference text and what follows it (after the
closing quote). -/
def parseValue (s : GoString) : Option (GoString × GoString) :=
  match s with
  | b :: rest =>
    if b = 34 ∨ b = 39 then
      match rest.dropWhile isRefByte with
      | c :: after => if c = b then some (rest.takeWhile isRefByte, after) else none
      | [] => none
    else some (s.takeWhile isRefByte, s.dropWhile isRefByte)
  | [] => none

/-- Modelled from the spec: part of `parseLine`, splits a reference
`owner/repo[/path]@ref` at its first `@` and at the slashes before it; owner, repo
and ref must not be empty. -/
def splitRef (token : GoString) : Option ActionDef :=
  match token.dropWhile (fun b => b != 64) with
  | _ :: ref =>
    if ref = [] then none
    else
      match (token.takeWhile (fun b => b != 64)).splitOn 47 with
      | owner :: repo :: path =>
        if owner = [] ∨ repo = [] then none
        else some ⟨owner, repo, [47].intercalate path, ref⟩
      | _ => none
  | [] => none

/-- Modelled from the spec: part of `parseLine`, reads what follows the reference:
white space, then nothing or a comment that starts with `#`; the result is the
comment (empty if there is none). -/
def parseTail (s : GoString) : Option GoString :=
  match skipBlank s with
  | [] => some []
  | b :: rest => if b = 35 then some (b :: rest) else none

/-- Modelled from the spec: `parseLine` of package `pin` (§4.1), whose source is
missing. The line must start, after indentation and an optional list marker, with
the key `uses` (bare or quoted), a colon with any white space around it, and a
reference, optionally quoted and optionally followed by a `#` comment. `none` is "no
match". -/
def parseLine (line : GoString) : Option ParsedLine :=
  match skipKey (skipMarker (skipBlank line)) with
  | none => none
  | some afterKey =>
    match skipColon afterKey with
    | none => none
    | some value =>
      match parseValue value with
      | none => none
      | some (token, tail) =>
        match splitRef token, parseTail tail with
        | some d, some comment => some ⟨d, line.take (line.length - value.length), comment⟩
        | _, _ => none

/-- Modelled from the spec: the rewriter `Pin` of package `pin` (called `Replacer` by
its callers), whose declaration is missing; the field names are those of the tests. -/
structure Pin where
  resolver : Resolver
  ignoreOwners : List GoString
  ignoreRepos : List GoString
  strictPinning202508 : Bool

/-- Modelled from the spec: the detection of a reusable-workflow reference (§4.2
item 2), missing from the sources: "a path ending in `.yml`/`.yaml` or matching a
`.github/workflows/…` path pattern". -/
def isReusableWorkflow (d : ActionDef) : Bool :=
  (str ".yml").isSuffixOf d.Path || (str ".yaml").isSuffixOf d.Path ||
    (str ".github/workflows/").isPrefixOf d.Path

/-- Modelled from the spec: the ignore rules (§4.2 items 2 and 3), missing from the
sources. The base repository `owner/repo` is ignored when it is in `ignoreRepos`, or
when its owner is in `ignoreOwners` and either strict pinning is off or the
reference is a reusable workflow. -/
def isIgnored (p : Pin) (d : ActionDef) : Bool :=
  p.ignoreRepos.contains (d.Owner ++ str "/" ++ d.Repo) ||
    (p.ignoreOwners.contains d.Owner && (!p.strictPinning202508 || isReusableWorkflow d))

/-- Modelled from the spec: the rewritten line (§4.2 item 4), missing from the
sources: the text before the reference, `owner/repo[/path]@<commitSHA>`, then
` # <refComment>`, then a space and the comment the line already had. An existing
comment keeps its `#` (`# v4.2.2 # Existing comment`), as the test table
`TestReplaceLine` has it. -/
def pinnedLine (parsed : ParsedLine) (resolved : ResolvedVersion) : GoString :=
  parsed.linePrefix ++ parsed.definition.Owner ++ str "/" ++ parsed.definition.Repo ++
    (if parsed.definition.Path = [] then [] else str "/" ++ parsed.definition.Path) ++
    str "@" ++ resolved.CommitSHA ++ str " # " ++ resolved.RefComment ++
    (if parsed.comment = [] then [] else str " " ++ parsed.comment)

/-- Modelled from the spec: `replaceLine` of package `pin` (§4.2), whose source is
missing. A line that is no `uses` line or whose reference is ignored is returned
unchanged; otherwise the resolver is asked: "already resolved" leaves the line
unchanged, another error is returned, a resolved version rewrites the line. -/
def replaceLine (p : Pin) (line : GoString) : GoString × Bool × Option ResolveError :=
  match parseLine line with
  | none => (line, false, none)
  | some parsed =>
    if isIgnored p parsed.definition then (line, false, none)
    else
      match p.resolver parsed.definition with
      | .error .AlreadyResolvedError => (line, false, none)
      | .error e => (line, false, some e)
      | .ok resolved => (pinnedLine parsed resolved, true, none)

/-- Modelled from the spec: the loop of `Apply` over the lines: the rewritten lines
and whether one of them changed, or the first error. -/
def Apply.lines (p : Pin) : List GoString → Except ResolveError (List GoString × Bool)
  | [] => .ok ([], false)
  | line :: rest =>
    match replaceLine p line with
    | (_, _, some e) => .error e
    | (newLine, changed, none) =>
      match Apply.lines p rest with
      | .error e => .error e
      | .ok (newLines, changedRest) => .ok (newLine :: newLines, changed || changedRest)

/-- Modelled from the spec: `Apply` of package `pin` (§4.2), whose source is missing:
`replaceLine` over every line of the file, the text reassembled; an error of the
resolver returns the original text with the error. -/
def Apply (p : Pin) (content : GoString) : GoString × Bool × Option ResolveError :=
  match Apply.lines p (strings.Split content 10) with
  | .error e => (content, false, some e)
  | .ok (lines, changed) => (strings.Join lines 10, changed, none)

/-- The resolver of the tests (`mockResolver`) for the table of `TestReplaceLine`. -/
def mockResolver (d : ActionDef) : Except ResolveError ResolvedVersion :=
  if d.HasCommitSHA then .error .AlreadyResolvedError
  else if d.Owner = str "actions" ∧ d.Repo = str "checkout" ∧ d.RefOrSHA = str "v4" then
    .ok ⟨str "11bd71901bbe5b1630ceea73d27597364c9af683", str "v4.2.2"⟩
  else if d.Owner = str "oasdiff" ∧ d.Repo = str "oasdiff-action" ∧ d.RefOrSHA = str "v0" then
    .ok ⟨str "1c611ffb1253a72924624aa4fb662e302b3565d3", str "v0.0.21"⟩
  else if d.Owner = str "myorg" ∧ d.Repo = str "myrepo" ∧ d.RefOrSHA = str "v1" then
    .ok ⟨str "abcdef1234567890abcdef1234567890abcdef12", str "v1.0.0"⟩
  else .error (.Other "no mock result")

end pin

namespace pin

/-- The parts of a `uses` line of the form
`<indentation>[-<spaces>]<key><spaces>:<spaces>[quote]<owner>/<repo>[/<p1>/.../<pk>]@<ref>[quote]<spaces>[# comment]`. -/
structure UsesLine where
  indent : GoString
  dash : Bool
  afterDash : GoString
  key : GoString
  beforeColon : GoString
  afterColon : GoString
  quote : Option UInt8
  owner : GoString
  repo : GoString
  segments : List GoString
  ref : GoString
  beforeComment : GoString
  comment : GoString

/-- The list marker of the line: `-` and the white space after it, or nothing. -/
def UsesLine.marker (u : UsesLine) : GoString := if u.dash then 45 :: u.afterDash else []

/-- The quote around the reference, as text. -/
def UsesLine.quoteText (u : UsesLine) : GoString :=
  match u.quote with
  | some q => [q]
  | none => []

/-- The reference `owner/repo[/p1/.../pk]@ref`. -/
def UsesLine.reference (u : UsesLine) : GoString :=
  [47].intercalate (u.owner :: u.repo :: u.segments) ++ 64 :: u.ref

/-- The text of the line before the reference and its opening quote. -/
def UsesLine.head (u : UsesLine) : GoString :=
  u.indent ++ (u.marker ++ (u.key ++ (u.beforeColon ++ 58 :: u.afterColon)))

/-- The text of the line from the opening quote of the reference on. -/
def UsesLine.value (u : UsesLine) : GoString :=
  u.quoteText ++ (u.reference ++ (u.quoteText ++ (u.beforeComment ++ u.comment)))

/-- The text of the line. -/
def UsesLine.render (u : UsesLine) : GoString := u.head ++ u.value

/-- The parts are what they are called: the runs of spaces are white space, the key
is `uses`, bare or quoted, the quote is a double or a single quote, owner, repo and
path segments hold no white space, quote, `#`, `/` or `@`, owner, repo and ref are not
empty, the ref holds no white space, quote or `#`, and the comment is empty or
starts with `#`. -/
def UsesLine.WellFormed (u : UsesLine) : Prop :=
  (∀ b ∈ u.indent, isBlank b = true) ∧
  (∀ b ∈ u.afterDash, isBlank b = true) ∧
  (u.key = str "uses" ∨ u.key = str "\"uses\"" ∨ u.key = str "'uses'") ∧
  (∀ b ∈ u.beforeColon, isBlank b = true) ∧
  (∀ b ∈ u.afterColon, isBlank b = true) ∧
  (u.quote = none ∨ u.quote = some 34 ∨ u.quote = some 39) ∧
  (∀ s ∈ u.owner :: u.repo :: u.segments,
    ∀ b ∈ s, isRefByte b = true ∧ b ≠ 47 ∧ b ≠ 64) ∧
  u.owner ≠ [] ∧ u.repo ≠ [] ∧ u.ref ≠ [] ∧
  (∀ b ∈ u.ref, isRefByte b = true) ∧
  (∀ b ∈ u.beforeComment, isBlank b = true) ∧
  (u.comment = [] ∨ u.comment.head? = some 35)

/-- The reference that `parseLine` is to find in the line. -/
def UsesLine.definition (u : UsesLine) : ActionDef :=
  ⟨u.owner, u.repo, [47].intercalate u.segments, u.ref⟩

end pin

namespace pin

/-- The line `      "uses": "actions/checkout@v4"  # pinned later`, by its parts. -/
def quotedLine : UsesLine :=
  { indent := str "      ", dash := false, afterDash := [], key := str "\"uses\"",
    beforeColon := [], afterColon := str " ", quote := some 34,
    owner := str "actions", repo := str "checkout", segments := [], ref := str "v4",
    beforeComment := str "  ", comment := str "# pinned later" }

/-- The line `uses: actions/checkout@v4 # Existing comment`, by its parts. -/
def commentedLine : UsesLine :=
  { indent := [], dash := false, afterDash := [], key := str "uses",
    beforeColon := [], afterColon := str " ", quote := none,
    owner := str "actions", repo := str "checkout", segments := [], ref := str "v4",
    beforeComment := str " ", comment := str "# Existing comment" }

end pin

/-- The scan of `getJobPropertyIndent` returns at this line: its trimmed text starts
with a recognised job property and `len(line) - len(trimmed)` is positive. -/
def scanStops (line : GoString) : Bool :=
  recognisedProperty (strings.TrimSpace line) &&
    decide ((strings.TrimSpace line).length < line.length)

/-- The insertions `(p, t)` applied in ascending order, from the first pair to the
last: each line goes in at its line number plus the number of lines inserted before
it (`offset` for the first pair). -/
def spliceAscending : List (Nat × GoString) → Nat → List GoString → List GoString
  | [], _, lines => lines
  | (p, t) :: rest, offset, lines =>
    spliceAscending rest (offset + 1) (insertAfter lines (p + offset) t)

/-- The insertion loop of `Fix` with the indent calculation as a parameter;
`Fix.insertLoop` is this loop at `getJobPropertyIndent`. -/
def Fix.insertLoopWith (indentOf : List GoString → Int → Option (Except GoError GoString))
    (f : Fixer) :
    List position → List GoString → Bool → Option (Except GoError (List GoString × Bool))
  | [], lines, modified => some (.ok (lines, modified))
  | pos :: rest, lines, modified =>
    if pos.Line ≤ 0 ∨ pos.Line > (lines.length : Int) then
      Fix.insertLoopWith indentOf f rest lines modified
    else
      match indentOf lines pos.Line with
      | none => none
      | some (.error err) => some (.error (.Wrapf err (pos.Line + 1)))
      | some (.ok indent) =>
        match sliceTo lines pos.Line, sliceFrom lines pos.Line with
        | some before, some after =>
          Fix.insertLoopWith indentOf f rest (before ++ [Fix.timeoutLine f indent] ++ after) true
        | _, _ => none

/-- A property list has an entry whose key string is `name`. -/
def hasProperty (props : List MappingValueNode) (name : GoString) : Bool :=
  props.any (fun prop =>
    match prop.Key with
    | some k => decide (getKeyString k = name)
    | none => false)

/-- The text of the test `TestFixer_Fix_SpecialJobNames`. -/
def specialNames : GoString :=
  str "jobs:\n  \"quoted job name\":\n    runs-on: ubuntu-latest\n  'single-quoted':\n    runs-on: ubuntu-latest\n  job-with-dashes:\n    runs-on: ubuntu-latest\n  job_with_underscores:\n    runs-on: ubuntu-latest"

/-- The tree of `specialNames`: the value of a quoted key is its text without the
quotes, its token starts at the opening quote. -/
def specialNamesFile : File :=
  workflowFile [.mk (stringAt 1 1 "jobs") (mappingAt 2 3
    [.mk (stringAt 2 3 "quoted job name") (mappingAt 3 5
       [.mk (stringAt 3 5 "runs-on") (stringAt 3 14 "ubuntu-latest")]),
     .mk (stringAt 4 3 "single-quoted") (mappingAt 5 5
       [.mk (stringAt 5 5 "runs-on") (stringAt 5 14 "ubuntu-latest")]),
     .mk (stringAt 6 3 "job-with-dashes") (mappingAt 7 5
       [.mk (stringAt 7 5 "runs-on") (stringAt 7 14 "ubuntu-latest")]),
     .mk (stringAt 8 3 "job_with_underscores") (mappingAt 9 5
       [.mk (stringAt 9 5 "runs-on") (stringAt 9 14 "ubuntu-latest")])])]

/-- What the fixer returns for `specialNames` with timeout 5. -/
def specialNamesFixed : GoString :=
  str "jobs:\n  \"quoted job name\":\n    timeout-minutes: 5\n    runs-on: ubuntu-latest\n  'single-quoted':\n    timeout-minutes: 5\n    runs-on: ubuntu-latest\n  job-with-dashes:\n    timeout-minutes: 5\n    runs-on: ubuntu-latest\n  job_with_underscores:\n    timeout-minutes: 5\n    runs-on: ubuntu-latest"

/-- The positions scheduled for `specialNames`: the four job keys. -/
def specialNamesPositions : List position := [⟨2, 3⟩, ⟨4, 3⟩, ⟨6, 3⟩, ⟨8, 3⟩]

/-- A flow-style job: key and value start on line 2, the value is a flow mapping
with the one property `runs-on`. -/
def flowJob : MappingValueNode :=
  .mk (stringAt 2 3 "a") (mappingAt 2 7 [.mk (stringAt 2 9 "runs-on") (stringAt 2 18 "x")])

/-- A workflow whose only job is written in flow style on the last line, with two
blanks between the colon and the brace. -/
def flowKeyLine : GoString := str "jobs:\n  a:  \x7b runs-on: x \x7d"

/-- The tree of `flowKeyLine`. -/
def flowKeyLineFile : File :=
  workflowFile [.mk (stringAt 1 1 "jobs") (mappingAt 2 3
    [.mk (stringAt 2 3 "a") (mappingAt 2 7
      [.mk (stringAt 2 9 "runs-on") (stringAt 2 18 "x")])])]

/-- A stream of two documents: a workflow, then a document with the top-level key
`kind` that also has a `jobs` mapping. -/
def twoDocuments : GoString :=
  str "jobs:\n  a:\n    runs-on: x\n---\nkind: Deployment\njobs:\n  b:\n    runs-on: y"

/-- The tree of `twoDocuments`; line numbers count from the start of the stream. -/
def twoDocumentsFile : File :=
  ⟨[⟨mappingAt 1 1 [.mk (stringAt 1 1 "jobs") (mappingAt 2 3
      [.mk (stringAt 2 3 "a") (mappingAt 3 5
        [.mk (stringAt 3 5 "runs-on") (stringAt 3 14 "x")])])]⟩,
    ⟨mappingAt 5 1
      [.mk (stringAt 5 1 "kind") (stringAt 5 7 "Deployment"),
       .mk (stringAt 6 1 "jobs") (mappingAt 7 3
         [.mk (stringAt 7 3 "b") (mappingAt 8 5
           [.mk (stringAt 8 5 "runs-on") (stringAt 8 14 "y")])])]⟩]⟩

/-- What the fixer returns for `twoDocuments` with timeout 5: a line is inserted in
both documents. -/
def twoDocumentsFixed : GoString :=
  str "jobs:\n  a:\n    timeout-minutes: 5\n    runs-on: x\n---\nkind: Deployment\njobs:\n  b:\n    timeout-minutes: 5\n    runs-on: y"

/-- The two documents of `twoDocuments` in the other order. -/
def twoDocumentsSwapped : GoString :=
  str "kind: Deployment\njobs:\n  b:\n    runs-on: y\n---\njobs:\n  a:\n    runs-on: x"

/-- The tree of `twoDocumentsSwapped`. -/
def twoDocumentsSwappedFile : File :=
  ⟨[⟨mappingAt 1 1
      [.mk (stringAt 1 1 "kind") (stringAt 1 7 "Deployment"),
       .mk (stringAt 2 1 "jobs") (mappingAt 3 3
         [.mk (stringAt 3 3 "b") (mappingAt 4 5
           [.mk (stringAt 4 5 "runs-on") (stringAt 4 14 "y")])])]⟩,
    ⟨mappingAt 6 1 [.mk (stringAt 6 1 "jobs") (mappingAt 7 3
      [.mk (stringAt 7 3 "a") (mappingAt 8 5
        [.mk (stringAt 8 5 "runs-on") (stringAt 8 14 "x")])])]⟩]⟩

/-- The lines of the test case `out of bounds line` of `TestGetJobPropertyIndent`. -/
def outOfBoundsLines : List GoString := [str "jobs:", str "  test:"]

/-- Scenario A with two blanks at the end of the property line. -/
def trailingBlanks : GoString := str "jobs:\n  test:\n    runs-on: x  "

/-- The tree of `trailingBlanks`. -/
def trailingBlanksFile : File :=
  workflowFile [.mk (stringAt 1 1 "jobs") (mappingAt 2 3
    [.mk (stringAt 2 3 "test") (mappingAt 3 5
      [.mk (stringAt 3 5 "runs-on") (stringAt 3 14 "x")])])]

/-- What the fixer returns for `trailingBlanks` with timeout 5. -/
def trailingBlanksFixed : GoString :=
  str "jobs:\n  test:\n    rutimeout-minutes: 5\n    runs-on: x  "

/-- A workflow with a top-level entry whose key is a sequence (written
`? [a, b]`), besides the key `jobs`. -/
def sequenceKeyFile : File :=
  workflowFile
    [.mk (some (.MappingKeyNode (tokenAt 1 1) (some (.OtherNode (tokenAt 1 3)))))
       (stringAt 2 3 "c"),
     .mk (stringAt 3 1 "jobs") (mappingAt 4 3
       [.mk (stringAt 4 3 "test") (mappingAt 5 5
         [.mk (stringAt 5 5 "runs-on") (stringAt 5 14 "ubuntu-latest")])])]

/-- A workflow in which `timeout-minutes` and `uses` are written as quoted keys. -/
def quotedKeys : GoString :=
  str "jobs:\n  a:\n    \"timeout-minutes\": 10\n    runs-on: x\n  b:\n    'uses': o/r/.github/workflows/w.yml@main"

/-- The tree of `quotedKeys`: a quoted key is a string node whose value is the text
between the quotes. -/
def quotedKeysFile : File :=
  workflowFile [.mk (stringAt 1 1 "jobs") (mappingAt 2 3
    [.mk (stringAt 2 3 "a") (mappingAt 3 5
       [.mk (stringAt 3 5 "timeout-minutes") (stringAt 3 24 "10"),
        .mk (stringAt 4 5 "runs-on") (stringAt 4 14 "x")]),
     .mk (stringAt 5 3 "b") (mappingAt 6 5
       [.mk (stringAt 6 5 "uses") (stringAt 6 13 "o/r/.github/workflows/w.yml@main")])])]

/-- The jobs that `getPositions` visits under one entry of a root mapping: the entries
of its value when the entry is keyed `jobs` and the value is a mapping, none
otherwise. -/
def jobEntries.ofValue (value : MappingValueNode) : List MappingValueNode :=
  match value.Key, value.Value with
  | some k, some (.MappingNode _ jobs) => if getKeyString k = str "jobs" then jobs else []
  | _, _ => []

/-- The jobs that `getPositions` visits in one document: those of every entry of its
root mapping, in order; none when the body is no mapping. -/
def jobEntries.ofDoc (doc : DocumentNode) : List MappingValueNode :=
  match doc.Body with
  | some (.MappingNode _ values) => values.flatMap jobEntries.ofValue
  | _ => []

/-- The jobs of a file, in document order: every entry of every `jobs` mapping of
every document. -/
def jobEntries (file : File) : List MappingValueNode := file.Docs.flatMap jobEntries.ofDoc

/-- The condition of the claim on the value of a flow-style job: a mapping with a
property keyed `runs-on` and with no property keyed `timeout-minutes` or `uses`. -/
def flowEligible (value : Node) : Bool :=
  match value with
  | .MappingNode _ props =>
    hasProperty props (str "runs-on") && !hasProperty props (str "timeout-minutes") &&
      !hasProperty props (str "uses")
  | _ => false

/-- A workflow whose first line ends in a bare carriage return: split on line feeds
the job key `a` is on line 2, while the parser, for which a carriage return also ends
a line, reports it on line 3. -/
def crHeader : GoString := str "name: x\rjobs:\n  a:\n    runs-on: x\n    steps: []"

/-- The tree of `crHeader`, with the line numbers of the parser. -/
def crHeaderFile : File :=
  workflowFile
    [.mk (stringAt 1 1 "name") (stringAt 1 7 "x"),
     .mk (stringAt 2 1 "jobs") (mappingAt 3 3
       [.mk (stringAt 3 3 "a") (mappingAt 4 5
         [.mk (stringAt 4 5 "runs-on") (stringAt 4 14 "x"),
          .mk (stringAt 5 5 "steps") (some (.OtherNode (tokenAt 5 12)))])])]

/-- What the fixer returns for `crHeader` with timeout 5. -/
def crHeaderFixed : GoString :=
  str "name: x\rjobs:\n  a:\n    runs-on: x\n    timeout-minutes: 5\n    steps: []"

/-- A workflow whose first two lines end in a bare carriage return, with a job `a`
that runs steps and a job `b` that calls a reusable workflow. -/
def usesAfterCR : GoString :=
  str "name: x\ron: push\rjobs:\n  a:\n    runs-on: x\n  b:\n    uses: o/r/.github/workflows/w.yml@main\n    needs: a"

/-- The tree of `usesAfterCR`, with the line numbers of the parser. -/
def usesAfterCRFile : File :=
  workflowFile
    [.mk (stringAt 1 1 "name") (stringAt 1 7 "x"),
     .mk (stringAt 2 1 "on") (stringAt 2 5 "push"),
     .mk (stringAt 3 1 "jobs") (mappingAt 4 3
       [.mk (stringAt 4 3 "a") (mappingAt 5 5
          [.mk (stringAt 5 5 "runs-on") (stringAt 5 14 "x")]),
        .mk (stringAt 6 3 "b") (mappingAt 7 5
          [.mk (stringAt 7 5 "uses") (stringAt 7 11 "o/r/.github/workflows/w.yml@main"),
           .mk (stringAt 8 5 "needs") (stringAt 8 12 "a")])])]

/-- What the fixer returns for `usesAfterCR` with timeout 5. -/
def usesAfterCRFixed : GoString :=
  str "name: x\ron: push\rjobs:\n  a:\n    runs-on: x\n  b:\n    timeout-minutes: 5\n    uses: o/r/.github/workflows/w.yml@main\n    needs: a"

/-- A workflow whose first two lines end in a bare carriage return, with an empty job
between two jobs that run steps. -/
def emptyAfterCR : GoString :=
  str "name: x\ron: push\rjobs:\n  a:\n    runs-on: x\n  empty:\n  c:\n    runs-on: y"

/-- The tree of `emptyAfterCR`, with the line numbers of the parser; the empty job has
a null value. -/
def emptyAfterCRFile : File :=
  workflowFile
    [.mk (stringAt 1 1 "name") (stringAt 1 7 "x"),
     .mk (stringAt 2 1 "on") (stringAt 2 5 "push"),
     .mk (stringAt 3 1 "jobs") (mappingAt 4 3
       [.mk (stringAt 4 3 "a") (mappingAt 5 5
          [.mk (stringAt 5 5 "runs-on") (stringAt 5 14 "x")]),
        .mk (stringAt 6 3 "empty") (some (.OtherNode (tokenAt 6 8))),
        .mk (stringAt 7 3 "c") (mappingAt 8 5
          [.mk (stringAt 8 5 "runs-on") (stringAt 8 14 "y")])])]

/-- What the fixer returns for `emptyAfterCR` with timeout 5. -/
def emptyAfterCRFixed : GoString :=
  str "name: x\ron: push\rjobs:\n  a:\n    runs-on: x\n  empty:\n    timeout-minutes: 5\n  c:\n    runs-on: y"

/-! ## Lemmas on lists of lines -/

theorem insertAfter_length (lines : List GoString) (p : Nat) (t : GoString) :
    (insertAfter lines p t).length = lines.length + 1 := by
  simp only [insertAfter, List.length_append, List.length_take, List.length_drop,
    List.length_singleton]
  omega

theorem insertAfter_get_lt (lines : List GoString) (p i : Nat) (t : GoString)
    (hi : i < p) (hp : p ≤ lines.length) : (insertAfter lines p t)[i]? = lines[i]? := by
  have h1 : i < (lines.take p).length := by simp [List.length_take]; omega
  simp only [insertAfter, List.append_assoc]
  rw [List.getElem?_append_left h1, List.getElem?_take_of_lt hi]

theorem insertAfter_get_eq (lines : List GoString) (p : Nat) (t : GoString)
    (hp : p ≤ lines.length) : (insertAfter lines p t)[p]? = some t := by
  have h1 : (lines.take p).length = p := by simp [List.length_take]; omega
  simp only [insertAfter, List.append_assoc]
  rw [List.getElem?_append_right (by omega), h1]
  simp

theorem insertAfter_get_gt (lines : List GoString) (p i : Nat) (t : GoString)
    (hi : p ≤ i) (hp : p ≤ lines.length) : (insertAfter lines p t)[i + 1]? = lines[i]? := by
  have h1 : (lines.take p).length = p := by simp [List.length_take]; omega
  simp only [insertAfter, List.append_assoc]
  rw [List.getElem?_append_right (by omega), h1]
  have h2 : i + 1 - p = (i - p) + 1 := by omega
  rw [h2]
  simp only [List.singleton_append, List.getElem?_cons_succ, List.getElem?_drop]
  congr 1
  omega

theorem insertAfter_eraseIdx (lines : List GoString) (p : Nat) (t : GoString)
    (hp : p ≤ lines.length) : (insertAfter lines p t).eraseIdx p = lines := by
  have h1 : (lines.take p).length = p := by simp [List.length_take]; omega
  simp only [insertAfter, List.append_assoc]
  rw [List.eraseIdx_append_of_length_le (by omega), h1]
  simp

theorem spliceAll_length (qs : List (Nat × GoString)) (lines : List GoString) :
    (spliceAll qs lines).length = lines.length + qs.length := by
  induction qs with
  | nil => simp [spliceAll]
  | cons q rest ih =>
    obtain ⟨p, t⟩ := q
    simp only [spliceAll, insertAfter_length, ih, List.length_cons]
    omega

theorem spliceAll_get_below (qs : List (Nat × GoString)) (lines : List GoString) (i : Nat)
    (hlen : ∀ q ∈ qs, q.1 ≤ lines.length) (hi : ∀ q ∈ qs, i < q.1) :
    (spliceAll qs lines)[i]? = lines[i]? := by
  induction qs with
  | nil => simp [spliceAll]
  | cons q rest ih =>
    obtain ⟨p, t⟩ := q
    have hp : p ≤ lines.length := hlen (p, t) (List.mem_cons_self _ _)
    have hip : i < p := hi (p, t) (List.mem_cons_self _ _)
    simp only [spliceAll]
    rw [insertAfter_get_lt _ _ _ _ hip (by rw [spliceAll_length]; omega)]
    exact ih (fun q hq => hlen q (List.mem_cons_of_mem _ hq))
      (fun q hq => hi q (List.mem_cons_of_mem _ hq))

theorem spliceAll_get_inserted (qs : List (Nat × GoString)) (lines : List GoString)
    (hlen : ∀ q ∈ qs, q.1 ≤ lines.length)
    (hasc : (qs.map Prod.fst).Pairwise (fun a b => a < b)) :
    ∀ (i : Nat) (q : Nat × GoString), qs[i]? = some q →
      (spliceAll qs lines)[q.1 + i]? = some q.2 := by
  induction qs with
  | nil => intro i q h; simp at h
  | cons q0 rest ih =>
    obtain ⟨p, t⟩ := q0
    have hp : p ≤ lines.length := hlen (p, t) (List.mem_cons_self _ _)
    have hlen1 : ∀ q ∈ rest, q.1 ≤ lines.length :=
      fun q hq => hlen q (List.mem_cons_of_mem _ hq)
    simp only [List.map_cons, List.pairwise_cons] at hasc
    intro i q h
    cases i with
    | zero =>
      simp only [List.getElem?_cons_zero, Option.some.injEq] at h
      subst h
      simp only [spliceAll, Nat.add_zero]
      exact insertAfter_get_eq _ _ _ (by rw [spliceAll_length]; omega)
    | succ j =>
      simp only [List.getElem?_cons_succ] at h
      have hmem : q ∈ rest := List.getElem?_mem h
      have hlt : p < q.1 := hasc.1 q.1 (List.mem_map_of_mem _ hmem)
      simp only [spliceAll]
      have e : q.1 + (j + 1) = (q.1 + j) + 1 := by omega
      rw [e, insertAfter_get_gt _ _ _ _ (by omega) (by rw [spliceAll_length]; omega)]
      exact ih hlen1 hasc.2 j q h

theorem spliceAll_get_key (qs : List (Nat × GoString)) (lines : List GoString)
    (hlen : ∀ q ∈ qs, q.1 ≤ lines.length) (hpos : ∀ q ∈ qs, 1 ≤ q.1)
    (hasc : (qs.map Prod.fst).Pairwise (fun a b => a < b)) :
    ∀ (i : Nat) (q : Nat × GoString), qs[i]? = some q →
      (spliceAll qs lines)[q.1 + i - 1]? = lines[q.1 - 1]? := by
  induction qs with
  | nil => intro i q h; simp at h
  | cons q0 rest ih =>
    obtain ⟨p, t⟩ := q0
    have hp : p ≤ lines.length := hlen (p, t) (List.mem_cons_self _ _)
    have hp1 : 1 ≤ p := hpos (p, t) (List.mem_cons_self _ _)
    have hlen1 : ∀ q ∈ rest, q.1 ≤ lines.length :=
      fun q hq => hlen q (List.mem_cons_of_mem _ hq)
    have hpos1 : ∀ q ∈ rest, 1 ≤ q.1 := fun q hq => hpos q (List.mem_cons_of_mem _ hq)
    simp only [List.map_cons, List.pairwise_cons] at hasc
    intro i q h
    cases i with
    | zero =>
      simp only [List.getElem?_cons_zero, Option.some.injEq] at h
      subst h
      simp only [spliceAll, Nat.add_zero]
      rw [insertAfter_get_lt _ _ _ _ (by omega) (by rw [spliceAll_length]; omega)]
      refine spliceAll_get_below rest lines (p - 1) hlen1 ?_
      intro q hq
      have := hasc.1 q.1 (List.mem_map_of_mem _ hq)
      omega
    | succ j =>
      simp only [List.getElem?_cons_succ] at h
      have hmem : q ∈ rest := List.getElem?_mem h
      have hlt : p < q.1 := hasc.1 q.1 (List.mem_map_of_mem _ hmem)
      simp only [spliceAll]
      have e : q.1 + (j + 1) - 1 = (q.1 + j - 1) + 1 := by omega
      rw [e, insertAfter_get_gt _ _ _ _ (by omega) (by rw [spliceAll_length]; omega)]
      exact ih hlen1 hpos1 hasc.2 j q h

theorem spliceAll_erase (qs : List (Nat × GoString)) (lines : List GoString)
    (hlen : ∀ q ∈ qs, q.1 ≤ lines.length) :
    qs.foldl (fun acc q => acc.eraseIdx q.1) (spliceAll qs lines) = lines := by
  induction qs with
  | nil => simp [spliceAll]
  | cons q0 rest ih =>
    obtain ⟨p, t⟩ := q0
    have hp : p ≤ lines.length := hlen (p, t) (List.mem_cons_self _ _)
    simp only [spliceAll, List.foldl_cons]
    rw [insertAfter_eraseIdx _ _ _ (by rw [spliceAll_length]; omega)]
    exact ih (fun q hq => hlen q (List.mem_cons_of_mem _ hq))

theorem spliceAll_append (xs ys : List (Nat × GoString)) (lines : List GoString) :
    spliceAll (xs ++ ys) lines = spliceAll xs (spliceAll ys lines) := by
  induction xs with
  | nil => rfl
  | cons q rest ih =>
    obtain ⟨p, t⟩ := q
    show insertAfter (spliceAll (rest ++ ys) lines) p t = _
    rw [ih]
    rfl

theorem splitOn_no_sep (sep : UInt8) (s : GoString) : ∀ l ∈ s.splitOn sep, sep ∉ l := by
  induction s with
  | nil => intro l hl; simp [List.splitOn_nil] at hl; simp [hl]
  | cons x xs ih =>
    intro l hl
    simp only [List.splitOn, List.splitOnP_cons] at hl ih
    by_cases hx : (x == sep) = true
    · rw [if_pos hx] at hl
      rcases List.mem_cons.1 hl with h | h
      · simp [h]
      · exact ih l h
    · rw [if_neg hx] at hl
      cases hsp : List.splitOnP (fun y => y == sep) xs with
      | nil => simp [hsp, List.modifyHead] at hl
      | cons hd tl =>
        rw [hsp] at hl ih
        simp only [List.modifyHead, List.mem_cons] at hl
        rcases hl with h | h
        · subst h
          have hhd := ih hd (List.mem_cons_self _ _)
          simp only [List.mem_cons, not_or]
          refine ⟨?_, hhd⟩
          intro hc
          exact hx (by simp [hc])
        · exact ih l (List.mem_cons_of_mem _ h)

theorem Split_Join (lines : List GoString) (sep : UInt8) (hne : lines ≠ [])
    (h : ∀ l ∈ lines, sep ∉ l) : strings.Split (strings.Join lines sep) sep = lines := by
  simp only [strings.Join, strings.Split]
  exact List.splitOn_intercalate _ _ h hne

theorem digit_ne_newline (k : Nat) : (48 + k % 10).toUInt8 ≠ 10 := by
  have h : k % 10 < 10 := Nat.mod_lt _ (by decide)
  generalize k % 10 = d at h
  interval_cases d <;> decide

theorem formatUint_go_no_newline (fuel : Nat) :
    ∀ (n : Nat) (acc : GoString), (10 : UInt8) ∉ acc → (10 : UInt8) ∉ formatUint.go fuel n acc := by
  induction fuel with
  | zero => intro n acc h; simpa [formatUint.go] using h
  | succ k ih =>
    intro n acc h
    have hacc : (10 : UInt8) ∉ (48 + n % 10).toUInt8 :: acc := by
      simp only [List.mem_cons, not_or]
      exact ⟨fun hc => digit_ne_newline n hc.symm, h⟩
    simp only [formatUint.go]
    split
    · exact hacc
    · exact ih _ _ hacc

theorem formatUint_no_newline (n : Nat) : (10 : UInt8) ∉ formatUint n :=
  formatUint_go_no_newline _ _ _ (by simp)

theorem sliceTo_eq_some {α : Type} (s r : List α) (hi : Int) (h : sliceTo s hi = some r) :
    0 ≤ hi ∧ hi ≤ (s.length : Int) ∧ r = s.take hi.toNat := by
  unfold sliceTo at h
  split at h
  · rename_i hc
    simp only [Option.some.injEq] at h
    exact ⟨hc.1, hc.2, h.symm⟩
  · simp at h

theorem indent_loop_mem (lines : List GoString) (indent : GoString)
    (h : getJobPropertyIndent.loop lines = some (.ok indent)) :
    ∀ b ∈ indent, ∃ l ∈ lines, b ∈ l := by
  induction lines with
  | nil => simp [getJobPropertyIndent.loop] at h
  | cons line rest ih =>
    simp only [getJobPropertyIndent.loop] at h
    have hrest : getJobPropertyIndent.loop rest = some (.ok indent) →
        ∀ b ∈ indent, ∃ l ∈ line :: rest, b ∈ l := by
      intro h1 b hb
      obtain ⟨l, hl, hbl⟩ := ih h1 b hb
      exact ⟨l, List.mem_cons_of_mem _ hl, hbl⟩
    split at h
    · split at h
      · split at h
        · rename_i ind hs
          simp only [Option.some.injEq, Except.ok.injEq] at h
          subst h
          obtain ⟨_, _, e⟩ := sliceTo_eq_some _ _ _ hs
          intro b hb
          rw [e] at hb
          exact ⟨line, List.mem_cons_self _ _, List.mem_of_mem_take hb⟩
        · simp at h
      · exact hrest h
    · exact hrest h

theorem getJobPropertyIndent_mem (lines : List GoString) (jobLine : Int) (indent : GoString)
    (h : getJobPropertyIndent lines jobLine = some (.ok indent)) :
    ∀ b ∈ indent, b = 32 ∨ ∃ l ∈ lines, b ∈ l := by
  have hloop : getJobPropertyIndent.loop (lines.drop jobLine.toNat) = some (.ok indent) →
      ∀ b ∈ indent, b = 32 ∨ ∃ l ∈ lines, b ∈ l := by
    intro h1 b hb
    obtain ⟨l, hl, hbl⟩ := indent_loop_mem _ _ h1 b hb
    exact Or.inr ⟨l, List.mem_of_mem_drop hl, hbl⟩
  unfold getJobPropertyIndent at h
  split at h
  · split at h
    · simp at h
    · rename_i line hidx
      split at h
      · dsimp only at h
        split at h
        · rename_i ind hs
          simp only [Option.some.injEq, Except.ok.injEq] at h
          subst h
          obtain ⟨_, _, e⟩ := sliceTo_eq_some _ _ _ hs
          have hline : line ∈ lines := by
            unfold index at hidx
            split at hidx
            · exact List.getElem?_mem hidx
            · simp at hidx
          intro b hb
          simp only [List.mem_append] at hb
          rcases hb with hb | hb
          · rw [e] at hb
            exact Or.inr ⟨line, hline, List.mem_of_mem_take hb⟩
          · left
            have : str "  " = [32, 32] := by decide
            rw [this] at hb
            simpa using hb
        · simp at h
      · exact hloop h
  · exact hloop h

theorem timeoutLine_no_newline (f : Fixer) (indent : GoString) (h : (10 : UInt8) ∉ indent) :
    (10 : UInt8) ∉ Fix.timeoutLine f indent := by
  have h2 : (10 : UInt8) ∉ str "timeout-minutes: " := by decide
  have h3 := formatUint_no_newline f.TimeoutMinutes
  simp only [Fix.timeoutLine, List.mem_append, not_or]
  exact ⟨⟨h, h2⟩, h3⟩

theorem sliceTo_of_le {α : Type} (s : List α) (hi : Int) (h0 : 0 ≤ hi)
    (h1 : hi ≤ (s.length : Int)) : sliceTo s hi = some (s.take hi.toNat) := by
  simp [sliceTo, h0, h1]

theorem sliceFrom_of_le {α : Type} (s : List α) (lo : Int) (h0 : 0 ≤ lo)
    (h1 : lo ≤ (s.length : Int)) : sliceFrom s lo = some (s.drop lo.toNat) := by
  simp [sliceFrom, h0, h1]

/-- One round of the insertion loop at an in-range position: either the indent
calculation fails and the loop stops with the wrapped error, or the line is
spliced in and the loop goes on with `modified = true`. -/
theorem insertLoop_cons_inrange (f : Fixer) (pos : position) (rest : List position)
    (lines : List GoString) (m : Bool)
    (h1 : 1 ≤ pos.Line) (h2 : pos.Line ≤ (lines.length : Int)) :
    Fix.insertLoop f (pos :: rest) lines m =
      match getJobPropertyIndent lines pos.Line with
      | none => none
      | some (.error err) => some (.error (.Wrapf err (pos.Line + 1)))
      | some (.ok indent) =>
        Fix.insertLoop f rest (insertAfter lines pos.Line.toNat (Fix.timeoutLine f indent)) true := by
  have hc : ¬ (pos.Line ≤ 0 ∨ pos.Line > (lines.length : Int)) := by omega
  rw [Fix.insertLoop, if_neg hc, sliceTo_of_le _ _ (by omega) h2, sliceFrom_of_le _ _ (by omega) h2]
  rfl

theorem insertLoop_cons_skip (f : Fixer) (pos : position) (rest : List position)
    (lines : List GoString) (m : Bool)
    (h : pos.Line ≤ 0 ∨ pos.Line > (lines.length : Int)) :
    Fix.insertLoop f (pos :: rest) lines m = Fix.insertLoop f rest lines m := by
  rw [Fix.insertLoop, if_pos h]

/-- The three ways in which `Fix` returns: unchanged without error, unchanged with
an error, or changed with the joined lines of a completed insertion loop. -/
theorem Fix_cases (ParseBytes : Parser) (f : Fixer) (content : GoString)
    (r : GoString × Bool × Option GoError) (h : Fix ParseBytes f content = some r) :
    r = (content, false, none) ∨ (∃ e, r = (content, false, some e)) ∨
    ∃ file positions lines,
      ParseBytes content = .ok file ∧ isGitHubWorkflow file = true ∧
      getPositions file = some positions ∧ positions ≠ [] ∧
      Fix.insertLoop f positions.reverse (strings.Split content 10) false
        = some (.ok (lines, true)) ∧
      r = (strings.Join lines 10, true, none) := by
  unfold Fix at h
  split at h
  · left; simpa using h.symm
  · split at h
    · right; left; exact ⟨_, by simpa using h.symm⟩
    · split at h
      · right; left; exact ⟨_, by simpa using h.symm⟩
      · rename_i file hparse
        split at h
        · left; simpa using h.symm
        · rename_i hwf
          split at h
          · simp at h
          · rename_i positions hpos
            split at h
            · left; simpa using h.symm
            · rename_i hlen
              split at h
              · simp at h
              · right; left; exact ⟨_, by simpa using h.symm⟩
              · rename_i lines modified hloop
                split at h
                · left; simpa using h.symm
                · rename_i hmod
                  right; right
                  have hm : modified = true := by simpa using hmod
                  subst hm
                  refine ⟨file, positions, lines, hparse, by simpa using hwf, hpos, ?_, hloop,
                    by simpa using h.symm⟩
                  intro hc
                  exact hlen (by simp [hc])

theorem getPositions_jobs_foldlM (jobs : List MappingValueNode) (positions : List position) :
    getPositions.jobs jobs positions = jobs.foldlM getPositions.job positions := by
  induction jobs generalizing positions with
  | nil => rfl
  | cons jv rest ih =>
    simp only [getPositions.jobs, List.foldlM_cons]
    cases getPositions.job positions jv with
    | none => rfl
    | some ps => exact ih ps

/-- The insertion loop, whatever the order of the positions: the line array only
grows, `modified` ends up true exactly when it was true or a line was added, and no
line contains a line feed if none did before. -/
theorem insertLoop_grows (f : Fixer) :
    ∀ (ds : List position) (lines : List GoString) (m : Bool) (R : List GoString) (b : Bool),
      (∀ l ∈ lines, (10 : UInt8) ∉ l) →
      Fix.insertLoop f ds lines m = some (.ok (R, b)) →
      lines.length ≤ R.length ∧ (b = true ↔ (m = true ∨ lines.length < R.length)) ∧
        (∀ l ∈ R, (10 : UInt8) ∉ l) := by
  intro ds
  induction ds with
  | nil =>
    intro lines m R b hn h
    simp only [Fix.insertLoop, Option.some.injEq, Except.ok.injEq, Prod.mk.injEq] at h
    obtain ⟨h1, h2⟩ := h
    subst h1 h2
    exact ⟨le_refl _, by simp, hn⟩
  | cons d rest ih =>
    intro lines m R b hn h
    by_cases hskip : d.Line ≤ 0 ∨ d.Line > (lines.length : Int)
    · rw [insertLoop_cons_skip f d rest lines m hskip] at h
      exact ih lines m R b hn h
    · rw [insertLoop_cons_inrange f d rest lines m (by omega) (by omega)] at h
      split at h
      · simp at h
      · simp at h
      · rename_i indent hind
        have hindent : (10 : UInt8) ∉ indent := by
          intro hc
          rcases getJobPropertyIndent_mem _ _ _ hind _ hc with h32 | ⟨l, hl, hbl⟩
          · exact absurd h32 (by decide)
          · exact hn l hl hbl
        have ht := timeoutLine_no_newline f indent hindent
        have hn1 : ∀ l ∈ insertAfter lines d.Line.toNat (Fix.timeoutLine f indent),
            (10 : UInt8) ∉ l := by
          intro l hl
          simp only [insertAfter, List.mem_append, List.mem_singleton] at hl
          rcases hl with (hl | hl) | hl
          · exact hn l (List.mem_of_mem_take hl)
          · rw [hl]; exact ht
          · exact hn l (List.mem_of_mem_drop hl)
        obtain ⟨h1, h2, h3⟩ := ih _ true R b hn1 h
        rw [insertAfter_length] at h1 h2
        refine ⟨by omega, ?_, h3⟩
        have hb : b = true := h2.2 (Or.inl rfl)
        simp only [hb, true_iff]
        right
        omega

theorem scanLines_flow (pre post : List GoString) (line : GoString)
    (hflow : Fix.isFlowLine line = true)
    (hpre : ∀ l ∈ pre, strings.Contains l (str ":runs-on:") = false) :
    Fix.scanLines (pre ++ line :: post) = some .ErrFlowStyleNotSupported := by
  induction pre with
  | nil => simp [Fix.scanLines, hflow]
  | cons l rest ih =>
    have h1 := hpre l (List.mem_cons_self _ _)
    have h2 := ih (fun x hx => hpre x (List.mem_cons_of_mem _ hx))
    simp only [List.cons_append, Fix.scanLines, h1]
    cases Fix.isFlowLine l <;> simp [h2]

theorem scanLines_compact (pre post : List GoString) (line : GoString)
    (hcompact : strings.Contains line (str ":runs-on:") = true)
    (hline : Fix.isFlowLine line = false)
    (hpre : ∀ l ∈ pre, Fix.isFlowLine l = false) :
    Fix.scanLines (pre ++ line :: post) = some .ErrCompactJobSyntaxNotSupported := by
  induction pre with
  | nil => simp [Fix.scanLines, hcompact, hline]
  | cons l rest ih =>
    have h1 := hpre l (List.mem_cons_self _ _)
    have h2 := ih (fun x hx => hpre x (List.mem_cons_of_mem _ hx))
    simp only [List.cons_append, Fix.scanLines, h1]
    cases strings.Contains l (str ":runs-on:") <;> simp [h2]

/-- `Fix` on a text that holds both `jobs:` and `runs-on:`: the result is decided by
the line scan and, if that finds nothing, by the parser. -/
theorem Fix_of_gate1 (ParseBytes : Parser) (f : Fixer) (content : GoString)
    (hjobs : strings.Contains content (str "jobs:") = true)
    (hruns : strings.Contains content (str "runs-on:") = true) :
    Fix ParseBytes f content =
      match Fix.scanLines (strings.Split content 10) with
      | some err => some (content, false, some err)
      | none =>
        match ParseBytes content with
        | .error err => some (content, false, some (.WithStack err))
        | .ok file =>
          if !isGitHubWorkflow file then some (content, false, none)
          else
            match getPositions file with
            | none => none
            | some positions =>
              if positions.length = 0 then some (content, false, none)
              else
                match Fix.insertLoop f positions.reverse (strings.Split content 10) false with
                | none => none
                | some (.error err) => some (content, false, some err)
                | some (.ok (lines, modified)) =>
                  if !modified then some (content, false, none)
                  else some (strings.Join lines 10, true, none) := by
  rw [Fix]
  simp [hjobs, hruns]

theorem workflowProp_iff (prop : MappingValueNode) :
    isGitHubWorkflow.workflowProp prop = true ↔
      ∃ pk, prop.Key = some pk ∧ (getKeyString pk = str "runs-on" ∨
        getKeyString pk = str "uses" ∨ getKeyString pk = str "container") := by
  obtain ⟨key, val⟩ := prop
  cases key with
  | none => simp [isGitHubWorkflow.workflowProp, MappingValueNode.Key]
  | some k => simp [isGitHubWorkflow.workflowProp, MappingValueNode.Key, or_assoc]

theorem validJob_iff (job : MappingValueNode) :
    isGitHubWorkflow.validJob job = true ↔
      ∃ jk tp props, job.Key = some jk ∧ job.Value = some (.MappingNode tp props) ∧
        ∃ prop ∈ props, ∃ pk, prop.Key = some pk ∧ (getKeyString pk = str "runs-on" ∨
          getKeyString pk = str "uses" ∨ getKeyString pk = str "container") := by
  obtain ⟨key, val⟩ := job
  cases key with
  | none => simp [isGitHubWorkflow.validJob, MappingValueNode.Key]
  | some k =>
    cases val with
    | none => simp [isGitHubWorkflow.validJob, MappingValueNode.Key, MappingValueNode.Value]
    | some v =>
      cases v with
      | MappingNode tp props =>
        simp only [isGitHubWorkflow.validJob, MappingValueNode.Key, MappingValueNode.Value,
          List.any_eq_true, workflowProp_iff]
        constructor
        · rintro ⟨prop, hp, h⟩
          exact ⟨k, tp, props, rfl, rfl, prop, hp, h⟩
        · rintro ⟨jk, tp1, props1, _, h2, prop, hp, h⟩
          simp only [Option.some.injEq, Node.MappingNode.injEq] at h2
          obtain ⟨_, h3⟩ := h2
          subst h3
          exact ⟨prop, hp, h⟩
      | StringNode _ _ =>
        simp [isGitHubWorkflow.validJob, MappingValueNode.Key, MappingValueNode.Value]
      | MappingKeyNode _ _ =>
        simp [isGitHubWorkflow.validJob, MappingValueNode.Key, MappingValueNode.Value]
      | OtherNode _ =>
        simp [isGitHubWorkflow.validJob, MappingValueNode.Key, MappingValueNode.Value]

theorem jobsEntry_iff (value : MappingValueNode) :
    isGitHubWorkflow.jobsEntry value = true ↔
      ∃ k tj jobs, value.Key = some k ∧ getKeyString k = str "jobs" ∧
        value.Value = some (.MappingNode tj jobs) ∧
        ∃ job ∈ jobs, isGitHubWorkflow.validJob job = true := by
  obtain ⟨key, val⟩ := value
  cases key with
  | none => simp [isGitHubWorkflow.jobsEntry, MappingValueNode.Key]
  | some k =>
    cases val with
    | none => simp [isGitHubWorkflow.jobsEntry, MappingValueNode.Key, MappingValueNode.Value]
    | some v =>
      cases v with
      | MappingNode tj jobs =>
        simp only [isGitHubWorkflow.jobsEntry, MappingValueNode.Key, MappingValueNode.Value,
          Bool.and_eq_true, decide_eq_true_eq, List.any_eq_true]
        constructor
        · rintro ⟨hk, job, hj, h⟩
          exact ⟨k, tj, jobs, rfl, hk, rfl, job, hj, h⟩
        · rintro ⟨k1, tj1, jobs1, h1, hk, h2, job, hj, h⟩
          simp only [Option.some.injEq] at h1
          subst h1
          simp only [Option.some.injEq, Node.MappingNode.injEq] at h2
          obtain ⟨_, h3⟩ := h2
          subst h3
          exact ⟨hk, job, hj, h⟩
      | StringNode _ _ =>
        simp [isGitHubWorkflow.jobsEntry, MappingValueNode.Key, MappingValueNode.Value]
      | MappingKeyNode _ _ =>
        simp [isGitHubWorkflow.jobsEntry, MappingValueNode.Key, MappingValueNode.Value]
      | OtherNode _ =>
        simp [isGitHubWorkflow.jobsEntry, MappingValueNode.Key, MappingValueNode.Value]

theorem invalidKey_any_false (values : List MappingValueNode) :
    values.any isGitHubWorkflow.invalidKey = false ↔
      ∀ value ∈ values, ∀ k, value.Key = some k → getKeyString k ≠ [] →
        getKeyString k ∈ [str "name", str "run-name", str "on", str "permissions", str "env",
          str "defaults", str "concurrency", str "jobs", str "#"] := by
  rw [List.any_eq_false]
  constructor
  · intro h value hv k hk hne
    have := h value hv
    simp only [isGitHubWorkflow.invalidKey, hk, validTopLevelKeys, Bool.and_eq_true,
      decide_eq_true_eq, Bool.not_eq_true', not_and, Bool.not_eq_false,
      List.contains, List.elem_iff] at this
    exact this hne
  · intro h value hv
    cases hk : value.Key with
    | none => simp [isGitHubWorkflow.invalidKey, hk]
    | some k =>
      simp only [isGitHubWorkflow.invalidKey, hk, validTopLevelKeys, Bool.and_eq_true,
        decide_eq_true_eq, Bool.not_eq_true', not_and, Bool.not_eq_false,
        List.contains, List.elem_iff]
      exact h value hv k hk

/-- `Fix` on a text that lacks `jobs:` or `runs-on:` returns at once. -/
theorem Fix_of_not_gate1 (ParseBytes : Parser) (f : Fixer) (content : GoString)
    (h : strings.Contains content (str "jobs:") = false ∨
      strings.Contains content (str "runs-on:") = false) :
    Fix ParseBytes f content = some (content, false, none) := by
  rcases h with h | h <;> simp [Fix, h]

theorem trimLeading_eq_drop (table : List GoString) (fuel : Nat) :
    ∀ s : GoString, ∃ k, strings.trimLeading table fuel s = s.drop k := by
  induction fuel with
  | zero => intro s; exact ⟨0, rfl⟩
  | succ n ih =>
    intro s
    simp only [strings.trimLeading]
    split
    · exact ⟨0, rfl⟩
    · rename_i w _
      obtain ⟨k, hk⟩ := ih (s.drop (w + 1))
      exact ⟨w + 1 + k, by rw [hk, List.drop_drop]⟩

theorem TrimLeftSpace_eq_drop (s : GoString) : ∃ k, strings.TrimLeftSpace s = s.drop k :=
  trimLeading_eq_drop _ _ s

theorem TrimLeftSpace_length_le (s : GoString) : (strings.TrimLeftSpace s).length ≤ s.length := by
  obtain ⟨k, hk⟩ := TrimLeftSpace_eq_drop s
  rw [hk, List.length_drop]
  omega

theorem TrimRightSpace_length_le (s : GoString) :
    (strings.TrimRightSpace s).length ≤ s.length := by
  obtain ⟨k, hk⟩ := trimLeading_eq_drop (strings.spaceEncodings.map List.reverse) s.length
    s.reverse
  simp only [strings.TrimRightSpace, hk, List.length_reverse, List.length_drop]
  omega

theorem TrimSpace_length_le (s : GoString) : (strings.TrimSpace s).length ≤ s.length :=
  le_trans (TrimRightSpace_length_le _) (TrimLeftSpace_length_le s)

/-- One round of the scan of `getJobPropertyIndent`. -/
theorem indent_loop_cons (line : GoString) (rest : List GoString) :
    getJobPropertyIndent.loop (line :: rest) =
      if recognisedProperty (strings.TrimSpace line) = true ∧
          (strings.TrimSpace line).length < line.length then
        some (.ok (line.take (line.length - (strings.TrimSpace line).length)))
      else getJobPropertyIndent.loop rest := by
  have hle := TrimSpace_length_le line
  rw [getJobPropertyIndent.loop]
  simp only [recognisedProperty]
  split
  · rename_i hrec
    by_cases hlt : (strings.TrimSpace line).length < line.length
    · have hpos : ((line.length : Int) - ((strings.TrimSpace line).length : Int)) > 0 := by omega
      have e : ((line.length : Int) - ((strings.TrimSpace line).length : Int)).toNat
          = line.length - (strings.TrimSpace line).length := by omega
      rw [if_pos hpos, if_pos ⟨hrec, hlt⟩, sliceTo_of_le _ _ (by omega) (by omega), e]
    · have hpos : ¬ ((line.length : Int) - ((strings.TrimSpace line).length : Int)) > 0 := by
        omega
      rw [if_neg hpos, if_neg (fun h => hlt h.2)]
  · rename_i hrec
    rw [if_neg (fun h => hrec h.1)]

/-- Outside the flow-style special case, and for a non-negative `jobLine`,
`getJobPropertyIndent` is its scan over `lines[jobLine:]`. -/
theorem getJobPropertyIndent_eq_loop (lines : List GoString) (jobLine : Int)
    (h0 : 0 ≤ jobLine) (hflow : flowStyleCase lines jobLine = false) :
    getJobPropertyIndent lines jobLine = getJobPropertyIndent.loop (lines.drop jobLine.toNat) := by
  unfold getJobPropertyIndent
  split
  · rename_i hlt
    have hb : jobLine.toNat < lines.length := by omega
    have hidx : index lines jobLine = some (lines.get ⟨jobLine.toNat, hb⟩) := by
      simp only [index, h0, if_true]
      exact List.getElem?_eq_getElem hb
    rw [hidx]
    simp only [flowStyleCase, hidx] at hflow
    simp only [hflow]
    rfl
  · rfl

theorem indent_loop_first (pre post : List GoString) (line : GoString)
    (hpre : ∀ l ∈ pre, recognisedProperty (strings.TrimSpace l) = false ∨
      strings.TrimSpace l = l)
    (hrec : recognisedProperty (strings.TrimSpace line) = true)
    (hlt : (strings.TrimSpace line).length < line.length) :
    getJobPropertyIndent.loop (pre ++ line :: post)
      = some (.ok (line.take (line.length - (strings.TrimSpace line).length))) := by
  induction pre with
  | nil => rw [List.nil_append, indent_loop_cons, if_pos ⟨hrec, hlt⟩]
  | cons l rest ih =>
    have hl := hpre l (List.mem_cons_self _ _)
    have hskip : ¬ (recognisedProperty (strings.TrimSpace l) = true ∧
        (strings.TrimSpace l).length < l.length) := by
      rintro ⟨h1, h2⟩
      rcases hl with h | h
      · rw [h] at h1; exact absurd h1 (by decide)
      · rw [h] at h2; exact lt_irrefl _ h2
    rw [List.cons_append, indent_loop_cons, if_neg hskip]
    exact ih (fun x hx => hpre x (List.mem_cons_of_mem _ hx))

theorem insertLoop_append (f : Fixer) (xs ys : List position) :
    ∀ (lines : List GoString) (m : Bool),
      Fix.insertLoop f (xs ++ ys) lines m =
        match Fix.insertLoop f xs lines m with
        | some (.ok (lines1, m1)) => Fix.insertLoop f ys lines1 m1
        | other => other := by
  induction xs with
  | nil =>
    intro lines m
    simp [Fix.insertLoop]
  | cons x rest ih =>
    intro lines m
    by_cases hskip : x.Line ≤ 0 ∨ x.Line > (lines.length : Int)
    · rw [List.cons_append, insertLoop_cons_skip f x _ lines m hskip,
        insertLoop_cons_skip f x _ lines m hskip]
      exact ih lines m
    · rw [List.cons_append, insertLoop_cons_inrange f x _ lines m (by omega) (by omega),
        insertLoop_cons_inrange f x _ lines m (by omega) (by omega)]
      cases hj : getJobPropertyIndent lines x.Line with
      | none => rfl
      | some r =>
        cases r with
        | error e => rfl
        | ok indent => exact ih _ true

/-! ## Lemmas on `parseLine` -/

theorem dropWhile_append_all (p : UInt8 → Bool) (xs ys : GoString)
    (h : ∀ x ∈ xs, p x = true) : (xs ++ ys).dropWhile p = ys.dropWhile p := by
  induction xs with
  | nil => rfl
  | cons x rest ih =>
    rw [List.cons_append, List.dropWhile_cons, if_pos (h x (List.mem_cons_self _ _))]
    exact ih (fun y hy => h y (List.mem_cons_of_mem _ hy))

theorem takeWhile_append_all (p : UInt8 → Bool) (xs ys : GoString)
    (h : ∀ x ∈ xs, p x = true) : (xs ++ ys).takeWhile p = xs ++ ys.takeWhile p := by
  induction xs with
  | nil => rfl
  | cons x rest ih =>
    rw [List.cons_append, List.takeWhile_cons, if_pos (h x (List.mem_cons_self _ _)),
      ih (fun y hy => h y (List.mem_cons_of_mem _ hy))]
    rfl

theorem dropWhile_of_head (p : UInt8 → Bool) (ys : GoString)
    (h : ∀ b, ys.head? = some b → p b = false) : ys.dropWhile p = ys := by
  cases ys with
  | nil => rfl
  | cons y rest =>
    have := h y rfl
    simp [List.dropWhile_cons, this]

theorem takeWhile_of_head (p : UInt8 → Bool) (ys : GoString)
    (h : ∀ b, ys.head? = some b → p b = false) : ys.takeWhile p = [] := by
  cases ys with
  | nil => rfl
  | cons y rest =>
    have := h y rfl
    simp [List.takeWhile_cons, this]

theorem str_uses : str "uses" = [117, 115, 101, 115] := by decide

theorem str_uses_double : str "\"uses\"" = [34, 117, 115, 101, 115, 34] := by decide

theorem str_uses_single : str "'uses'" = [39, 117, 115, 101, 115, 39] := by decide

theorem skipKey_key (key rest : GoString)
    (hkey : key = str "uses" ∨ key = str "\"uses\"" ∨ key = str "'uses'") :
    pin.skipKey (key ++ rest) = some rest ∧
      ∃ b t, key = b :: t ∧ pin.isBlank b = false ∧ b ≠ 45 := by
  rcases hkey with h | h | h
  · subst h
    refine ⟨?_, 117, [115, 101, 115], str_uses, by decide, by decide⟩
    have h1 : (str "uses").isPrefixOf (str "uses" ++ rest) = true :=
      List.isPrefixOf_iff_prefix.2 (List.prefix_append _ _)
    rw [pin.skipKey, if_pos h1]
    rfl
  · subst h
    refine ⟨?_, 34, [117, 115, 101, 115, 34], str_uses_double, by decide, by decide⟩
    have h1 : ¬ (str "uses").isPrefixOf (str "\"uses\"" ++ rest) = true := by
      intro h; exact absurd h (by rw [show (str "uses").isPrefixOf (str "\"uses\"" ++ rest) = false from rfl]; decide)
    have h2 : (str "\"uses\"").isPrefixOf (str "\"uses\"" ++ rest) = true :=
      List.isPrefixOf_iff_prefix.2 (List.prefix_append _ _)
    rw [pin.skipKey, if_neg h1, if_pos h2]
    rfl
  · subst h
    refine ⟨?_, 39, [117, 115, 101, 115, 39], str_uses_single, by decide, by decide⟩
    have h1 : ¬ (str "uses").isPrefixOf (str "'uses'" ++ rest) = true := by
      intro h; exact absurd h (by rw [show (str "uses").isPrefixOf (str "'uses'" ++ rest) = false from rfl]; decide)
    have h2 : ¬ (str "\"uses\"").isPrefixOf (str "'uses'" ++ rest) = true := by
      intro h; exact absurd h (by rw [show (str "\"uses\"").isPrefixOf (str "'uses'" ++ rest) = false from rfl]; decide)
    have h3 : (str "'uses'").isPrefixOf (str "'uses'" ++ rest) = true :=
      List.isPrefixOf_iff_prefix.2 (List.prefix_append _ _)
    rw [pin.skipKey, if_neg h1, if_neg h2, if_pos h3]
    rfl

theorem intercalate_cons_cons (sep x y : GoString) (rest : List GoString) :
    sep.intercalate (x :: y :: rest) = x ++ (sep ++ sep.intercalate (y :: rest)) := by
  simp [List.intercalate, List.intersperse]

theorem mem_intercalate_slash (xs : List GoString) (b : UInt8)
    (h : b ∈ [47].intercalate xs) : b = 47 ∨ ∃ s ∈ xs, b ∈ s := by
  induction xs with
  | nil => simp [List.intercalate] at h
  | cons x rest ih =>
    cases rest with
    | nil =>
      have e : [47].intercalate [x] = x := by simp [List.intercalate]
      rw [e] at h
      exact Or.inr ⟨x, List.mem_cons_self _ _, h⟩
    | cons y tl =>
      rw [intercalate_cons_cons] at h
      simp only [List.mem_append, List.mem_singleton] at h
      rcases h with h | h | h
      · exact Or.inr ⟨x, List.mem_cons_self _ _, h⟩
      · exact Or.inl h
      · rcases ih h with h1 | ⟨s, hs, hb⟩
        · exact Or.inl h1
        · exact Or.inr ⟨s, List.mem_cons_of_mem _ hs, hb⟩

theorem isBlank_of_isRefByte (b : UInt8) (h : pin.isRefByte b = true) :
    pin.isBlank b = false ∧ b ≠ 34 ∧ b ≠ 39 ∧ b ≠ 35 := by
  simp only [pin.isRefByte, Bool.not_eq_true', Bool.or_eq_false_iff, beq_eq_false_iff_ne] at h
  exact ⟨h.1.1.1, h.1.1.2, h.1.2, h.2⟩

theorem isRefByte_of_isBlank (b : UInt8) (h : pin.isBlank b = true) :
    pin.isRefByte b = false := by
  simp [pin.isRefByte, h]

theorem take_length_sub (xs ys : GoString) :
    (xs ++ ys).take ((xs ++ ys).length - ys.length) = xs := by
  have e : (xs ++ ys).length - ys.length = xs.length := by
    rw [List.length_append]; omega
  rw [e, List.take_left']
  rfl

/-- The stages of `parseLine` on a line given by its parts. -/
theorem parseLine_stages (u : pin.UsesLine) (h : u.WellFormed) :
    pin.skipKey (pin.skipMarker (pin.skipBlank u.render))
      = some (u.beforeColon ++ 58 :: (u.afterColon ++ u.value)) ∧
    pin.skipColon (u.beforeColon ++ 58 :: (u.afterColon ++ u.value)) = some u.value ∧
    pin.parseValue u.value = some (u.reference, u.beforeComment ++ u.comment) ∧
    pin.splitRef u.reference = some u.definition ∧
    pin.parseTail (u.beforeComment ++ u.comment) = some u.comment := by
  obtain ⟨hindent, hafterDash, hkey, hbc, hac, hquote, hnames, howner, hrepo, href, hrefb,
    hbcom, hcomment⟩ := h
  obtain ⟨hskip, b0, t0, hk0, hb0, hb045⟩ :=
    skipKey_key u.key (u.beforeColon ++ 58 :: (u.afterColon ++ u.value)) hkey
  -- every byte of the reference is a reference byte
  have hname : ∀ b ∈ [47].intercalate (u.owner :: u.repo :: u.segments),
      pin.isRefByte b = true ∧ b ≠ 64 := by
    intro b hb
    rcases mem_intercalate_slash _ b hb with h47 | ⟨s, hs, hbs⟩
    · subst h47; exact ⟨by decide, by decide⟩
    · exact ⟨(hnames s hs b hbs).1, (hnames s hs b hbs).2.2⟩
  have hrefbytes : ∀ b ∈ u.reference, pin.isRefByte b = true := by
    intro b hb
    simp only [pin.UsesLine.reference, List.mem_append, List.mem_cons] at hb
    rcases hb with hb | hb | hb
    · exact (hname b hb).1
    · subst hb; decide
    · exact hrefb b hb
  have hrefne : ∃ r0 rs, u.reference = r0 :: rs := by
    cases hr : u.reference with
    | nil =>
      have : (64 : UInt8) ∈ u.reference := by simp [pin.UsesLine.reference]
      rw [hr] at this
      simp at this
    | cons r0 rs => exact ⟨r0, rs, rfl⟩
  have htail : ∀ b, (u.beforeComment ++ u.comment).head? = some b → pin.isRefByte b = false := by
    intro b hb
    cases hbc0 : u.beforeComment with
    | nil =>
      rw [hbc0, List.nil_append] at hb
      rcases hcomment with hc | hc
      · rw [hc] at hb; simp at hb
      · rw [hc] at hb
        simp only [Option.some.injEq] at hb
        subst hb; decide
    | cons c cs =>
      rw [hbc0] at hb
      simp only [List.cons_append, List.head?_cons, Option.some.injEq] at hb
      subst hb
      exact isRefByte_of_isBlank _ (hbcom _ (by rw [hbc0]; exact List.mem_cons_self _ _))
  have hvalue : ∀ b, u.value.head? = some b → pin.isBlank b = false := by
    intro b hb
    obtain ⟨r0, rs, hr⟩ := hrefne
    rcases hquote with hq | hq | hq
    · simp only [pin.UsesLine.value, pin.UsesLine.quoteText, hq, hr, List.nil_append,
        List.cons_append, List.head?_cons, Option.some.injEq] at hb
      subst hb
      exact (isBlank_of_isRefByte _ (hrefbytes _ (by rw [hr]; exact List.mem_cons_self _ _))).1
    · simp only [pin.UsesLine.value, pin.UsesLine.quoteText, hq, List.cons_append,
        List.head?_cons, Option.some.injEq] at hb
      subst hb; decide
    · simp only [pin.UsesLine.value, pin.UsesLine.quoteText, hq, List.cons_append,
        List.head?_cons, Option.some.injEq] at hb
      subst hb; decide
  refine ⟨?_, ?_, ?_, ?_, ?_⟩
  · -- indentation, marker and key
    have hrender : u.render = u.indent ++ (u.marker ++ (u.key ++
        (u.beforeColon ++ 58 :: (u.afterColon ++ u.value)))) := by
      simp [pin.UsesLine.render, pin.UsesLine.head, List.append_assoc]
    have hkeyhead : ∀ R : GoString, pin.skipBlank (u.key ++ R) = u.key ++ R := by
      intro R
      apply dropWhile_of_head
      intro b hb
      rw [hk0] at hb
      simp only [List.cons_append, List.head?_cons, Option.some.injEq] at hb
      subst hb; exact hb0
    rw [hrender, pin.skipBlank, dropWhile_append_all _ _ _ hindent]
    cases hd : u.dash with
    | true =>
      have hm : u.marker = 45 :: u.afterDash := by simp [pin.UsesLine.marker, hd]
      rw [hm, List.cons_append, List.dropWhile_cons, if_neg (by decide)]
      simp only [pin.skipMarker, if_true]
      rw [pin.skipBlank, dropWhile_append_all _ _ _ hafterDash]
      have := hkeyhead (u.beforeColon ++ 58 :: (u.afterColon ++ u.value))
      rw [pin.skipBlank] at this
      rw [this]
      exact hskip
    | false =>
      have hm : u.marker = [] := by simp [pin.UsesLine.marker, hd]
      rw [hm, List.nil_append]
      have := hkeyhead (u.beforeColon ++ 58 :: (u.afterColon ++ u.value))
      rw [pin.skipBlank] at this
      rw [this]
      have hsm : pin.skipMarker (u.key ++ (u.beforeColon ++ 58 :: (u.afterColon ++ u.value)))
          = u.key ++ (u.beforeColon ++ 58 :: (u.afterColon ++ u.value)) := by
        rw [hk0, List.cons_append, pin.skipMarker, if_neg hb045]
      rw [hsm]
      exact hskip
  · -- colon
    have h1 : pin.skipBlank (u.beforeColon ++ 58 :: (u.afterColon ++ u.value))
        = 58 :: (u.afterColon ++ u.value) := by
      rw [pin.skipBlank, dropWhile_append_all _ _ _ hbc, List.dropWhile_cons, if_neg (by decide)]
    have h2 : pin.skipBlank (u.afterColon ++ u.value) = u.value := by
      rw [pin.skipBlank, dropWhile_append_all _ _ _ hac]
      exact dropWhile_of_head _ _ hvalue
    simp only [pin.skipColon, h1, if_true, h2]
  · -- value
    obtain ⟨r0, rs, hr⟩ := hrefne
    have hQ : ∀ q : UInt8, pin.isRefByte q = false →
        (u.reference ++ (q :: (u.beforeComment ++ u.comment))).dropWhile pin.isRefByte
            = q :: (u.beforeComment ++ u.comment) ∧
          (u.reference ++ (q :: (u.beforeComment ++ u.comment))).takeWhile pin.isRefByte
            = u.reference := by
      intro q hq
      constructor
      · rw [dropWhile_append_all _ _ _ hrefbytes, List.dropWhile_cons, if_neg (by simp [hq])]
      · rw [takeWhile_append_all _ _ _ hrefbytes, List.takeWhile_cons, if_neg (by simp [hq]),
          List.append_nil]
    rcases hquote with hq | hq | hq
    · have hv : u.value = r0 :: (rs ++ (u.beforeComment ++ u.comment)) := by
        simp [pin.UsesLine.value, pin.UsesLine.quoteText, hq, hr]
      have hr0 := isBlank_of_isRefByte r0 (hrefbytes r0 (by rw [hr]; exact List.mem_cons_self _ _))
      have hnq : ¬ (r0 = 34 ∨ r0 = 39) := by
        rintro (h | h)
        · exact hr0.2.1 h
        · exact hr0.2.2.1 h
      rw [hv, pin.parseValue, if_neg hnq]
      have hv2 : r0 :: (rs ++ (u.beforeComment ++ u.comment))
          = u.reference ++ (u.beforeComment ++ u.comment) := by rw [hr]; rfl
      rw [hv2, takeWhile_append_all _ _ _ hrefbytes, dropWhile_append_all _ _ _ hrefbytes,
        takeWhile_of_head _ _ htail, dropWhile_of_head _ _ htail, List.append_nil]
    · have hv : u.value = 34 :: (u.reference ++ (34 :: (u.beforeComment ++ u.comment))) := by
        simp [pin.UsesLine.value, pin.UsesLine.quoteText, hq]
      obtain ⟨h1, h2⟩ := hQ 34 (by decide)
      rw [hv, pin.parseValue, if_pos (Or.inl rfl)]
      simp only [h1, h2, if_true]
    · have hv : u.value = 39 :: (u.reference ++ (39 :: (u.beforeComment ++ u.comment))) := by
        simp [pin.UsesLine.value, pin.UsesLine.quoteText, hq]
      obtain ⟨h1, h2⟩ := hQ 39 (by decide)
      rw [hv, pin.parseValue, if_pos (Or.inr rfl)]
      simp only [h1, h2, if_true]
  · -- reference
    have hp : ∀ b ∈ [47].intercalate (u.owner :: u.repo :: u.segments),
        (fun b : UInt8 => b != 64) b = true := by
      intro b hb
      simp [(hname b hb).2]
    have h1 : u.reference.dropWhile (fun b => b != 64) = 64 :: u.ref := by
      rw [pin.UsesLine.reference, dropWhile_append_all _ _ _ hp, List.dropWhile_cons,
        if_neg (by simp)]
    have h2 : u.reference.takeWhile (fun b => b != 64)
        = [47].intercalate (u.owner :: u.repo :: u.segments) := by
      rw [pin.UsesLine.reference, takeWhile_append_all _ _ _ hp, List.takeWhile_cons,
        if_neg (by simp), List.append_nil]
    have h3 : ([47].intercalate (u.owner :: u.repo :: u.segments)).splitOn 47
        = u.owner :: u.repo :: u.segments := by
      apply List.splitOn_intercalate
      · intro l hl hc
        exact (hnames l hl 47 hc).2.1 rfl
      · simp
    have h4 : ¬ (u.owner = [] ∨ u.repo = []) := by
      rintro (h | h)
      · exact howner h
      · exact hrepo h
    simp only [pin.splitRef, h1, h2, h3, href, if_false, h4]
    rfl
  · -- comment
    have h1 : pin.skipBlank (u.beforeComment ++ u.comment) = u.comment := by
      rw [pin.skipBlank, dropWhile_append_all _ _ _ hbcom]
      apply dropWhile_of_head
      intro b hb
      rcases hcomment with hc | hc
      · rw [hc] at hb; simp at hb
      · rw [hc] at hb
        simp only [Option.some.injEq] at hb
        subst hb; decide
    rw [pin.parseTail, h1]
    rcases hcomment with hc | hc
    · rw [hc]
    · cases hcm : u.comment with
      | nil => rfl
      | cons c cs =>
        rw [hcm] at hc
        simp only [List.head?_cons, Option.some.injEq] at hc
        subst hc
        simp

/-- `parseLine` on a line given by its parts finds these parts. -/
theorem parseLine_render (u : pin.UsesLine) (h : u.WellFormed) :
    pin.parseLine u.render = some ⟨u.definition, u.head, u.comment⟩ := by
  obtain ⟨h1, h2, h3, h4, h5⟩ := parseLine_stages u h
  simp only [pin.parseLine, h1, h2, h3, h4, h5]
  rw [pin.UsesLine.render, take_length_sub]

theorem skipKey_some (s r : GoString) (h : pin.skipKey s = some r) :
    ∃ key, (key = str "uses" ∨ key = str "\"uses\"" ∨ key = str "'uses'") ∧ s = key ++ r := by
  have hpre : ∀ (key : GoString), key.isPrefixOf s = true → s = key ++ s.drop key.length := by
    intro key hk
    exact (List.prefix_iff_eq_append.1 (List.isPrefixOf_iff_prefix.1 hk)).symm
  unfold pin.skipKey at h
  split at h
  · rename_i hk
    simp only [Option.some.injEq] at h
    refine ⟨str "uses", Or.inl rfl, ?_⟩
    rw [← h]
    exact hpre _ hk
  · split at h
    · rename_i hk
      simp only [Option.some.injEq] at h
      refine ⟨str "\"uses\"", Or.inr (Or.inl rfl), ?_⟩
      rw [← h]
      exact hpre _ hk
    · split at h
      · rename_i hk
        simp only [Option.some.injEq] at h
        refine ⟨str "'uses'", Or.inr (Or.inr rfl), ?_⟩
        rw [← h]
        exact hpre _ hk
      · simp at h

theorem skipMarker_shape (s : GoString) :
    ∃ marker, s = marker ++ pin.skipMarker s ∧
      (marker = [] ∨ ∃ sp, marker = 45 :: sp ∧ ∀ b ∈ sp, pin.isBlank b = true) := by
  cases s with
  | nil => exact ⟨[], rfl, Or.inl rfl⟩
  | cons b rest =>
    by_cases hb : b = 45
    · subst hb
      refine ⟨45 :: rest.takeWhile pin.isBlank, ?_, Or.inr ⟨_, rfl, ?_⟩⟩
      · simp only [pin.skipMarker, if_true, pin.skipBlank, List.cons_append,
          List.takeWhile_append_dropWhile]
      · intro c hc
        exact List.mem_takeWhile_imp hc
    · exact ⟨[], by simp [pin.skipMarker, hb], Or.inl rfl⟩

/-- A line that `parseLine` matches starts, after white space and an optional list
marker, with the key `uses`. -/
theorem parseLine_begins (line : GoString) (p : pin.ParsedLine)
    (h : pin.parseLine line = some p) :
    ∃ indent marker key rest, line = indent ++ (marker ++ (key ++ rest)) ∧
      (∀ b ∈ indent, pin.isBlank b = true) ∧
      (marker = [] ∨ ∃ sp, marker = 45 :: sp ∧ ∀ b ∈ sp, pin.isBlank b = true) ∧
      (key = str "uses" ∨ key = str "\"uses\"" ∨ key = str "'uses'") := by
  unfold pin.parseLine at h
  split at h
  · simp at h
  · rename_i afterKey hk
    obtain ⟨key, hkey, hs⟩ := skipKey_some _ _ hk
    obtain ⟨marker, hm, hmarker⟩ := skipMarker_shape (pin.skipBlank line)
    refine ⟨line.takeWhile pin.isBlank, marker, key, afterKey, ?_,
      fun b hb => List.mem_takeWhile_imp hb, hmarker, hkey⟩
    rw [← hs, ← hm, pin.skipBlank, List.takeWhile_append_dropWhile]

theorem replaceLine_of_parsed (p : pin.Pin) (line : GoString) (parsed : pin.ParsedLine)
    (h : pin.parseLine line = some parsed) :
    pin.replaceLine p line =
      if pin.isIgnored p parsed.definition then (line, false, none)
      else
        match p.resolver parsed.definition with
        | .error .AlreadyResolvedError => (line, false, none)
        | .error e => (line, false, some e)
        | .ok resolved => (pin.pinnedLine parsed resolved, true, none) := by
  rw [pin.replaceLine, h]

theorem scanStops_iff (line : GoString) :
    scanStops line = true ↔
      (recognisedProperty (strings.TrimSpace line) = true ∧
        (strings.TrimSpace line).length < line.length) := by
  simp [scanStops]

/-- One round of the scan, in terms of `scanStops`. -/
theorem indent_loop_step (line : GoString) (rest : List GoString) :
    getJobPropertyIndent.loop (line :: rest) =
      if scanStops line = true then
        some (.ok (line.take (line.length - (strings.TrimSpace line).length)))
      else getJobPropertyIndent.loop rest := by
  rw [indent_loop_cons]
  by_cases h : scanStops line = true
  · rw [if_pos h, if_pos ((scanStops_iff line).1 h)]
  · rw [if_neg h, if_neg (fun hc => h ((scanStops_iff line).2 hc))]

/-- The scan never panics. -/
theorem indent_loop_total (lines : List GoString) :
    ∃ r, getJobPropertyIndent.loop lines = some r := by
  induction lines with
  | nil => exact ⟨_, rfl⟩
  | cons line rest ih =>
    rw [indent_loop_step]
    split
    · exact ⟨_, rfl⟩
    · exact ih

theorem indent_loop_ok_iff (lines : List GoString) :
    (∃ indent, getJobPropertyIndent.loop lines = some (.ok indent)) ↔
      ∃ l ∈ lines, scanStops l = true := by
  induction lines with
  | nil => simp [getJobPropertyIndent.loop]
  | cons l rest ih =>
    rw [indent_loop_step]
    by_cases h : scanStops l = true
    · rw [if_pos h]
      exact ⟨fun _ => ⟨l, List.mem_cons_self _ _, h⟩, fun _ => ⟨_, rfl⟩⟩
    · rw [if_neg h, ih]
      constructor
      · rintro ⟨x, hx, hs⟩
        exact ⟨x, List.mem_cons_of_mem _ hx, hs⟩
      · rintro ⟨x, hx, hs⟩
        rcases List.mem_cons.1 hx with hx | hx
        · rw [hx] at hs; exact absurd hs h
        · exact ⟨x, hx, hs⟩

/-- The flow-style special case of `getJobPropertyIndent`: the result is the prefix of
`lines[jobLine]` made of its leading blanks and tabs, followed by two blanks. -/
theorem getJobPropertyIndent_flow (lines : List GoString) (jobLine : Int)
    (hflow : flowStyleCase lines jobLine = true) :
    ∃ line, index lines jobLine = some line ∧
      getJobPropertyIndent lines jobLine =
        some (.ok (line.take (line.length - (strings.TrimLeft line (str " \t")).length)
          ++ str "  ")) := by
  cases hidx : index lines jobLine with
  | none => simp [flowStyleCase, hidx] at hflow
  | some line =>
    refine ⟨line, rfl, ?_⟩
    simp only [flowStyleCase, hidx] at hflow
    have hlt : jobLine < (lines.length : Int) := by
      unfold index at hidx
      split at hidx
      · rename_i h0
        have := (List.getElem?_eq_some_iff.1 hidx).1
        omega
      · simp at hidx
    have hle : (strings.TrimLeft line (str " \t")).length ≤ line.length := by
      unfold strings.TrimLeft
      exact List.Sublist.length_le (List.dropWhile_sublist _)
    have e : ((line.length : Int) - ((strings.TrimLeft line (str " \t")).length : Int)).toNat
        = line.length - (strings.TrimLeft line (str " \t")).length := by omega
    unfold getJobPropertyIndent
    rw [if_pos hlt, hidx]
    simp only [hflow, if_true]
    rw [sliceTo_of_le _ _ (by omega) (by omega), e]

/-- `getJobPropertyIndent` never panics on a non-negative `jobLine`. -/
theorem getJobPropertyIndent_total (lines : List GoString) (jobLine : Int) (h0 : 0 ≤ jobLine) :
    ∃ r, getJobPropertyIndent lines jobLine = some r := by
  cases hflow : flowStyleCase lines jobLine with
  | false =>
    rw [getJobPropertyIndent_eq_loop _ _ h0 hflow]
    exact indent_loop_total _
  | true =>
    obtain ⟨line, _, h⟩ := getJobPropertyIndent_flow lines jobLine hflow
    exact ⟨_, h⟩

/-- `getJobPropertyIndent` succeeds exactly when its special case applies or its scan
stops at a line. -/
theorem getJobPropertyIndent_ok_iff (lines : List GoString) (jobLine : Int) (h0 : 0 ≤ jobLine) :
    (∃ indent, getJobPropertyIndent lines jobLine = some (.ok indent)) ↔
      (flowStyleCase lines jobLine = true ∨
        ∃ l ∈ lines.drop jobLine.toNat, scanStops l = true) := by
  cases hflow : flowStyleCase lines jobLine with
  | false =>
    rw [getJobPropertyIndent_eq_loop _ _ h0 hflow, indent_loop_ok_iff]
    simp
  | true =>
    obtain ⟨line, _, h⟩ := getJobPropertyIndent_flow lines jobLine hflow
    simp only [true_or, iff_true]
    exact ⟨_, h⟩

/-! ## Lemmas on the insertion loop -/

theorem index_insertAfter_lt (lines : List GoString) (p : Nat) (t : GoString) (j : Int)
    (hjp : j < (p : Int)) (hp : p ≤ lines.length) :
    index (insertAfter lines p t) j = index lines j := by
  unfold index
  split
  · exact insertAfter_get_lt lines p j.toNat t (by omega) hp
  · rfl

theorem flowStyleCase_insertAfter (lines : List GoString) (p : Nat) (t : GoString) (j : Int)
    (hjp : j < (p : Int)) (hp : p ≤ lines.length) :
    flowStyleCase (insertAfter lines p t) j = flowStyleCase lines j := by
  unfold flowStyleCase
  rw [index_insertAfter_lt lines p t j hjp hp]

theorem mem_drop_insertAfter (lines : List GoString) (p k : Nat) (t l : GoString)
    (hk : k ≤ p) (hp : p ≤ lines.length) (hl : l ∈ lines.drop k) :
    l ∈ (insertAfter lines p t).drop k := by
  have h1 : (lines.take p).length = p := by simp [List.length_take]; omega
  have e1 : lines.drop k = (lines.take p).drop k ++ lines.drop p := by
    conv_lhs => rw [← List.take_append_drop p lines]
    rw [List.drop_append_of_le_length (by omega)]
  have e2 : (insertAfter lines p t).drop k
      = (lines.take p).drop k ++ ([t] ++ lines.drop p) := by
    simp only [insertAfter, List.append_assoc]
    rw [List.drop_append_of_le_length (by omega)]
  rw [e1] at hl
  rw [e2]
  simp only [List.mem_append] at hl ⊢
  tauto

/-- A line inserted further down does not make the indent calculation of an earlier
job fail. -/
theorem indentOk_insertAfter (lines : List GoString) (p : Nat) (t : GoString) (j : Int)
    (h0 : 0 ≤ j) (hjp : j < (p : Int)) (hp : p ≤ lines.length)
    (h : ∃ indent, getJobPropertyIndent lines j = some (.ok indent)) :
    ∃ indent, getJobPropertyIndent (insertAfter lines p t) j = some (.ok indent) := by
  rw [getJobPropertyIndent_ok_iff _ _ h0] at h ⊢
  rw [flowStyleCase_insertAfter lines p t j hjp hp]
  rcases h with h | ⟨l, hl, hs⟩
  · exact Or.inl h
  · exact Or.inr ⟨l, mem_drop_insertAfter lines p j.toNat t l (by omega) hp hl, hs⟩

/-- The insertion loop never panics. -/
theorem insertLoop_total (f : Fixer) :
    ∀ (ds : List position) (lines : List GoString) (m : Bool),
      ∃ r, Fix.insertLoop f ds lines m = some r := by
  intro ds
  induction ds with
  | nil => intro lines m; exact ⟨_, rfl⟩
  | cons d rest ih =>
    intro lines m
    by_cases hskip : d.Line ≤ 0 ∨ d.Line > (lines.length : Int)
    · rw [insertLoop_cons_skip f d rest lines m hskip]
      exact ih lines m
    · rw [insertLoop_cons_inrange f d rest lines m (by omega) (by omega)]
      obtain ⟨r, hr⟩ := getJobPropertyIndent_total lines d.Line (by omega)
      rw [hr]
      cases r with
      | error e => exact ⟨_, rfl⟩
      | ok indent => exact ih _ true

/-- The insertion loop on in-range positions visited in strictly decreasing line
order: every position gets a line. -/
theorem insertLoop_inrange (f : Fixer) :
    ∀ (ds : List position) (lines : List GoString) (m : Bool) (R : List GoString) (b : Bool),
      (ds.map (fun d => d.Line)).Pairwise (fun x y => x > y) →
      (∀ d ∈ ds, 1 ≤ d.Line ∧ d.Line ≤ (lines.length : Int)) →
      Fix.insertLoop f ds lines m = some (.ok (R, b)) →
      ∃ qs : List (Nat × GoString),
        qs.map Prod.fst = ds.reverse.map (fun d => d.Line.toNat) ∧
        (∀ q ∈ qs, ∃ indent, q.2 = Fix.timeoutLine f indent) ∧
        R = spliceAll qs lines ∧ (b = true ↔ (m = true ∨ ds ≠ [])) := by
  intro ds
  induction ds with
  | nil =>
    intro lines m R b _ _ h
    simp only [Fix.insertLoop, Option.some.injEq, Except.ok.injEq, Prod.mk.injEq] at h
    exact ⟨[], by simp, by simp, by simp [spliceAll, h.1], by simp [h.2]⟩
  | cons d rest ih =>
    intro lines m R b hdesc hin h
    simp only [List.map_cons, List.pairwise_cons] at hdesc
    obtain ⟨hd1, hd2⟩ := hin d (List.mem_cons_self _ _)
    rw [insertLoop_cons_inrange f d rest lines m hd1 hd2] at h
    split at h
    · simp at h
    · simp at h
    · rename_i indent hind
      have hin1 : ∀ d1 ∈ rest, 1 ≤ d1.Line ∧ d1.Line ≤
          ((insertAfter lines d.Line.toNat (Fix.timeoutLine f indent)).length : Int) := by
        intro d1 hd
        have := hin d1 (List.mem_cons_of_mem _ hd)
        rw [insertAfter_length]
        push_cast
        omega
      obtain ⟨qs, hq1, hq2, hq4, hq5⟩ := ih _ true R b hdesc.2 hin1 h
      have hb : b = true := hq5.2 (Or.inl rfl)
      refine ⟨qs ++ [(d.Line.toNat, Fix.timeoutLine f indent)], ?_, ?_, ?_, ?_⟩
      · simp [hq1]
      · intro q hq
        rcases List.mem_append.1 hq with hq | hq
        · exact hq2 q hq
        · simp only [List.mem_singleton] at hq
          exact ⟨indent, by rw [hq]⟩
      · rw [spliceAll_append, hq4]
        rfl
      · simp [hb]

/-- The insertion loop succeeds on in-range positions visited in strictly decreasing
line order when the indent calculation succeeds for each of them on the lines the
loop starts with. -/
theorem insertLoop_succeeds (f : Fixer) :
    ∀ (ds : List position) (lines : List GoString) (m : Bool),
      (ds.map (fun d => d.Line)).Pairwise (fun x y => x > y) →
      (∀ d ∈ ds, 1 ≤ d.Line ∧ d.Line ≤ (lines.length : Int)) →
      (∀ d ∈ ds, ∃ indent, getJobPropertyIndent lines d.Line = some (.ok indent)) →
      ∃ R b, Fix.insertLoop f ds lines m = some (.ok (R, b)) := by
  intro ds
  induction ds with
  | nil => intro lines m _ _ _; exact ⟨lines, m, rfl⟩
  | cons d rest ih =>
    intro lines m hdesc hin hok
    simp only [List.map_cons, List.pairwise_cons] at hdesc
    obtain ⟨hd1, hd2⟩ := hin d (List.mem_cons_self _ _)
    obtain ⟨indent, hind⟩ := hok d (List.mem_cons_self _ _)
    rw [insertLoop_cons_inrange f d rest lines m hd1 hd2, hind]
    refine ih _ true hdesc.2 ?_ ?_
    · intro d1 hd
      have := hin d1 (List.mem_cons_of_mem _ hd)
      rw [insertAfter_length]
      push_cast
      omega
    · intro d1 hd
      have h1 := hin d1 (List.mem_cons_of_mem _ hd)
      have h2 := hdesc.1 d1.Line (List.mem_map_of_mem _ hd)
      exact indentOk_insertAfter lines d.Line.toNat _ d1.Line (by omega) (by omega) (by omega)
        (hok d1 (List.mem_cons_of_mem _ hd))

theorem insertAfter_eq_insertIdx (lines : List GoString) (p : Nat) (t : GoString)
    (hp : p ≤ lines.length) : insertAfter lines p t = lines.insertIdx p t := by
  induction lines generalizing p with
  | nil =>
    have : p = 0 := by simpa using hp
    subst this
    rfl
  | cons l rest ih =>
    cases p with
    | zero => rfl
    | succ n =>
      have h := ih n (by simpa using hp)
      unfold insertAfter at h ⊢
      rw [List.insertIdx_succ_cons, ← h]
      rfl

/-- Two insertions commute when the lower one is counted in the line number of the
upper one. -/
theorem insertAfter_comm (lines : List GoString) (p q : Nat) (t u : GoString)
    (hpq : p ≤ q) (hq : q ≤ lines.length) :
    insertAfter (insertAfter lines q u) p t = insertAfter (insertAfter lines p t) (q + 1) u := by
  rw [insertAfter_eq_insertIdx lines q u hq, insertAfter_eq_insertIdx lines p t (by omega),
    insertAfter_eq_insertIdx _ p t (by rw [List.length_insertIdx _ _ hq]; omega),
    insertAfter_eq_insertIdx _ (q + 1) u (by rw [List.length_insertIdx _ _ (by omega)]; omega)]
  exact (List.insertIdx_comm t u p q lines hpq hq).symm

/-- An insertion made before the insertions `qs`, all of which lie at or below it,
moves each of them down by one line. -/
theorem insertAfter_spliceAll (qs : List (Nat × GoString)) (lines : List GoString) (p : Nat)
    (t : GoString) (hp : ∀ q ∈ qs, p ≤ q.1) (hlen : ∀ q ∈ qs, q.1 ≤ lines.length) :
    insertAfter (spliceAll qs lines) p t =
      spliceAll (qs.map (fun q => (q.1 + 1, q.2))) (insertAfter lines p t) := by
  induction qs with
  | nil => rfl
  | cons q0 rest ih =>
    obtain ⟨q, u⟩ := q0
    have hq := hp (q, u) (List.mem_cons_self _ _)
    have hql := hlen (q, u) (List.mem_cons_self _ _)
    simp only [spliceAll, List.map_cons]
    rw [insertAfter_comm _ p q t u hq (by rw [spliceAll_length]; omega),
      ih (fun x hx => hp x (List.mem_cons_of_mem _ hx))
        (fun x hx => hlen x (List.mem_cons_of_mem _ hx))]

/-- The ascending, offset-adjusted splice is the splice from the last insertion to
the first. -/
theorem spliceAscending_eq_spliceAll :
    ∀ (qs : List (Nat × GoString)) (offset : Nat) (lines : List GoString),
      (qs.map Prod.fst).Pairwise (fun a b => a < b) →
      (∀ q ∈ qs, q.1 + offset ≤ lines.length) →
      spliceAscending qs offset lines
        = spliceAll (qs.map (fun q => (q.1 + offset, q.2))) lines := by
  intro qs
  induction qs with
  | nil => intro offset lines _ _; rfl
  | cons q0 rest ih =>
    obtain ⟨p, t⟩ := q0
    intro offset lines hasc hlen
    simp only [List.map_cons, List.pairwise_cons] at hasc
    have hpl := hlen (p, t) (List.mem_cons_self _ _)
    simp only [spliceAscending, List.map_cons, spliceAll]
    rw [ih (offset + 1) _ hasc.2 (by
      intro q hq
      have := hlen q (List.mem_cons_of_mem _ hq)
      rw [insertAfter_length]
      omega)]
    rw [insertAfter_spliceAll _ lines (p + offset) t (by
        intro q hq
        obtain ⟨x, hx, rfl⟩ := List.mem_map.1 hq
        have := hasc.1 x.1 (List.mem_map_of_mem _ hx)
        simp only
        omega) (by
        intro q hq
        obtain ⟨x, hx, rfl⟩ := List.mem_map.1 hq
        exact hlen x (List.mem_cons_of_mem _ hx)),
      List.map_map]
    congr 1

/-- The parametrised loop at `getJobPropertyIndent` is the insertion loop of `Fix`. -/
theorem insertLoopWith_getJobPropertyIndent (f : Fixer) :
    ∀ (ds : List position) (lines : List GoString) (m : Bool),
      Fix.insertLoopWith getJobPropertyIndent f ds lines m = Fix.insertLoop f ds lines m := by
  intro ds
  induction ds with
  | nil => intro lines m; rfl
  | cons d rest ih =>
    intro lines m
    rw [Fix.insertLoopWith, Fix.insertLoop]
    split
    · exact ih lines m
    · cases getJobPropertyIndent lines d.Line with
      | none => rfl
      | some r =>
        cases r with
        | error e => rfl
        | ok indent =>
          simp only
          cases sliceTo lines d.Line <;> cases sliceFrom lines d.Line <;>
            first | rfl | exact ih _ true

/-- The loop consults the indent calculation only at `(lines, jobLine)` with
`1 ≤ jobLine ≤ len(lines)`. -/
theorem insertLoopWith_congr (f : Fixer)
    (g1 g2 : List GoString → Int → Option (Except GoError GoString))
    (hagree : ∀ (lines : List GoString) (j : Int), 1 ≤ j → j ≤ (lines.length : Int) →
      g1 lines j = g2 lines j) :
    ∀ (ds : List position) (lines : List GoString) (m : Bool),
      Fix.insertLoopWith g1 f ds lines m = Fix.insertLoopWith g2 f ds lines m := by
  intro ds
  induction ds with
  | nil => intro lines m; rfl
  | cons d rest ih =>
    intro lines m
    rw [Fix.insertLoopWith, Fix.insertLoopWith]
    split
    · exact ih lines m
    · rename_i hc
      rw [hagree lines d.Line (by omega) (by omega)]
      cases g2 lines d.Line with
      | none => rfl
      | some r =>
        cases r with
        | error e => rfl
        | ok indent =>
          simp only
          cases sliceTo lines d.Line <;> cases sliceFrom lines d.Line <;>
            first | rfl | exact ih _ true

/-! ## Lemmas on flow-style jobs -/

theorem hasProperty_iff (props : List MappingValueNode) (name : GoString) :
    hasProperty props name = true ↔
      ∃ prop ∈ props, ∃ k, prop.Key = some k ∧ getKeyString k = name := by
  simp only [hasProperty, List.any_eq_true]
  constructor
  · rintro ⟨prop, hprop, h⟩
    cases hk : prop.Key with
    | none => simp [hk] at h
    | some k =>
      simp only [hk, decide_eq_true_eq] at h
      exact ⟨prop, hprop, k, hk, h⟩
  · rintro ⟨prop, hprop, k, hk, h⟩
    exact ⟨prop, hprop, by simp [hk, h]⟩

theorem hasProperty_cons (prop : MappingValueNode) (rest : List MappingValueNode)
    (name : GoString) :
    hasProperty (prop :: rest) name =
      ((match prop.Key with
        | some k => decide (getKeyString k = name)
        | none => false) || hasProperty rest name) := by
  simp [hasProperty]

/-- The flags of the property loop for a flow-style job. -/
theorem flowProps_spec (props : List MappingValueNode) :
    ∀ (a b c : Bool), getPositions.flowProps props (a, b, c) =
      (a || hasProperty props (str "runs-on"),
        b || hasProperty props (str "timeout-minutes"),
        c || hasProperty props (str "uses")) := by
  have h12 : str "runs-on" ≠ str "timeout-minutes" := by decide
  have h13 : str "runs-on" ≠ str "uses" := by decide
  have h23 : str "timeout-minutes" ≠ str "uses" := by decide
  induction props with
  | nil => intro a b c; simp [getPositions.flowProps, hasProperty]
  | cons prop rest ih =>
    intro a b c
    rw [getPositions.flowProps, hasProperty_cons, hasProperty_cons, hasProperty_cons]
    cases hk : prop.Key with
    | none =>
      simp only [ih, Bool.false_or]
    | some k =>
      simp only
      by_cases h1 : getKeyString k = str "runs-on"
      · rw [if_pos h1, ih]
        simp [h1, h12, h13]
      · rw [if_neg h1]
        by_cases h2 : getKeyString k = str "timeout-minutes"
        · rw [if_pos h2, ih]
          simp [h2, h12.symm, h23]
        · rw [if_neg h2]
          by_cases h3 : getKeyString k = str "uses"
          · rw [if_pos h3, ih]
            simp [h3, h13.symm, h23.symm]
          · rw [if_neg h3, ih]
            simp [h1, h2, h3]

/-! ## Lemmas on keys -/

/-- An entry of the root mapping whose key string is empty is neither an invalid key
nor the `jobs` entry. -/
theorem empty_key_entry (entry : MappingValueNode) (k : Node) (hk : entry.Key = some k)
    (hempty : getKeyString k = []) :
    isGitHubWorkflow.invalidKey entry = false ∧ isGitHubWorkflow.jobsEntry entry = false := by
  have hj : ([] : GoString) ≠ str "jobs" := by decide
  constructor
  · simp [isGitHubWorkflow.invalidKey, hk, hempty]
  · unfold isGitHubWorkflow.jobsEntry
    rw [hk]
    split
    · rename_i k1 _ _ _ h1 _
      cases h1
      simp [hempty, hj]
    · rfl

/-! ## Lemmas on the jobs that `getPositions` visits -/

theorem getPositions_values_entries (values : List MappingValueNode) :
    ∀ positions : List position,
      getPositions.values values positions
        = (values.flatMap jobEntries.ofValue).foldlM getPositions.job positions := by
  induction values with
  | nil => intro positions; rfl
  | cons value rest ih =>
    intro positions
    have hsplit : (value :: rest).flatMap jobEntries.ofValue
        = jobEntries.ofValue value ++ rest.flatMap jobEntries.ofValue := rfl
    rw [hsplit, List.foldlM_append]
    have hskip : jobEntries.ofValue value = [] →
        getPositions.values (value :: rest) positions = getPositions.values rest positions →
        getPositions.values (value :: rest) positions =
          (List.foldlM getPositions.job positions (jobEntries.ofValue value) >>=
            fun ps => List.foldlM getPositions.job ps (rest.flatMap jobEntries.ofValue)) := by
      intro h1 h2
      rw [h1, h2, ih positions]
      rfl
    obtain ⟨k, v⟩ := value
    cases k with
    | none => exact hskip rfl rfl
    | some key =>
      cases v with
      | none => exact hskip rfl rfl
      | some node =>
        cases node with
        | StringNode t x => exact hskip rfl rfl
        | MappingKeyNode t x => exact hskip rfl rfl
        | OtherNode t => exact hskip rfl rfl
        | MappingNode t jobs =>
          by_cases hjobs : getKeyString key = str "jobs"
          · have h1 : jobEntries.ofValue (.mk (some key) (some (.MappingNode t jobs))) = jobs := by
              simp [jobEntries.ofValue, MappingValueNode.Key, MappingValueNode.Value, hjobs]
            have h2 : getPositions.values
                (.mk (some key) (some (.MappingNode t jobs)) :: rest) positions
                = match getPositions.jobs jobs positions with
                  | some positions1 => getPositions.values rest positions1
                  | none => none := by
              simp [getPositions.values, MappingValueNode.Key, MappingValueNode.Value, hjobs]
            rw [h1, h2, getPositions_jobs_foldlM]
            cases List.foldlM getPositions.job positions jobs with
            | none => rfl
            | some ps => exact ih ps
          · refine hskip ?_ ?_
            · simp [jobEntries.ofValue, MappingValueNode.Key, MappingValueNode.Value, hjobs]
            · simp [getPositions.values, MappingValueNode.Key, MappingValueNode.Value, hjobs]

theorem getPositions_docs_entries (docs : List DocumentNode) :
    ∀ positions : List position,
      getPositions.docs docs positions
        = (docs.flatMap jobEntries.ofDoc).foldlM getPositions.job positions := by
  induction docs with
  | nil => intro positions; rfl
  | cons doc rest ih =>
    intro positions
    have hsplit : (doc :: rest).flatMap jobEntries.ofDoc
        = jobEntries.ofDoc doc ++ rest.flatMap jobEntries.ofDoc := rfl
    rw [hsplit, List.foldlM_append]
    have hskip : jobEntries.ofDoc doc = [] →
        getPositions.docs (doc :: rest) positions = getPositions.docs rest positions →
        getPositions.docs (doc :: rest) positions =
          (List.foldlM getPositions.job positions (jobEntries.ofDoc doc) >>=
            fun ps => List.foldlM getPositions.job ps (rest.flatMap jobEntries.ofDoc)) := by
      intro h1 h2
      rw [h1, h2, ih positions]
      rfl
    obtain ⟨body⟩ := doc
    cases body with
    | none => exact hskip rfl rfl
    | some node =>
      cases node with
      | StringNode t x => exact hskip rfl rfl
      | MappingKeyNode t x => exact hskip rfl rfl
      | OtherNode t => exact hskip rfl rfl
      | MappingNode t values =>
        have h1 : jobEntries.ofDoc ⟨some (.MappingNode t values)⟩
            = values.flatMap jobEntries.ofValue := rfl
        have h2 : getPositions.docs (⟨some (.MappingNode t values)⟩ :: rest) positions
            = match getPositions.values values positions with
              | some positions1 => getPositions.docs rest positions1
              | none => none := rfl
        rw [h1, h2, getPositions_values_entries]
        cases List.foldlM getPositions.job positions (values.flatMap jobEntries.ofValue) with
        | none => rfl
        | some ps => exact ih ps

/-- `getPositions` is the job step run over the jobs of the file, in order. -/
theorem getPositions_eq_entries (file : File) :
    getPositions file = (jobEntries file).foldlM getPositions.job [] :=
  getPositions_docs_entries file.Docs []

/-! ## The claims -/

set_option maxRecDepth 100000

/-- C1 fails on the code. `Fix` uses the line numbers of the parser as indices into
the text split on line feeds, and the parser also ends a line at a bare carriage
return. In `crHeader` the key of job `a` is on line 2 of the split text and on line 3
for the parser: `Fix` reports a change, and the extra line follows `    runs-on: x`,
not the key line `  a:`. In `bareCR` two positions are scheduled (lines 2 and 4), the
split text has three lines, and `Fix` reports a change with one extra line, not two:
the position on line 4 does not pass the range check of the loop. -/
theorem C1_line_numbers_disagree :
    getPositions crHeaderFile = some [⟨3, 3⟩] ∧
    Fix (fun _ => .ok crHeaderFile) ⟨5⟩ crHeader = some (crHeaderFixed, true, none) ∧
    (strings.Split crHeader 10)[1]? = some (str "  a:") ∧
    (strings.Split crHeaderFixed 10)[1]? = some (str "  a:") ∧
    (strings.Split crHeaderFixed 10)[2]? = some (str "    runs-on: x") ∧
    (strings.Split crHeaderFixed 10)[3]? = some (str "    timeout-minutes: 5") ∧
    getPositions bareCRFile = some [⟨2, 3⟩, ⟨4, 3⟩] ∧
    Fix (fun _ => .ok bareCRFile) ⟨5⟩ bareCR = some (bareCRFixed, true, none) ∧
    (strings.Split bareCRFixed 10).length = (strings.Split bareCR 10).length + 1 := by
  refine ⟨by rfl, by rfl, by rfl, by rfl, by rfl, by rfl, by rfl, by rfl, by rfl⟩

/-- C2 fails on the code. In `usesAfterCR` job `b` has a direct `uses` property and
`getPositions` schedules job `a` only, on line 4 of the parser. The first two lines of
the text end in a bare carriage return, so line 4 of the text split on line feeds is
the key line of `b`: `Fix` reports a change and puts the timeout line directly under
`  b:`, in the job that calls a reusable workflow, and none in job `a`. -/
theorem C2_uses_job_receives_line :
    getPositions usesAfterCRFile = some [⟨4, 3⟩] ∧
    Fix (fun _ => .ok usesAfterCRFile) ⟨5⟩ usesAfterCR
      = some (usesAfterCRFixed, true, none) ∧
    (strings.Split usesAfterCRFixed 10)[1]? = some (str "  a:") ∧
    (strings.Split usesAfterCRFixed 10)[2]? = some (str "    runs-on: x") ∧
    (strings.Split usesAfterCRFixed 10)[3]? = some (str "  b:") ∧
    (strings.Split usesAfterCRFixed 10)[4]? = some (str "    timeout-minutes: 5") ∧
    (strings.Split usesAfterCRFixed 10)[5]?
      = some (str "    uses: o/r/.github/workflows/w.yml@main") := by
  refine ⟨by rfl, by rfl, by rfl, by rfl, by rfl, by rfl, by rfl⟩

/-- C3 fails on the code. On `matrixWorkflow` the property line is indented four
spaces and the inserted line six: `getJobPropertyIndent` takes its flow-style branch
on the line after the job key, because that line holds a brace and `runs-on:`. On
`crlfWorkflow` the property line is indented four spaces and the inserted line starts
with four spaces and the letter `r`: the indent length is computed from the text
trimmed on both sides, so the trailing carriage return is counted too. -/
theorem C3_indent_differs :
    Fix (fun _ => .ok matrixFile) ⟨5⟩ matrixWorkflow = some (matrixFixed, true, none) ∧
    getJobPropertyIndent (strings.Split matrixWorkflow 10) 2 = some (.ok (str "      ")) ∧
    Fix (fun _ => .ok crlfFile) ⟨5⟩ crlfWorkflow = some (crlfFixed, true, none) ∧
    getJobPropertyIndent (strings.Split crlfWorkflow 10) 2 = some (.ok (str "    r")) := by
  refine ⟨by rfl, by rfl, by rfl, by rfl⟩

/-- C4 fails on the code. The fixer turns `crlfWorkflow` into `crlfFixed`, whose job
has the property `rtimeout-minutes` and still none keyed `timeout-minutes`; run on
`crlfFixed` it reports a change again and inserts a second line. -/
theorem C4_second_run_changes :
    Fix crlfParser ⟨5⟩ crlfWorkflow = some (crlfFixed, true, none) ∧
    Fix crlfParser ⟨5⟩ crlfFixed = some (crlfFixedTwice, true, none) ∧
    crlfFixedTwice ≠ crlfFixed := by
  refine ⟨by rfl, by rfl, by decide⟩

/-- C5: whenever `Fix` returns `(out, changed, err)`, `changed` is true if and only
if the output has more lines than the input (at least one line was inserted); with
`changed = false` the output is the input, byte for byte, and with `changed = true`
the output differs from the input. -/
theorem C5_changed_iff_inserted (ParseBytes : Parser) (f : Fixer) (content out : GoString)
    (changed : Bool) (err : Option GoError)
    (hfix : Fix ParseBytes f content = some (out, changed, err)) :
    (changed = true ↔
      (strings.Split content 10).length < (strings.Split out 10).length) ∧
    (changed = false → out = content) ∧
    (changed = true → out ≠ content) := by
  rcases Fix_cases ParseBytes f content _ hfix with h | ⟨e, h⟩ |
    ⟨file, positions, lines, _, _, _, _, h5, h6⟩
  · simp only [Prod.mk.injEq] at h
    obtain ⟨h1, h2, _⟩ := h
    subst h1 h2
    simp
  · simp only [Prod.mk.injEq] at h
    obtain ⟨h1, h2, _⟩ := h
    subst h1 h2
    simp
  · simp only [Prod.mk.injEq] at h6
    obtain ⟨h1, h2, _⟩ := h6
    obtain ⟨hle, hb, hnl⟩ := insertLoop_grows f _ _ _ _ _ (splitOn_no_sep 10 content) h5
    have hlt : (strings.Split content 10).length < lines.length := by
      rcases hb.1 rfl with h | h
      · simp at h
      · exact h
    have hne : lines ≠ [] := by
      intro hc
      rw [hc] at hlt
      simp at hlt
    have hsplit : strings.Split out 10 = lines := by
      rw [h1]
      exact Split_Join lines 10 hne hnl
    subst h2
    refine ⟨by simp [hsplit, hlt], by simp, ?_⟩
    intro _ hc
    rw [hc] at hsplit
    rw [hsplit] at hlt
    exact lt_irrefl _ hlt

/-- Scenario A instantiates C5: the fixer reports a change and the output differs
from the input. -/
theorem C5_changed_iff_inserted_witness :
    Fix (fun _ => .ok scenarioAFile) ⟨5⟩ scenarioA = some (scenarioAFixed, true, none) ∧
    scenarioAFixed ≠ scenarioA :=
  ⟨by rfl, (C5_changed_iff_inserted (fun _ => .ok scenarioAFile) ⟨5⟩ scenarioA scenarioAFixed
    true none (by rfl)).2.2 rfl⟩

/-- C6: whenever `Fix` returns a non-nil error, the returned text is the input and
`changed` is false, whatever the insertion loop had spliced into its working line
array before the error. -/
theorem C6_error_returns_input (ParseBytes : Parser) (f : Fixer) (content out : GoString)
    (changed : Bool) (e : GoError)
    (hfix : Fix ParseBytes f content = some (out, changed, some e)) :
    out = content ∧ changed = false := by
  rcases Fix_cases ParseBytes f content _ hfix with h | ⟨e1, h⟩ | ⟨_, _, _, _, _, _, _, _, h6⟩
  · simp at h
  · simp only [Prod.mk.injEq] at h
    exact ⟨h.1, h.2.1⟩
  · simp at h6

/-- The workflow `containerOnly` instantiates C6: the indent of its job cannot be
calculated, `Fix` returns the wrapped `ErrIndentNotCalculated`, the input text and
`changed = false`. -/
theorem C6_error_returns_input_witness :
    Fix (fun _ => .ok containerOnlyFile) ⟨5⟩ containerOnly
      = some (containerOnly, false, some (.Wrapf .ErrIndentNotCalculated 3)) ∧
    containerOnly = containerOnly ∧ false = false :=
  ⟨by rfl, C6_error_returns_input (fun _ => .ok containerOnlyFile) ⟨5⟩ containerOnly
    containerOnly false (.Wrapf .ErrIndentNotCalculated 3) (by rfl)⟩

/-- C7: if the content holds both `jobs:` and `runs-on:`, one of its lines holds
`: {` together with `runs-on:`, `steps:` or `uses:`, and no earlier line holds
`:runs-on:`, then `Fix` returns the content, `changed = false` and
`ErrFlowStyleNotSupported`, wherever that line is and whatever the parser would say. -/
theorem C7_flow_style_error (ParseBytes : Parser) (f : Fixer) (content : GoString)
    (pre post : List GoString) (line : GoString)
    (hjobs : strings.Contains content (str "jobs:") = true)
    (hruns : strings.Contains content (str "runs-on:") = true)
    (hsplit : strings.Split content 10 = pre ++ line :: post)
    (hbrace : strings.Contains line (str ": \x7b") = true)
    (hkey : strings.Contains line (str "runs-on:") = true ∨
      strings.Contains line (str "steps:") = true ∨
      strings.Contains line (str "uses:") = true)
    (hpre : ∀ l ∈ pre, strings.Contains l (str ":runs-on:") = false) :
    Fix ParseBytes f content = some (content, false, some .ErrFlowStyleNotSupported) := by
  have hflow : Fix.isFlowLine line = true := by
    simp only [Fix.isFlowLine, hbrace, Bool.true_and, Bool.or_eq_true]
    rcases hkey with h | h | h
    · exact Or.inl (Or.inl h)
    · exact Or.inl (Or.inr h)
    · exact Or.inr h
  rw [Fix_of_gate1 ParseBytes f content hjobs hruns, hsplit,
    scanLines_flow pre post line hflow hpre]

/-- Scenario C instantiates C7. -/
theorem C7_flow_style_error_witness :
    Fix (fun _ => .error malformedError) ⟨5⟩ scenarioC
      = some (scenarioC, false, some .ErrFlowStyleNotSupported) :=
  C7_flow_style_error (fun _ => .error malformedError) ⟨5⟩ scenarioC [str "jobs:"] []
    (str "  flow-job: \x7b runs-on: ubuntu-latest, steps: [ \x7b run: echo test \x7d ] \x7d")
    (by rfl) (by rfl) (by rfl) (by rfl) (Or.inl (by rfl)) (by decide)

/-- C8: if the content holds both `jobs:` and `runs-on:`, one of its lines holds
`:runs-on:`, and neither that line nor any earlier line is a flow-style line
(`: {` together with `runs-on:`, `steps:` or `uses:`), then `Fix` returns the
content, `changed = false` and `ErrCompactJobSyntaxNotSupported`. -/
theorem C8_compact_syntax_error (ParseBytes : Parser) (f : Fixer) (content : GoString)
    (pre post : List GoString) (line : GoString)
    (hjobs : strings.Contains content (str "jobs:") = true)
    (hruns : strings.Contains content (str "runs-on:") = true)
    (hsplit : strings.Split content 10 = pre ++ line :: post)
    (hcompact : strings.Contains line (str ":runs-on:") = true)
    (hnoflow : ∀ l ∈ pre ++ [line],
      ¬ (strings.Contains l (str ": \x7b") = true ∧
        (strings.Contains l (str "runs-on:") = true ∨
          strings.Contains l (str "steps:") = true ∨
          strings.Contains l (str "uses:") = true))) :
    Fix ParseBytes f content
      = some (content, false, some .ErrCompactJobSyntaxNotSupported) := by
  have hno : ∀ l ∈ pre ++ [line], Fix.isFlowLine l = false := by
    intro l hl
    have h := hnoflow l hl
    cases hf : Fix.isFlowLine l with
    | false => rfl
    | true =>
      exfalso
      apply h
      simp only [Fix.isFlowLine, Bool.and_eq_true, Bool.or_eq_true] at hf
      refine ⟨hf.1, ?_⟩
      rcases hf.2 with (h1 | h1) | h1
      · exact Or.inl h1
      · exact Or.inr (Or.inl h1)
      · exact Or.inr (Or.inr h1)
  rw [Fix_of_gate1 ParseBytes f content hjobs hruns, hsplit,
    scanLines_compact pre post line hcompact (hno line (by simp))
      (fun l hl => hno l (List.mem_append_left _ hl))]

/-- The text of `TestFixer_Fix_CompactJobSyntax` instantiates C8. -/
theorem C8_compact_syntax_error_witness :
    Fix (fun _ => .error malformedError) ⟨5⟩ compactJob
      = some (compactJob, false, some .ErrCompactJobSyntaxNotSupported) :=
  C8_compact_syntax_error (fun _ => .error malformedError) ⟨5⟩ compactJob [str "jobs:"] []
    (str "  compact:runs-on: ubuntu-latest") (by rfl) (by rfl) (by rfl) (by rfl) (by decide)

/-- C9 fails on the code. `malformed` holds `jobs:` and `runs-on:` and no line that
the scan flags; when the parser rejects it, `Fix` returns the error of the parser
wrapped by `errors.WithStack`, not a nil error. The text of the test case
`invalid yaml` gets a nil error because it lacks `runs-on:`: `Fix` returns before the
parser is called. -/
theorem C9_parse_error_is_returned :
    Fix (fun _ => .error malformedError) ⟨5⟩ malformed
      = some (malformed, false, some (.WithStack malformedError)) ∧
    Fix (fun _ => .error malformedError) ⟨5⟩ malformed ≠ some (malformed, false, none) ∧
    strings.Contains invalidYaml (str "runs-on:") = false ∧
    Fix (fun _ => .error malformedError) ⟨5⟩ invalidYaml
      = some (invalidYaml, false, none) := by
  refine ⟨by rfl, by decide, by rfl, by rfl⟩

/-- C10: for a file of a single document whose root is a mapping with entries
`values`, `isGitHubWorkflow` returns true if and only if (a) every top-level key whose
string is not empty is one of `name`, `run-name`, `on`, `permissions`, `env`,
`defaults`, `concurrency`, `jobs`, `#`, and (b) some entry keyed `jobs` has a mapping
value in which some job (with a key) has a mapping value with a direct property keyed
`runs-on`, `uses` or `container`. When `Fix` gets to the validation (the content holds
`jobs:` and `runs-on:`, the line scan flags nothing, the parser answers `file`) and
`isGitHubWorkflow file` is false, `Fix` returns the content, `changed = false` and a
nil error. -/
theorem C10_isGitHubWorkflow (t : Option Token) (values : List MappingValueNode) :
    (isGitHubWorkflow ⟨[⟨some (.MappingNode t values)⟩]⟩ = true ↔
      (∀ value ∈ values, ∀ k, value.Key = some k → getKeyString k ≠ [] →
        getKeyString k ∈ [str "name", str "run-name", str "on", str "permissions", str "env",
          str "defaults", str "concurrency", str "jobs", str "#"]) ∧
      (∃ value ∈ values, ∃ k tj jobs, value.Key = some k ∧ getKeyString k = str "jobs" ∧
        value.Value = some (.MappingNode tj jobs) ∧
        ∃ job ∈ jobs, ∃ jk tp props, job.Key = some jk ∧
          job.Value = some (.MappingNode tp props) ∧
          ∃ prop ∈ props, ∃ pk, prop.Key = some pk ∧ (getKeyString pk = str "runs-on" ∨
            getKeyString pk = str "uses" ∨ getKeyString pk = str "container"))) ∧
    (∀ (ParseBytes : Parser) (f : Fixer) (content : GoString) (file : File),
      strings.Contains content (str "jobs:") = true →
      strings.Contains content (str "runs-on:") = true →
      Fix.scanLines (strings.Split content 10) = none →
      ParseBytes content = .ok file →
      isGitHubWorkflow file = false →
      Fix ParseBytes f content = some (content, false, none)) := by
  constructor
  · rw [← invalidKey_any_false]
    have hb : values.any isGitHubWorkflow.jobsEntry = true ↔
        (∃ value ∈ values, ∃ k tj jobs, value.Key = some k ∧ getKeyString k = str "jobs" ∧
          value.Value = some (.MappingNode tj jobs) ∧
          ∃ job ∈ jobs, ∃ jk tp props, job.Key = some jk ∧
            job.Value = some (.MappingNode tp props) ∧
            ∃ prop ∈ props, ∃ pk, prop.Key = some pk ∧ (getKeyString pk = str "runs-on" ∨
              getKeyString pk = str "uses" ∨ getKeyString pk = str "container")) := by
      simp only [List.any_eq_true, jobsEntry_iff, validJob_iff]
    rw [← hb]
    simp only [isGitHubWorkflow, isGitHubWorkflow.docs]
    cases values.any isGitHubWorkflow.invalidKey <;>
      cases values.any isGitHubWorkflow.jobsEntry <;> simp
  · intro ParseBytes f content file hjobs hruns hscan hparse hwf
    rw [Fix_of_gate1 ParseBytes f content hjobs hruns, hscan, hparse]
    simp [hwf]

/-- The test case `non-github-workflow yaml with jobs and runs-on` instantiates C10:
the top-level key `kind` is not in the list, `isGitHubWorkflow` is false and `Fix`
returns the text unchanged without error. -/
theorem C10_isGitHubWorkflow_witness :
    isGitHubWorkflow kubernetesLikeFile = false ∧
    Fix (fun _ => .ok kubernetesLikeFile) ⟨5⟩ kubernetesLike
      = some (kubernetesLike, false, none) :=
  ⟨by rfl, (C10_isGitHubWorkflow (tokenAt 1 1) kubernetesLikeValues).2
    (fun _ => .ok kubernetesLikeFile) ⟨5⟩
    kubernetesLike kubernetesLikeFile (by rfl) (by rfl) (by rfl) rfl (by rfl)⟩

/-- C11, as stated, fails: `flowInManifest` is not a workflow (its tree fails
`isGitHubWorkflow` on the top-level key `kind`), yet `Fix` returns
`ErrFlowStyleNotSupported` for it, because the line scan runs before the parser and
the validation. -/
theorem C11_flagged_line_wins :
    isGitHubWorkflow flowInManifestFile = false ∧
    Fix (fun _ => .ok flowInManifestFile) ⟨5⟩ flowInManifest
      = some (flowInManifest, false, some .ErrFlowStyleNotSupported) := by
  refine ⟨by rfl, by rfl⟩

/-- C11, amended: a content that lacks `jobs:` or `runs-on:` gets
`(content, false, nil)` whatever its lines and whatever the parser; a content that
holds both, in which the line scan flags nothing and whose parsed file fails the
workflow validation, gets `(content, false, nil)`; and a content that holds both and
has a flagged line gets the error of the scan, whether or not it is a workflow. -/
theorem C11_not_applicable (ParseBytes : Parser) (f : Fixer) (content : GoString) :
    ((strings.Contains content (str "jobs:") = false ∨
        strings.Contains content (str "runs-on:") = false) →
      Fix ParseBytes f content = some (content, false, none)) ∧
    (∀ file, strings.Contains content (str "jobs:") = true →
      strings.Contains content (str "runs-on:") = true →
      Fix.scanLines (strings.Split content 10) = none →
      ParseBytes content = .ok file → isGitHubWorkflow file = false →
      Fix ParseBytes f content = some (content, false, none)) ∧
    (∀ e, strings.Contains content (str "jobs:") = true →
      strings.Contains content (str "runs-on:") = true →
      Fix.scanLines (strings.Split content 10) = some e →
      Fix ParseBytes f content = some (content, false, some e)) := by
  refine ⟨Fix_of_not_gate1 ParseBytes f content, ?_, ?_⟩
  · intro file hjobs hruns hscan hparse hwf
    rw [Fix_of_gate1 ParseBytes f content hjobs hruns, hscan, hparse]
    simp [hwf]
  · intro e hjobs hruns hscan
    rw [Fix_of_gate1 ParseBytes f content hjobs hruns, hscan]

/-- The test case `non-github-workflow yaml with jobs and runs-on` instantiates the
second part of C11, and `flowInManifest` the third. -/
theorem C11_not_applicable_witness :
    Fix (fun _ => .ok kubernetesLikeFile) ⟨5⟩ kubernetesLike
      = some (kubernetesLike, false, none) ∧
    Fix (fun _ => .ok flowInManifestFile) ⟨5⟩ flowInManifest
      = some (flowInManifest, false, some .ErrFlowStyleNotSupported) :=
  ⟨(C11_not_applicable (fun _ => .ok kubernetesLikeFile) ⟨5⟩ kubernetesLike).2.1
      kubernetesLikeFile (by rfl) (by rfl) (by rfl) rfl (by rfl),
    (C11_not_applicable (fun _ => .ok flowInManifestFile) ⟨5⟩ flowInManifest).2.2
      .ErrFlowStyleNotSupported (by rfl) (by rfl) (by rfl)⟩

/-- C12: if `jobs:` or `runs-on:` does not occur in the content, `Fix` returns
`(content, false, nil)`; the result is the same for every parser and every line of
the text, as neither the scan nor the parser is reached. -/
theorem C12_gate1 (ParseBytes : Parser) (f : Fixer) (content : GoString)
    (h : strings.Contains content (str "jobs:") = false ∨
      strings.Contains content (str "runs-on:") = false) :
    Fix ParseBytes f content = some (content, false, none) := by
  rcases h with h | h <;> simp [Fix, h]

/-- The workflow `containerSteps`, which never holds the text `runs-on:`, instantiates
C12: although its tree is a valid workflow with a job lacking `timeout-minutes`, `Fix`
returns it unchanged; so does the empty text. -/
theorem C12_gate1_witness :
    isGitHubWorkflow containerStepsFile = true ∧
    getPositions containerStepsFile = some [⟨2, 3⟩] ∧
    Fix (fun _ => .ok containerStepsFile) ⟨5⟩ containerSteps
      = some (containerSteps, false, none) ∧
    Fix (fun _ => .ok containerStepsFile) ⟨5⟩ [] = some ([], false, none) :=
  ⟨by rfl, by rfl,
    C12_gate1 (fun _ => .ok containerStepsFile) ⟨5⟩ containerSteps (Or.inr (by rfl)),
    C12_gate1 (fun _ => .ok containerStepsFile) ⟨5⟩ [] (Or.inl (by rfl))⟩

/-- C13, as stated, fails: in `unindentedLines` the flow-style special case does not
apply at job line 2, the first line at index 2 or later whose trimmed text starts
with a recognised property is `runs-on: x`, whose leading white space is empty, and
`getJobPropertyIndent` returns the four spaces of the later line `steps:`: a line
with `len(line) - len(trimmed) = 0` is passed over. -/
theorem C13_unindented_line_skipped :
    flowStyleCase unindentedLines 2 = false ∧
    unindentedLines.drop 2 = [str "runs-on: x", str "    steps: []"] ∧
    recognisedProperty (strings.TrimSpace (str "runs-on: x")) = true ∧
    strings.TrimLeftSpace (str "runs-on: x") = str "runs-on: x" ∧
    getJobPropertyIndent unindentedLines 2 = some (.ok (str "    ")) := by
  refine ⟨by rfl, by rfl, by rfl, by rfl, by rfl⟩

/-- C13, amended: when the flow-style special case does not apply and `jobLine ≥ 0`,
let `line` be the first line at index `jobLine` or later whose trimmed text starts
with one of `runs-on:`, `steps:`, `permissions:`, `strategy:`, `timeout-minutes:`,
`needs:` and which has white space around it (every earlier line from `jobLine` on
is either not such a property line or has no white space at either end). If `line`
has leading white space and no trailing white space, `getJobPropertyIndent` returns
its leading-white-space prefix, verbatim: `line` is the returned indent followed by
`line` with its leading white space removed. -/
theorem C13_indent_of_first_property (lines pre post : List GoString) (line : GoString)
    (jobLine : Int) (h0 : 0 ≤ jobLine)
    (hflow : flowStyleCase lines jobLine = false)
    (hsplit : lines.drop jobLine.toNat = pre ++ line :: post)
    (hpre : ∀ l ∈ pre, recognisedProperty (strings.TrimSpace l) = false ∨
      strings.TrimSpace l = l)
    (hrec : recognisedProperty (strings.TrimSpace line) = true)
    (htrail : strings.TrimSpace line = strings.TrimLeftSpace line)
    (hlead : (strings.TrimLeftSpace line).length < line.length) :
    ∃ indent, getJobPropertyIndent lines jobLine = some (.ok indent) ∧
      line = indent ++ strings.TrimLeftSpace line := by
  refine ⟨line.take (line.length - (strings.TrimLeftSpace line).length), ?_, ?_⟩
  · rw [getJobPropertyIndent_eq_loop lines jobLine h0 hflow, hsplit,
      indent_loop_first pre post line hpre hrec (by rw [htrail]; exact hlead), htrail]
  · obtain ⟨k, hk⟩ := TrimLeftSpace_eq_drop line
    rw [hk] at hlead ⊢
    rw [List.length_drop] at hlead ⊢
    by_cases hkl : k ≤ line.length
    · have e : line.length - (line.length - k) = k := by omega
      rw [e, List.take_append_drop]
    · have e : line.length - (line.length - k) = line.length := by omega
      rw [e, List.take_length, List.drop_eq_nil_of_le (by omega), List.append_nil]

/-- The test case `4 space indent` instantiates C13: the indent is eight spaces. -/
theorem C13_indent_of_first_property_witness :
    ∃ indent, getJobPropertyIndent fourSpaceLines 2 = some (.ok indent) ∧
      str "        runs-on: ubuntu-latest"
        = indent ++ strings.TrimLeftSpace (str "        runs-on: ubuntu-latest") :=
  C13_indent_of_first_property fourSpaceLines [] [] (str "        runs-on: ubuntu-latest") 2
    (by decide) (by rfl) (by rfl) (by simp) (by rfl) (by rfl) (by decide)

/-- C14, as stated, fails: in `flowJobLines` no line at index 1 or later starts,
after trimming, with a recognised property, and `getJobPropertyIndent` returns four
spaces, not `ErrIndentNotCalculated`: its flow-style special case answers before the
scan. -/
theorem C14_special_case_answers :
    (∀ l ∈ flowJobLines.drop 1, recognisedProperty (strings.TrimSpace l) = false) ∧
    getJobPropertyIndent flowJobLines 1 = some (.ok (str "    ")) := by
  refine ⟨by decide, by rfl⟩

/-- C14, amended: if `jobLine ≥ 0`, the flow-style special case does not apply and no
line at index `jobLine` or later starts, after trimming, with a recognised property,
`getJobPropertyIndent` returns `ErrIndentNotCalculated`. And when `Fix` has reached
its loop, the loop has visited the positions `visited` (leaving the working lines
`lines1`) and the call for the next position `pos`, in range, returns that error,
`Fix` returns the content, `changed = false` and an error `err` with
`errors.Is(err, ErrIndentNotCalculated)`: nothing spliced into `lines1` is kept. -/
theorem C14_indent_not_calculated :
    (∀ (lines : List GoString) (jobLine : Int), 0 ≤ jobLine →
      flowStyleCase lines jobLine = false →
      (∀ l ∈ lines.drop jobLine.toNat, recognisedProperty (strings.TrimSpace l) = false) →
      getJobPropertyIndent lines jobLine = some (.error .ErrIndentNotCalculated)) ∧
    (∀ (ParseBytes : Parser) (f : Fixer) (content : GoString) (file : File)
      (positions visited rest : List position) (pos : position)
      (lines1 : List GoString) (m1 : Bool),
      strings.Contains content (str "jobs:") = true →
      strings.Contains content (str "runs-on:") = true →
      Fix.scanLines (strings.Split content 10) = none →
      ParseBytes content = .ok file → isGitHubWorkflow file = true →
      getPositions file = some positions →
      positions.reverse = visited ++ pos :: rest →
      Fix.insertLoop f visited (strings.Split content 10) false = some (.ok (lines1, m1)) →
      1 ≤ pos.Line → pos.Line ≤ (lines1.length : Int) →
      getJobPropertyIndent lines1 pos.Line = some (.error .ErrIndentNotCalculated) →
      Fix ParseBytes f content
          = some (content, false, some (.Wrapf .ErrIndentNotCalculated (pos.Line + 1))) ∧
        (GoError.Wrapf .ErrIndentNotCalculated (pos.Line + 1)).Is .ErrIndentNotCalculated
          = true) := by
  constructor
  · intro lines jobLine h0 hflow hall
    rw [getJobPropertyIndent_eq_loop lines jobLine h0 hflow]
    generalize lines.drop jobLine.toNat = ls at hall
    induction ls with
    | nil => rfl
    | cons l rest ih =>
      have hl := hall l (List.mem_cons_self _ _)
      rw [indent_loop_cons, if_neg (fun h => by rw [hl] at h; exact absurd h.1 (by decide))]
      exact ih (fun x hx => hall x (List.mem_cons_of_mem _ hx))
  · intro ParseBytes f content file positions visited rest pos lines1 m1 hjobs hruns hscan
      hparse hwf hpos hrev hvisited h1 h2 hind
    refine ⟨?_, by simp [GoError.Is]⟩
    have hne : positions.length ≠ 0 := by
      intro hc
      have := congrArg List.length hrev
      simp only [List.length_reverse, List.length_append, List.length_cons] at this
      omega
    have hloop : Fix.insertLoop f positions.reverse (strings.Split content 10) false
        = some (.error (.Wrapf .ErrIndentNotCalculated (pos.Line + 1))) := by
      rw [hrev, insertLoop_append, hvisited]
      simp only []
      rw [insertLoop_cons_inrange f pos rest lines1 m1 h1 h2, hind]
    rw [Fix_of_gate1 ParseBytes f content hjobs hruns, hscan, hparse]
    simp only [hwf, Bool.not_true, Bool.false_eq_true, if_false, hpos, hne, hloop]

/-- The workflow `containerOnly` instantiates C14: no line after the key of job `a`
starts with a recognised property, the indent calculation for the only position fails
and `Fix` returns the wrapped error. -/
theorem C14_indent_not_calculated_witness :
    getJobPropertyIndent (strings.Split containerOnly 10) 2
      = some (.error .ErrIndentNotCalculated) ∧
    Fix (fun _ => .ok containerOnlyFile) ⟨5⟩ containerOnly
      = some (containerOnly, false, some (.Wrapf .ErrIndentNotCalculated 3)) :=
  ⟨C14_indent_not_calculated.1 (strings.Split containerOnly 10) 2 (by decide) (by rfl)
      (by decide),
    (C14_indent_not_calculated.2 (fun _ => .ok containerOnlyFile) ⟨5⟩ containerOnly
      containerOnlyFile [⟨2, 3⟩] [] [] ⟨2, 3⟩ (strings.Split containerOnly 10) false
      (by rfl) (by rfl) (by rfl) rfl (by rfl) (by rfl) (by rfl) (by rfl) (by decide)
      (by decide) (by rfl)).1⟩

/-- C15 fails on the code. In `emptyAfterCR` the job `empty` has no body and
`getPositions` schedules the jobs `a` and `c` only, on lines 4 and 7 of the parser.
The first two lines of the text end in a bare carriage return, so the text split on
line feeds has six lines and its line 4 is the key line of `empty`: the position of
`c` does not pass the range check of the loop, and the line for `a` goes directly
under `  empty:`. `Fix` reports a change and no error; the empty job has received a
line, the jobs `a` and `c` none. On the text of the test `TestFixer_Fix_EmptyJobs`,
which has no carriage return, the empty jobs receive nothing. -/
theorem C15_empty_job_receives_line :
    getPositions emptyAfterCRFile = some [⟨4, 3⟩, ⟨7, 3⟩] ∧
    (strings.Split emptyAfterCR 10).length = 6 ∧
    Fix (fun _ => .ok emptyAfterCRFile) ⟨5⟩ emptyAfterCR
      = some (emptyAfterCRFixed, true, none) ∧
    strings.Split emptyAfterCRFixed 10
      = [str "name: x\ron: push\rjobs:", str "  a:", str "    runs-on: x", str "  empty:",
          str "    timeout-minutes: 5", str "  c:", str "    runs-on: y"] ∧
    Fix (fun _ => .ok emptyJobsFile) ⟨5⟩ emptyJobs = some (emptyJobsFixed, true, none) := by
  refine ⟨by rfl, by rfl, by rfl, by rfl, by rfl⟩

/-- C16: for every line of the form
`<indentation>[-<spaces>]<uses key, bare or quoted><spaces>:<spaces><owner>/<repo>[/<p1>/.../<pk>]@<ref><spaces>[# comment]`,
the reference optionally wrapped in quotes, `parseLine` matches and returns the
reference `{Owner, Repo, Path, RefOrSHA}` with `Path` the segments after the repo
joined by `/` (empty when there are none), as prefix the text of the line before the
reference and its opening quote, and as comment the trailing comment from `#` on
(empty when there is none). -/
theorem C16_parseLine_of_form (u : pin.UsesLine) (h : u.WellFormed) :
    u.render = u.head ++ (u.quoteText ++ (u.reference ++
      (u.quoteText ++ (u.beforeComment ++ u.comment)))) ∧
    pin.parseLine u.render
      = some ⟨⟨u.owner, u.repo, [47].intercalate u.segments, u.ref⟩, u.head, u.comment⟩ :=
  ⟨rfl, parseLine_render u h⟩

/-- The quoted line `      "uses": "actions/checkout@v4"  # pinned later` instantiates
C16. -/
theorem C16_parseLine_of_form_witness :
    pin.parseLine (str "      \"uses\": \"actions/checkout@v4\"  # pinned later")
      = some ⟨⟨str "actions", str "checkout", [], str "v4"⟩, str "      \"uses\": ",
          str "# pinned later"⟩ :=
  (C16_parseLine_of_form pin.quotedLine (by unfold pin.UsesLine.WellFormed; decide)).2

/-- C17: `parseLine` returns "no match" for every line that does not begin, after
white space and an optional list marker (`-` and white space), with the key `uses`,
bare or quoted; in particular for every line whose first non-blank character is `#`,
for the empty line, a line with another key, a comment line that holds
`uses: owner/repo@ref`, an input that starts with a comment line, and a line in which
`uses:` stands in the middle of other text. -/
theorem C17_parseLine_no_match :
    (∀ line : GoString,
      (¬ ∃ indent marker key rest, line = indent ++ (marker ++ (key ++ rest)) ∧
        (∀ b ∈ indent, pin.isBlank b = true) ∧
        (marker = [] ∨ ∃ sp, marker = 45 :: sp ∧ ∀ b ∈ sp, pin.isBlank b = true) ∧
        (key = str "uses" ∨ key = str "\"uses\"" ∨ key = str "'uses'")) →
      pin.parseLine line = none) ∧
    (∀ indent rest : GoString, (∀ b ∈ indent, pin.isBlank b = true) →
      pin.parseLine (indent ++ 35 :: rest) = none) ∧
    pin.parseLine (str "") = none ∧
    pin.parseLine (str "run: echo hello") = none ∧
    pin.parseLine (str "# This comment has uses: actions/checkout@v4") = none ∧
    pin.parseLine (str "  # This is a leading comment\n- uses: actions/checkout@v4") = none ∧
    pin.parseLine (str "Some text with uses: actions/checkout@v4 in the middle") = none := by
  refine ⟨?_, ?_, by rfl, by rfl, by rfl, by rfl, by rfl⟩
  · intro line hno
    cases hp : pin.parseLine line with
    | none => rfl
    | some p => exact absurd (parseLine_begins line p hp) hno
  · intro indent rest hindent
    have h1 : pin.skipBlank (indent ++ 35 :: rest) = 35 :: rest := by
      rw [pin.skipBlank, dropWhile_append_all _ _ _ hindent, List.dropWhile_cons,
        if_neg (by decide)]
    have h2 : pin.skipMarker (35 :: rest) = 35 :: rest := by
      rw [pin.skipMarker, if_neg (by decide)]
    have h3 : pin.skipKey (35 :: rest) = none := by
      have e1 : (str "uses").isPrefixOf (35 :: rest) = false := rfl
      have e2 : (str "\"uses\"").isPrefixOf (35 :: rest) = false := rfl
      have e3 : (str "'uses'").isPrefixOf (35 :: rest) = false := rfl
      simp only [pin.skipKey, e1, e2, e3, Bool.false_eq_true, if_false]
    simp only [pin.parseLine, h1, h2, h3]

/-- The comment line `  # uses: actions/checkout@v4` instantiates C17. -/
theorem C17_parseLine_no_match_witness :
    pin.parseLine (str "  # uses: actions/checkout@v4") = none :=
  C17_parseLine_no_match.2.1 (str "  ") (str " uses: actions/checkout@v4") (by decide)

/-- C18: for every `uses` line of the form of C16 whose reference is not ignored and
for which the resolver returns `{CommitSHA, RefComment}`, `replaceLine` returns
`changed = true`, no error, and the line
`<prefix><owner>/<repo>[/<path>]@<CommitSHA> # <RefComment>`, the path as it was and a
single space before `#`; a trailing comment `# C` of the input follows after one
more space, so that the result ends with ` # <RefComment> # C`. -/
theorem C18_replaceLine_pins (p : pin.Pin) (u : pin.UsesLine)
    (resolved : pin.ResolvedVersion) (h : u.WellFormed)
    (hignore : pin.isIgnored p u.definition = false)
    (hresolve : p.resolver u.definition = .ok resolved) :
    pin.replaceLine p u.render =
      (u.head ++ u.owner ++ str "/" ++ u.repo ++
          (if [47].intercalate u.segments = [] then []
            else str "/" ++ [47].intercalate u.segments) ++
          str "@" ++ resolved.CommitSHA ++ str " # " ++ resolved.RefComment ++
          (if u.comment = [] then [] else str " " ++ u.comment),
        true, none) := by
  rw [replaceLine_of_parsed p u.render _ (parseLine_render u h)]
  simp only [hignore, Bool.false_eq_true, if_false, hresolve]
  rfl

/-- The row `Action with version and comment` of `TestReplaceLine` instantiates C18. -/
theorem C18_replaceLine_pins_witness :
    pin.replaceLine ⟨pin.mockResolver, [], [], false⟩
        (str "uses: actions/checkout@v4 # Existing comment")
      = (str "uses: actions/checkout@11bd71901bbe5b1630ceea73d27597364c9af683 # v4.2.2 # Existing comment",
          true, none) :=
  C18_replaceLine_pins ⟨pin.mockResolver, [], [], false⟩ pin.commentedLine
    ⟨str "11bd71901bbe5b1630ceea73d27597364c9af683", str "v4.2.2"⟩
    (by unfold pin.UsesLine.WellFormed; decide) (by rfl) (by rfl)

/-- C20: for a `uses` line with reference `d`: if `owner/repo` is in `ignoreRepos`,
the line is returned unchanged with `changed = false`, in either mode and whatever
the resolver; with strict pinning off the same holds if the owner is in
`ignoreOwners`; with strict pinning on and the owner in `ignoreOwners`, a
reusable-workflow reference is still returned unchanged, whereas a reference that is
no reusable workflow (with or without a subpath) and whose `owner/repo` is not in
`ignoreRepos` is pinned like any other reference, `changed = true`, once the resolver
returns its version. A path under `.github/workflows/` that ends in `.yml` or `.yaml`
is a reusable workflow. -/
theorem C20_ignore_precedence (p : pin.Pin) (line : GoString) (parsed : pin.ParsedLine)
    (hparse : pin.parseLine line = some parsed) :
    (parsed.definition.Owner ++ str "/" ++ parsed.definition.Repo ∈ p.ignoreRepos →
      pin.replaceLine p line = (line, false, none)) ∧
    (p.strictPinning202508 = false → parsed.definition.Owner ∈ p.ignoreOwners →
      pin.replaceLine p line = (line, false, none)) ∧
    (p.strictPinning202508 = true → parsed.definition.Owner ∈ p.ignoreOwners →
      pin.isReusableWorkflow parsed.definition = true →
      pin.replaceLine p line = (line, false, none)) ∧
    (p.strictPinning202508 = true → parsed.definition.Owner ∈ p.ignoreOwners →
      pin.isReusableWorkflow parsed.definition = false →
      parsed.definition.Owner ++ str "/" ++ parsed.definition.Repo ∉ p.ignoreRepos →
      ∀ resolved, p.resolver parsed.definition = .ok resolved →
        pin.replaceLine p line = (pin.pinnedLine parsed resolved, true, none)) ∧
    (∀ d : pin.ActionDef, (str ".github/workflows/").isPrefixOf d.Path = true →
      ((str ".yml").isSuffixOf d.Path = true ∨ (str ".yaml").isSuffixOf d.Path = true) →
      pin.isReusableWorkflow d = true) := by
  have hrepl := replaceLine_of_parsed p line parsed hparse
  refine ⟨?_, ?_, ?_, ?_, ?_⟩
  · intro hrepo
    rw [List.append_assoc] at hrepo
    have : pin.isIgnored p parsed.definition = true := by
      simp [pin.isIgnored, List.contains, List.elem_iff, hrepo]
    rw [hrepl, if_pos this]
  · intro hstrict howner
    have : pin.isIgnored p parsed.definition = true := by
      simp [pin.isIgnored, List.contains, List.elem_iff, howner, hstrict]
    rw [hrepl, if_pos this]
  · intro hstrict howner hreusable
    have : pin.isIgnored p parsed.definition = true := by
      simp [pin.isIgnored, List.contains, List.elem_iff, howner, hreusable]
    rw [hrepl, if_pos this]
  · intro hstrict howner hreusable hrepo resolved hres
    rw [List.append_assoc] at hrepo
    have : ¬ pin.isIgnored p parsed.definition = true := by
      simp [pin.isIgnored, List.contains, List.elem_iff, hrepo, hstrict, hreusable]
    rw [hrepl, if_neg this, hres]
  · intro d h1 h2
    rcases h2 with h2 | h2 <;> simp [pin.isReusableWorkflow, h1, h2]

/-- Two rows of `TestStrictPinning202508` instantiate C20: with strict pinning on and
the owner ignored, `actions/checkout@v4` is pinned, and the reusable workflow
`org/repo/.github/workflows/build.yml@main` is left unchanged. -/
theorem C20_ignore_precedence_witness :
    pin.replaceLine ⟨pin.mockResolver, [str "actions"], [], true⟩
        (str "- uses: actions/checkout@v4")
      = (str "- uses: actions/checkout@11bd71901bbe5b1630ceea73d27597364c9af683 # v4.2.2",
          true, none) ∧
    pin.replaceLine ⟨pin.mockResolver, [str "org"], [], true⟩
        (str "- uses: org/repo/.github/workflows/build.yml@main")
      = (str "- uses: org/repo/.github/workflows/build.yml@main", false, none) :=
  ⟨(C20_ignore_precedence ⟨pin.mockResolver, [str "actions"], [], true⟩
      (str "- uses: actions/checkout@v4")
      ⟨⟨str "actions", str "checkout", [], str "v4"⟩, str "- uses: ", []⟩ (by rfl)).2.2.2.1
      rfl (by decide) (by rfl) (by decide)
      ⟨str "11bd71901bbe5b1630ceea73d27597364c9af683", str "v4.2.2"⟩ (by rfl),
    (C20_ignore_precedence ⟨pin.mockResolver, [str "org"], [], true⟩
      (str "- uses: org/repo/.github/workflows/build.yml@main")
      ⟨⟨str "org", str "repo", str ".github/workflows/build.yml", str "main"⟩,
        str "- uses: ", []⟩ (by rfl)).2.2.1 rfl (by decide) (by rfl)⟩

/-- C21: for every line array and every list of positions with strictly increasing
line numbers `p_1 < ... < p_k`, all in `1..len(lines)`, the insertion loop of `Fix`,
which visits the positions from the last to the first, never panics; it succeeds when
the indent calculation succeeds for each position on the lines it starts with; and
whenever it succeeds its result is the ascending, offset-adjusted splice of one
timeout line per position: the line of the `i`-th position (counting from 0) sits at
index `p_i + i`, directly after the original line `p_i` (at index `p_i + i - 1`), the
result has one line more per position, and deleting the inserted lines gives back the
original lines in their order. -/
theorem C21_descending_is_ascending (f : Fixer) (lines : List GoString)
    (positions : List position)
    (hasc : (positions.map (fun p => p.Line)).Pairwise (fun a b => a < b))
    (hin : ∀ p ∈ positions, 1 ≤ p.Line ∧ p.Line ≤ (lines.length : Int)) :
    (∃ r, Fix.insertLoop f positions.reverse lines false = some r) ∧
    ((∀ p ∈ positions, ∃ indent, getJobPropertyIndent lines p.Line = some (.ok indent)) →
      ∃ R b, Fix.insertLoop f positions.reverse lines false = some (.ok (R, b))) ∧
    ∀ (R : List GoString) (b : Bool),
      Fix.insertLoop f positions.reverse lines false = some (.ok (R, b)) →
      ∃ texts : List GoString,
        texts.length = positions.length ∧
        (∀ t ∈ texts, ∃ indent, t = Fix.timeoutLine f indent) ∧
        R = spliceAscending ((positions.map (fun p => p.Line.toNat)).zip texts) 0 lines ∧
        R.length = lines.length + positions.length ∧
        (∀ (i : Nat) (p : position), positions[i]? = some p →
          (∃ t, texts[i]? = some t ∧ R[p.Line.toNat + i]? = some t) ∧
          R[p.Line.toNat + i - 1]? = lines[p.Line.toNat - 1]?) ∧
        positions.foldl (fun acc p => acc.eraseIdx p.Line.toNat) R = lines ∧
        (b = true ↔ positions ≠ []) := by
  have hdesc : ((positions.reverse).map (fun d => d.Line)).Pairwise (fun x y => x > y) := by
    rw [List.map_reverse, List.pairwise_reverse]
    exact hasc
  have hinr : ∀ d ∈ positions.reverse, 1 ≤ d.Line ∧ d.Line ≤ (lines.length : Int) :=
    fun d hd => hin d (List.mem_reverse.1 hd)
  refine ⟨insertLoop_total f _ lines false, ?_, ?_⟩
  · intro hok
    exact insertLoop_succeeds f _ lines false hdesc hinr
      (fun d hd => hok d (List.mem_reverse.1 hd))
  · intro R b hloop
    obtain ⟨qs, hq1, hq2, hq4, hq5⟩ :=
      insertLoop_inrange f _ lines false R b hdesc hinr hloop
    rw [List.reverse_reverse] at hq1
    have hmem : ∀ q ∈ qs, ∃ p ∈ positions, q.1 = p.Line.toNat := by
      intro q hq
      have : q.1 ∈ qs.map Prod.fst := List.mem_map_of_mem _ hq
      rw [hq1] at this
      obtain ⟨p, hp, e⟩ := List.mem_map.1 this
      exact ⟨p, hp, e.symm⟩
    have hlen : ∀ q ∈ qs, q.1 ≤ lines.length := by
      intro q hq
      obtain ⟨p, hp, e⟩ := hmem q hq
      have := hin p hp
      omega
    have hge : ∀ q ∈ qs, 1 ≤ q.1 := by
      intro q hq
      obtain ⟨p, hp, e⟩ := hmem q hq
      have := hin p hp
      omega
    have hsorted : (qs.map Prod.fst).Pairwise (fun a b => a < b) := by
      rw [hq1, List.pairwise_map]
      refine List.Pairwise.imp_of_mem ?_ (List.pairwise_map.1 hasc)
      intro a c ha _ hac
      have := hin a ha
      omega
    have hzip : qs = (positions.map (fun p => p.Line.toNat)).zip (qs.map Prod.snd) :=
      List.zip_of_prod hq1 rfl
    have hcount : qs.length = positions.length := by
      have := congrArg List.length hq1
      simpa using this
    refine ⟨qs.map Prod.snd, by simpa using hcount, ?_, ?_, ?_, ?_, ?_, ?_⟩
    · intro t ht
      obtain ⟨q, hq, e⟩ := List.mem_map.1 ht
      obtain ⟨indent, hind⟩ := hq2 q hq
      exact ⟨indent, by rw [← e, hind]⟩
    · rw [← hzip, spliceAscending_eq_spliceAll qs 0 lines hsorted (by simpa using hlen), hq4]
      simp
    · rw [hq4, spliceAll_length, hcount]
    · intro i p hp
      have h1 : (qs.map Prod.fst)[i]? = some p.Line.toNat := by
        rw [hq1, List.getElem?_map, hp]
        rfl
      rw [List.getElem?_map] at h1
      cases hqi : qs[i]? with
      | none => rw [hqi] at h1; simp at h1
      | some q =>
        rw [hqi] at h1
        simp only [Option.map_some', Option.some.injEq] at h1
        constructor
        · refine ⟨q.2, by rw [List.getElem?_map, hqi]; rfl, ?_⟩
          rw [hq4, ← h1]
          exact spliceAll_get_inserted qs _ hlen hsorted i q hqi
        · rw [hq4, ← h1]
          exact spliceAll_get_key qs _ hlen hge hsorted i q hqi
    · have h1 := spliceAll_erase qs lines hlen
      rw [← hq4] at h1
      have h2 : qs.foldl (fun acc q => acc.eraseIdx q.1) R
          = (qs.map Prod.fst).foldl (fun acc n => acc.eraseIdx n) R := by
        rw [List.foldl_map]
      have h3 : positions.foldl (fun acc p => acc.eraseIdx p.Line.toNat) R
          = (positions.map (fun d => d.Line.toNat)).foldl (fun acc n => acc.eraseIdx n) R := by
        rw [List.foldl_map]
      rw [h3, ← hq1, ← h2, h1]
    · rw [hq5]
      simp

/-- The test `TestFixer_Fix_SpecialJobNames` instantiates C21: the four job keys are
on lines 2, 4, 6 and 8, and the loop turns the lines of `specialNames` into those of
`specialNamesFixed`, which is the ascending splice of four lines. -/
theorem C21_descending_is_ascending_witness :
    Fix.insertLoop ⟨5⟩ specialNamesPositions.reverse (strings.Split specialNames 10) false
      = some (.ok (strings.Split specialNamesFixed 10, true)) ∧
    (strings.Split specialNamesFixed 10)[2]? = some (str "    timeout-minutes: 5") ∧
    (strings.Split specialNamesFixed 10)[11]? = some (str "    timeout-minutes: 5") ∧
    ∃ texts : List GoString, texts.length = specialNamesPositions.length ∧
      strings.Split specialNamesFixed 10 =
        spliceAscending ((specialNamesPositions.map (fun p => p.Line.toNat)).zip texts) 0
          (strings.Split specialNames 10) :=
  have h := (C21_descending_is_ascending ⟨5⟩ (strings.Split specialNames 10)
    specialNamesPositions (by decide) (by decide)).2.2 (strings.Split specialNamesFixed 10) true
    (by rfl)
  ⟨by rfl, by rfl, by rfl, by
    obtain ⟨texts, h1, _, h3, _⟩ := h
    exact ⟨texts, h1, h3⟩⟩

/-- C22: for a job whose key token and value token have positions on the same line,
the job step of `getPositions` appends the position of the key if and only if the
value is a mapping with a property keyed `runs-on` and with no property keyed
`timeout-minutes` or `uses` (`flowEligible`); in every other case, in particular when
the value is no mapping or the mapping has no property keyed `runs-on`, the list of
positions is returned as it is, without a panic. For every file, `getPositions` is
this step run over all jobs of all `jobs` mappings of all documents, in order: for
such a job at any place among the jobs of any file, the result of `getPositions` is
the positions of the jobs before it, then the position of its key exactly when it is
eligible, then the positions of the jobs after it. -/
theorem C22_flow_candidate (positions : List position) (key value : Node) (kp vp : Position)
    (hkp : tokenPosition key = some kp) (hvp : tokenPosition value = some vp)
    (hline : kp.Line = vp.Line) :
    (getPositions.job positions (.mk (some key) (some value))
        = some (positions ++ [⟨kp.Line, kp.Column⟩]) ↔
      ∃ t props, value = .MappingNode t props ∧
        (∃ prop ∈ props, ∃ k, prop.Key = some k ∧ getKeyString k = str "runs-on") ∧
        (∀ prop ∈ props, ∀ k, prop.Key = some k →
          getKeyString k ≠ str "timeout-minutes" ∧ getKeyString k ≠ str "uses")) ∧
    (getPositions.job positions (.mk (some key) (some value))
        ≠ some (positions ++ [⟨kp.Line, kp.Column⟩]) →
      getPositions.job positions (.mk (some key) (some value)) = some positions) ∧
    ((∀ t props, value ≠ .MappingNode t props) →
      getPositions.job positions (.mk (some key) (some value)) = some positions) ∧
    (∀ t props, value = .MappingNode t props →
      (∀ prop ∈ props, ∀ k, prop.Key = some k → getKeyString k ≠ str "runs-on") →
      getPositions.job positions (.mk (some key) (some value)) = some positions) ∧
    (∀ (t0 t1 : Option Token) (jobsKey : Node) (jobs : List MappingValueNode),
      getKeyString jobsKey = str "jobs" →
      getPositions ⟨[⟨some (.MappingNode t0 [.mk (some jobsKey) (some (.MappingNode t1 jobs))])⟩]⟩
        = jobs.foldlM getPositions.job []) ∧
    (flowEligible value = true ↔
      ∃ t props, value = .MappingNode t props ∧
        (∃ prop ∈ props, ∃ k, prop.Key = some k ∧ getKeyString k = str "runs-on") ∧
        (∀ prop ∈ props, ∀ k, prop.Key = some k →
          getKeyString k ≠ str "timeout-minutes" ∧ getKeyString k ≠ str "uses")) ∧
    (∀ ps : List position, getPositions.job ps (.mk (some key) (some value))
      = some (if flowEligible value = true then ps ++ [⟨kp.Line, kp.Column⟩] else ps)) ∧
    (∀ file : File, getPositions file = (jobEntries file).foldlM getPositions.job []) ∧
    (∀ (file : File) (before after : List MappingValueNode),
      jobEntries file = before ++ .mk (some key) (some value) :: after →
      getPositions file = (before.foldlM getPositions.job []).bind (fun ps =>
        after.foldlM getPositions.job
          (if flowEligible value = true then ps ++ [⟨kp.Line, kp.Column⟩] else ps))) := by
  have hflow : getPositions.isFlowStyle key (.mk (some key) (some value)) = some true := by
    simp [getPositions.isFlowStyle, MappingValueNode.Value, hkp, hvp, hline]
  have hne : ∀ ps : List position, ps ++ [(⟨kp.Line, kp.Column⟩ : position)] ≠ ps := by
    intro ps hc
    have := congrArg List.length hc
    simp at this
  have hno : ∀ (props : List MappingValueNode) (name : GoString),
      hasProperty props name = false ↔
        ∀ prop ∈ props, ∀ k, prop.Key = some k → getKeyString k ≠ name := by
    intro props name
    rw [← Bool.not_eq_true, hasProperty_iff]
    constructor
    · intro h prop hprop k hk hc
      exact h ⟨prop, hprop, k, hk, hc⟩
    · rintro h ⟨prop, hprop, k, hk, hc⟩
      exact h prop hprop k hk hc
  have hstep : ∀ ps : List position, getPositions.job ps (.mk (some key) (some value))
      = some (if flowEligible value = true then ps ++ [⟨kp.Line, kp.Column⟩] else ps) := by
    intro ps
    cases value with
    | MappingNode t props =>
      simp only [getPositions.job, MappingValueNode.Key, MappingValueNode.Value, hflow, hkp,
        flowProps_spec, Bool.false_or, flowEligible]
      exact (apply_ite some _ _ _).symm
    | StringNode t v =>
      simp [getPositions.job, MappingValueNode.Key, MappingValueNode.Value, hflow, flowEligible]
    | MappingKeyNode t v =>
      simp [getPositions.job, MappingValueNode.Key, MappingValueNode.Value, hflow, flowEligible]
    | OtherNode t =>
      simp [getPositions.job, MappingValueNode.Key, MappingValueNode.Value, hflow, flowEligible]
  have helig : flowEligible value = true ↔
      ∃ t props, value = .MappingNode t props ∧
        (∃ prop ∈ props, ∃ k, prop.Key = some k ∧ getKeyString k = str "runs-on") ∧
        (∀ prop ∈ props, ∀ k, prop.Key = some k →
          getKeyString k ≠ str "timeout-minutes" ∧ getKeyString k ≠ str "uses") := by
    constructor
    · intro h
      cases value with
      | MappingNode t props =>
        simp only [flowEligible, Bool.and_eq_true, Bool.not_eq_true'] at h
        refine ⟨t, props, rfl, (hasProperty_iff _ _).1 h.1.1, ?_⟩
        intro prop hprop k hk
        exact ⟨(hno _ _).1 h.1.2 prop hprop k hk, (hno _ _).1 h.2 prop hprop k hk⟩
      | StringNode t v => simp [flowEligible] at h
      | MappingKeyNode t v => simp [flowEligible] at h
      | OtherNode t => simp [flowEligible] at h
    · rintro ⟨t, props, hv, hruns, hnone⟩
      subst hv
      simp only [flowEligible, Bool.and_eq_true, Bool.not_eq_true']
      exact ⟨⟨(hasProperty_iff _ _).2 hruns,
        (hno _ _).2 (fun prop hprop k hk => (hnone prop hprop k hk).1)⟩,
        (hno _ _).2 (fun prop hprop k hk => (hnone prop hprop k hk).2)⟩
  have hnot : flowEligible value ≠ true →
      getPositions.job positions (.mk (some key) (some value)) = some positions := by
    intro h
    rw [hstep positions, if_neg h]
  refine ⟨?_, ?_, ?_, ?_, ?_, helig, hstep, getPositions_eq_entries, ?_⟩
  · rw [← helig, hstep positions]
    by_cases h : flowEligible value = true
    · simp [h]
    · rw [if_neg h]
      constructor
      · intro hc
        simp only [Option.some.injEq] at hc
        exact absurd hc.symm (hne positions)
      · intro hc
        exact absurd hc h
  · intro h
    apply hnot
    intro hc
    rw [hstep positions, if_pos hc] at h
    exact h rfl
  · intro hv
    apply hnot
    intro hc
    obtain ⟨t, props, e, _⟩ := helig.1 hc
    exact hv t props e
  · intro t props hv hnoruns
    apply hnot
    intro hc
    obtain ⟨t1, props1, e, ⟨prop, hprop, k, hk, hr⟩, _⟩ := helig.1 hc
    rw [hv] at e
    cases e
    exact hnoruns prop hprop k hk hr
  · intro t0 t1 jobsKey jobs hjobs
    simp only [getPositions, getPositions.docs, getPositions.values, MappingValueNode.Key,
      MappingValueNode.Value, hjobs, if_true]
    rw [getPositions_jobs_foldlM]
    cases List.foldlM getPositions.job [] jobs <;> rfl
  · intro file before after hsplit
    rw [getPositions_eq_entries, hsplit, List.foldlM_append]
    cases List.foldlM getPositions.job [] before with
    | none => rfl
    | some ps =>
      show List.foldlM getPositions.job ps (.mk (some key) (some value) :: after) = _
      rw [List.foldlM_cons, hstep ps]
      rfl

/-- The job `example: { runs-on: ubuntu-latest }` of `flowInManifestFile`, a file
whose root mapping has another entry before `jobs`, instantiates C22: key and value
start on line 3, the value is eligible, and `getPositions` on the file returns the
position of the key, line 3 column 3. -/
theorem C22_flow_candidate_witness :
    getPositions.job [] flowJob = some [⟨2, 3⟩] ∧
    getPositions flowInManifestFile = some [⟨3, 3⟩] :=
  ⟨(C22_flow_candidate [] (.StringNode (tokenAt 2 3) (str "a"))
      (.MappingNode (tokenAt 2 7) [.mk (stringAt 2 9 "runs-on") (stringAt 2 18 "x")])
      ⟨2, 3⟩ ⟨2, 7⟩ rfl rfl rfl).1.2
      ⟨tokenAt 2 7, [.mk (stringAt 2 9 "runs-on") (stringAt 2 18 "x")], rfl,
        ⟨.mk (stringAt 2 9 "runs-on") (stringAt 2 18 "x"), List.mem_cons_self _ _,
          .StringNode (tokenAt 2 9) (str "runs-on"), rfl, rfl⟩,
        by
          intro prop hprop k hk
          simp only [List.mem_singleton] at hprop
          subst hprop
          cases hk
          exact ⟨by decide, by decide⟩⟩,
    (C22_flow_candidate [] (.StringNode (tokenAt 3 3) (str "example"))
      (.MappingNode (tokenAt 3 12)
        [.mk (stringAt 3 14 "runs-on") (stringAt 3 23 "ubuntu-latest")])
      ⟨3, 3⟩ ⟨3, 12⟩ rfl rfl rfl).2.2.2.2.2.2.2.2 flowInManifestFile [] [] (by rfl)⟩

/-- C23 fails on the code. `Fix` calls `getJobPropertyIndent(lines, pos.Line)` with
the 1-based line number of the job key, and the special case reads `lines[jobLine]`,
the line after the job key. In `flowKeyLine` the job key line (index 1) is a
flow-style line that passes the test of the special case, yet for its job
(`jobLine = 2`) the result is `ErrIndentNotCalculated`, not that line's two leading
blanks followed by two blanks, and `Fix` returns the error. In `matrixWorkflow` the
job key line `  build:` is not a flow-style line, yet the special case is taken: the
result is six blanks where the forward scan gives four. -/
theorem C23_special_case_reads_next_line :
    index (strings.Split flowKeyLine 10) 1 = some (str "  a:  \x7b runs-on: x \x7d") ∧
    flowStyleCase (strings.Split flowKeyLine 10) 1 = true ∧
    getPositions flowKeyLineFile = some [⟨2, 3⟩] ∧
    getJobPropertyIndent (strings.Split flowKeyLine 10) 2
      = some (.error .ErrIndentNotCalculated) ∧
    Fix (fun _ => .ok flowKeyLineFile) ⟨5⟩ flowKeyLine
      = some (flowKeyLine, false, some (.Wrapf .ErrIndentNotCalculated 3)) ∧
    index (strings.Split matrixWorkflow 10) 1 = some (str "  build:") ∧
    flowStyleCase (strings.Split matrixWorkflow 10) 1 = false ∧
    flowStyleCase (strings.Split matrixWorkflow 10) 2 = true ∧
    getJobPropertyIndent.loop ((strings.Split matrixWorkflow 10).drop 2)
      = some (.ok (str "    ")) ∧
    getJobPropertyIndent (strings.Split matrixWorkflow 10) 2 = some (.ok (str "      ")) := by
  refine ⟨by rfl, by rfl, by rfl, by rfl, by rfl, by rfl, by rfl, by rfl, by rfl, by rfl⟩

/-- C24 fails on the code. In the stream `twoDocuments` the second document has the
top-level key `kind`, outside the allow-list, and on its own is no workflow; still
`isGitHubWorkflow` accepts the stream at its first document, `getPositions` schedules
the job of the second document too (line 7), and `Fix` inserts a line into it (index
8 of the output). With the documents in the other order `Fix` changes nothing. -/
theorem C24_invalid_document_gets_line :
    isGitHubWorkflow ⟨twoDocumentsFile.Docs.drop 1⟩ = false ∧
    isGitHubWorkflow twoDocumentsFile = true ∧
    getPositions twoDocumentsFile = some [⟨2, 3⟩, ⟨7, 3⟩] ∧
    Fix (fun _ => .ok twoDocumentsFile) ⟨5⟩ twoDocuments
      = some (twoDocumentsFixed, true, none) ∧
    (strings.Split twoDocumentsFixed 10)[5]? = some (str "kind: Deployment") ∧
    (strings.Split twoDocumentsFixed 10)[8]? = some (str "    timeout-minutes: 5") ∧
    Fix (fun _ => .ok twoDocumentsSwappedFile) ⟨5⟩ twoDocumentsSwapped
      = some (twoDocumentsSwapped, false, none) := by
  refine ⟨by rfl, by rfl, by rfl, by rfl, by rfl, by rfl, by rfl⟩

/-- C25: for every list of lines and every `jobLine ≥ 0`, `getJobPropertyIndent`
returns without a panic (no index and no slice out of range), and for
`jobLine ≥ len(lines)` it returns `ErrIndentNotCalculated`. The insertion loop of
`Fix` consults it only at `(lines, jobLine)` with `1 ≤ jobLine ≤ len(lines)`: the
loop run with any indent calculation that agrees with `getJobPropertyIndent` on these
arguments gives the result of the loop of `Fix`, and that loop never panics. -/
theorem C25_indent_total (lines : List GoString) (jobLine : Int) (h0 : 0 ≤ jobLine) :
    (∃ r, getJobPropertyIndent lines jobLine = some r) ∧
    ((lines.length : Int) ≤ jobLine →
      getJobPropertyIndent lines jobLine = some (.error .ErrIndentNotCalculated)) ∧
    (∀ (f : Fixer) (ds : List position) (m : Bool)
      (g : List GoString → Int → Option (Except GoError GoString)),
      (∀ (ls : List GoString) (j : Int), 1 ≤ j → j ≤ (ls.length : Int) →
        g ls j = getJobPropertyIndent ls j) →
      Fix.insertLoopWith g f ds lines m = Fix.insertLoop f ds lines m) ∧
    (∀ (f : Fixer) (ds : List position) (m : Bool),
      ∃ r, Fix.insertLoop f ds lines m = some r) := by
  refine ⟨getJobPropertyIndent_total lines jobLine h0, ?_, ?_, ?_⟩
  · intro hge
    have hflow : flowStyleCase lines jobLine = false := by
      have hnone : index lines jobLine = none := by
        simp only [index, h0, if_true]
        exact List.getElem?_eq_none (by omega)
      simp [flowStyleCase, hnone]
    rw [getJobPropertyIndent_eq_loop lines jobLine h0 hflow,
      List.drop_eq_nil_of_le (by omega)]
    rfl
  · intro f ds m g hg
    rw [insertLoopWith_congr f g getJobPropertyIndent hg ds lines m]
    exact insertLoopWith_getJobPropertyIndent f ds lines m
  · intro f ds m
    exact insertLoop_total f ds lines m

/-- The test case `out of bounds line` instantiates C25: two lines, `jobLine = 5`,
the result is `ErrIndentNotCalculated`. -/
theorem C25_indent_total_witness :
    getJobPropertyIndent outOfBoundsLines 5 = some (.error .ErrIndentNotCalculated) :=
  (C25_indent_total outOfBoundsLines 5 (by decide)).2.1 (by decide)

/-- C26 fails on the code. On the lines of `trailingBlanks`, whose property line ends
in two blanks, `getJobPropertyIndent` succeeds with the four leading blanks followed
by the letters `ru`: the indent length is computed from the text trimmed on both
sides. The result does not consist of blanks and tabs only, and the line that `Fix`
inserts is `    rutimeout-minutes: 5`, in which `timeout-minutes:` does not directly
follow the leading white space. -/
theorem C26_indent_not_blank :
    getJobPropertyIndent (strings.Split trailingBlanks 10) 2 = some (.ok (str "    ru")) ∧
    ¬ (∀ b ∈ str "    ru", b = 32 ∨ b = 9) ∧
    Fix (fun _ => .ok trailingBlanksFile) ⟨5⟩ trailingBlanks
      = some (trailingBlanksFixed, true, none) ∧
    (strings.Split trailingBlanksFixed 10)[2]? = some (str "    rutimeout-minutes: 5") ∧
    strings.HasPrefix (strings.TrimLeft (str "    rutimeout-minutes: 5") (str " \t"))
      (str "timeout-minutes:") = false := by
  refine ⟨by rfl, by decide, by rfl, by rfl, by rfl⟩

/-- C27: `getKeyString` returns the value of a key that is a string node or a
mapping-key node wrapping a string node, and the empty string for every other key.
The result does not depend on the token of the node, which is where a quoted key
differs from its bare form: in `quotedKeysFile` the keys `"timeout-minutes"` and
`'uses'` are recognised and no job is scheduled. A top-level entry whose key string
is empty is no invalid key, and `isGitHubWorkflow` gives the same answer with and
without such an entry. -/
theorem C27_getKeyString :
    (∀ (t : Option Token) (v : GoString), getKeyString (.StringNode t v) = v) ∧
    (∀ (t t1 : Option Token) (v : GoString),
      getKeyString (.MappingKeyNode t (some (.StringNode t1 v))) = v) ∧
    (∀ key : Node, (∀ t v, key ≠ .StringNode t v) →
      (∀ t t1 v, key ≠ .MappingKeyNode t (some (.StringNode t1 v))) →
      getKeyString key = []) ∧
    (∀ (t1 t2 : Option Token) (v : GoString),
      getKeyString (.StringNode t1 v) = getKeyString (.StringNode t2 v)) ∧
    getPositions quotedKeysFile = some [] ∧
    Fix (fun _ => .ok quotedKeysFile) ⟨5⟩ quotedKeys = some (quotedKeys, false, none) ∧
    (∀ (entry : MappingValueNode) (k : Node), entry.Key = some k → getKeyString k = [] →
      isGitHubWorkflow.invalidKey entry = false) ∧
    (∀ (t : Option Token) (before after : List MappingValueNode) (entry : MappingValueNode)
      (k : Node) (rest : List DocumentNode), entry.Key = some k → getKeyString k = [] →
      isGitHubWorkflow ⟨⟨some (.MappingNode t (before ++ entry :: after))⟩ :: rest⟩
        = isGitHubWorkflow ⟨⟨some (.MappingNode t (before ++ after))⟩ :: rest⟩) := by
  refine ⟨fun _ _ => rfl, fun _ _ _ => rfl, ?_, fun _ _ _ => rfl, by rfl, by rfl, ?_, ?_⟩
  · intro key h1 h2
    cases key with
    | StringNode t v => exact absurd rfl (h1 t v)
    | MappingKeyNode t v =>
      cases v with
      | none => rfl
      | some n =>
        cases n with
        | StringNode t1 v1 => exact absurd rfl (h2 t t1 v1)
        | MappingKeyNode _ _ => rfl
        | MappingNode _ _ => rfl
        | OtherNode _ => rfl
    | MappingNode _ _ => rfl
    | OtherNode _ => rfl
  · intro entry k hk hempty
    exact (empty_key_entry entry k hk hempty).1
  · intro t before after entry k rest hk hempty
    obtain ⟨h1, h2⟩ := empty_key_entry entry k hk hempty
    simp only [isGitHubWorkflow, isGitHubWorkflow.docs, List.any_append, List.any_cons, h1, h2,
      Bool.false_or]

/-- The workflow `sequenceKeyFile`, whose first top-level key is a sequence,
instantiates C27: the key string of that entry is empty and the file is accepted like
the file without the entry. -/
theorem C27_getKeyString_witness :
    getKeyString (.MappingKeyNode (tokenAt 1 1) (some (.OtherNode (tokenAt 1 3)))) = [] ∧
    isGitHubWorkflow sequenceKeyFile = true :=
  ⟨C27_getKeyString.2.2.1 _ (by intro t v hc; cases hc) (by intro t t1 v hc; cases hc),
    (C27_getKeyString.2.2.2.2.2.2.2 (tokenAt 1 1) []
      [.mk (stringAt 3 1 "jobs") (mappingAt 4 3
        [.mk (stringAt 4 3 "test") (mappingAt 5 5
          [.mk (stringAt 5 5 "runs-on") (stringAt 5 14 "ubuntu-latest")])])]
      (.mk (some (.MappingKeyNode (tokenAt 1 1) (some (.OtherNode (tokenAt 1 3)))))
        (stringAt 2 3 "c"))
      (.MappingKeyNode (tokenAt 1 1) (some (.OtherNode (tokenAt 1 3)))) [] rfl rfl).trans
      (by rfl)⟩

end timeout
